import Mathlib

/-!
# List comprehensions: clause parser and chain generator

A shallow embedding of `src/index.js` (the AST plugin) and `src/preprocessor.js`
(the textual preprocessor).  JavaScript strings are lists of characters, the
regular expressions of the source are values of a small regular-expression type
run by a backtracking matcher, and the `babel` collaborator is a parameter.

A character here is a Unicode code point where JavaScript has UTF-16 code units;
the classes of the source (`\s`, `[^)]`, the literal characters) tell no code unit
of a surrogate pair from another, so the matches are the same.
-/

namespace ListComprehension

/-- A JavaScript string, as the list of its characters. -/
abbrev Str := List Char

/-- The characters matched by `\s` in a JavaScript regular expression:
tab, line feed, vertical tab, form feed, carriage return, space, no-break space,
the Unicode space separators, the line and paragraph separators and the
byte-order mark. -/
def isSpace (c : Char) : Bool :=
  c.toNat = 0x09 || c.toNat = 0x0A || c.toNat = 0x0B || c.toNat = 0x0C || c.toNat = 0x0D
    || c.toNat = 0x20 || c.toNat = 0xA0 || c.toNat = 0x1680
    || (0x2000 ≤ c.toNat && c.toNat ≤ 0x200A)
    || c.toNat = 0x2028 || c.toNat = 0x2029 || c.toNat = 0x202F || c.toNat = 0x205F
    || c.toNat = 0x3000 || c.toNat = 0xFEFF

/-- The class `[^)]`: any character but a closing parenthesis. -/
def notClose (c : Char) : Bool := c != ')'

/-! ## Regular expressions -/

/-- The fragment of JavaScript regular expressions used by the source: literal
characters, character classes, the `^` assertion, concatenation, a greedy `+`
over a one-character class, capturing groups and a greedy `?`. -/
inductive Regex where
  | char (c : Char)
  | cls (p : Char → Bool)
  | bol
  | seq (a b : Regex)
  | plus (p : Char → Bool)
  | group (i : Nat) (r : Regex)
  | opt (r : Regex)

/-- The state of a match in progress: the index of the next character, the input
from that index on, and the captures recorded so far (latest first). -/
structure MatchState where
  pos : Nat
  rest : Str
  caps : List (Nat × Str)

/-- Greedy repetition of a one-character class: take one more character when
possible and continue with `k` from there; when that fails, continue with `k`
from the current position. -/
def starLoop (p : Char → Bool) (k : MatchState → Option MatchState)
    (caps : List (Nat × Str)) : Nat → Str → Option MatchState
  | pos, [] => k ⟨pos, [], caps⟩
  | pos, c :: cs =>
    if p c then
      (starLoop p k caps (pos + 1) cs).orElse (fun _ => k ⟨pos, c :: cs, caps⟩)
    else k ⟨pos, c :: cs, caps⟩

/-- The backtracking matcher: `run r st k` matches `r` at `st` and hands the state
after the match to the continuation `k`; alternatives are tried in the priority
order of the JavaScript semantics and the first success is returned. -/
def Regex.run : Regex → MatchState → (MatchState → Option MatchState) → Option MatchState
  | .char c, st, k =>
    match st.rest with
    | [] => none
    | d :: ds => if d = c then k ⟨st.pos + 1, ds, st.caps⟩ else none
  | .cls p, st, k =>
    match st.rest with
    | [] => none
    | d :: ds => if p d then k ⟨st.pos + 1, ds, st.caps⟩ else none
  | .bol, st, k => if st.pos = 0 then k st else none
  | .seq a b, st, k => a.run st (fun st₁ => b.run st₁ k)
  | .plus p, st, k =>
    match st.rest with
    | [] => none
    | d :: ds => if p d then starLoop p k st.caps (st.pos + 1) ds else none
  | .group i r, st, k =>
    r.run st (fun st₁ =>
      k ⟨st₁.pos, st₁.rest, (i, st.rest.take (st₁.pos - st.pos)) :: st₁.caps⟩)
  | .opt r, st, k => (r.run st k).orElse (fun _ => k st)

/-- The literal string `s` as a regular expression, followed by `r`. -/
def Regex.lit (s : Str) (r : Regex) : Regex :=
  s.foldr (fun c acc => Regex.seq (Regex.char c) acc) r

/-- A match attempted at index `q` only, with no capture recorded yet. -/
def matchAt (r : Regex) (q : Nat) (s : Str) : Option MatchState :=
  r.run ⟨q, s, []⟩ some

/-- The scan of `RegExp.prototype.exec` without the `g` flag: the match is tried
at index `i`, then at each later index, up to the end of the input. -/
def execFrom (r : Regex) : Nat → Str → Option MatchState
  | i, [] => matchAt r i []
  | i, c :: cs => (matchAt r i (c :: cs)).orElse (fun _ => execFrom r (i + 1) cs)

/-- The result of `s.match(r)` for a regular expression without the `g` flag. -/
def exec (r : Regex) (s : Str) : Option MatchState := execFrom r 0 s

/-- The capture of group `i` in a match result, `none` when the group did not
take part in the match (JavaScript `undefined`). -/
def MatchState.capture (st : MatchState) (i : Nat) : Option Str :=
  st.caps.lookup i

/-! ## `String.prototype.split` with a regular expression -/

/-- The loop of `split`: `q` is the index of the next character, `seg` the text
since the end of the last separator, `skip` the number of characters still inside
the separator just matched.  At each index outside a separator the separator is
tried; a match ending at `e` closes the segment and the scan resumes at `e`; an
empty match at the start of a segment is ignored. -/
def splitLoop (sep : Regex) : Str → Nat → Nat → Str → List Str
  | [], _, _, seg => [seg]
  | _ :: cs, q, skip + 1, seg => splitLoop sep cs (q + 1) skip seg
  | c :: cs, q, 0, seg =>
    match matchAt sep q (c :: cs) with
    | none => splitLoop sep cs (q + 1) 0 (seg ++ [c])
    | some st =>
      if st.pos ≤ q then
        if seg = [] then splitLoop sep cs (q + 1) 0 [c]
        else seg :: splitLoop sep cs (q + 1) 0 [c]
      else seg :: splitLoop sep cs (q + 1) (st.pos - q - 1) []

/-- The result of `s.split(sep)`: the segments of `s` between the matches of `sep`. -/
def split (sep : Regex) (s : Str) : List Str :=
  match s with
  | [] => if (matchAt sep 0 []).isSome then [] else [[]]
  | _ :: _ => splitLoop sep s 0 0 []

/-! ## The two regular expressions of the clause parser -/

/-- The separator `/\s+for\s+/`. -/
def forSeparator : Regex :=
  .seq (.plus isSpace) (.lit "for".toList (.plus isSpace))

/-- The optional suffix `(\s+if\s+\(([^)]+)\))?` of the clause pattern. -/
def ifSuffix : Regex :=
  .opt (.group 3
    (.seq (.plus isSpace) (.lit "if".toList
      (.seq (.plus isSpace) (.seq (.char '(')
        (.seq (.group 4 (.plus notClose)) (.char ')')))))))

/-- The part `\)(\s+if\s+\(([^)]+)\))?` of the clause pattern. -/
def afterIterable : Regex := .seq (.char ')') ifSuffix

/-- The part `\s+([^)]+)\)(\s+if\s+\(([^)]+)\))?` of the clause pattern. -/
def afterOf : Regex :=
  .seq (.plus isSpace) (.seq (.group 2 (.plus notClose)) afterIterable)

/-- The part `\s+of\s+([^)]+)\)(\s+if\s+\(([^)]+)\))?` of the clause pattern. -/
def afterPattern : Regex := .seq (.plus isSpace) (.lit "of".toList afterOf)

/-- The clause pattern `/^\(([^)]+)\s+of\s+([^)]+)\)(\s+if\s+\(([^)]+)\))?/`. -/
def clausePattern : Regex :=
  .seq .bol (.seq (.char '(') (.seq (.group 1 (.plus notClose)) afterPattern))

/-! ## The clause parser -/

/-- One loop level: `{loopVar, iterable, condition}`; `condition` is `none` for
JavaScript `null`. -/
structure Clause where
  loopVar : Str
  iterable : Str
  condition : Option Str
deriving DecidableEq

/-- The value of `x || null` for a capture `x`: `undefined` and the empty string
are falsy. -/
def orNull (x : Option Str) : Option Str :=
  match x with
  | some (c :: cs) => some (c :: cs)
  | _ => none

/-- The object pushed for a successful `clauseMatch`: captures 1, 2 and
`clauseMatch[4] || null`. -/
def clauseOfMatch (m : MatchState) : Clause :=
  { loopVar := (m.capture 1).getD []
    iterable := (m.capture 2).getD []
    condition := orNull (m.capture 4) }

/-- The loop `for (let i = 1; i < parts.length; i++)` over the clause segments:
a segment that does not match is skipped (`continue`), a segment that matches
pushes its clause at the end of `clauses`. -/
def collectClauses : List Str → List Clause → List Clause
  | [], clauses => clauses
  | part :: parts, clauses =>
    match exec clausePattern part with
    | none => collectClauses parts clauses
    | some m => collectClauses parts (clauses ++ [clauseOfMatch m])

/-- The clause parser shared by both surfaces: the split of the raw text at
`/\s+for\s+/`; `none` when fewer than two segments result, otherwise the yield
text `parts[0]` and the clauses collected from `parts[1..]`. -/
def parseComprehension (raw : Str) : Option (Str × List Clause) :=
  let parts := split forSeparator raw
  if parts.length < 2 then none
  else some (parts.headD [], collectClauses (parts.drop 1) [])

/-- The test `s.includes(c)` for a one-character string `c`. -/
def includes (s : Str) (c : Char) : Bool := s.contains c

/-- The truthiness of a `condition` field: `null` and the empty string are falsy. -/
def truthy (condition : Option Str) : Bool :=
  match condition with
  | some (_ :: _) => true
  | _ => false

/-! ## The AST plugin (`src/index.js`) -/

/-- An AST node: returned by the `babel` collaborator (`parsed`) or built by one
of the builders `t.identifier`, `t.arrowFunctionExpression`, `t.callExpression`,
`t.memberExpression`. -/
inductive Node (α : Type) where
  | parsed (ast : α)
  | identifier (name : Str)
  | arrowFunctionExpression (params : List (Node α)) (body : Node α)
  | callExpression (callee : Node α) (arguments : List (Node α))
  | memberExpression (object : Node α) (property : Node α)

/-- The `babel` collaborator, which may throw an error of type `ε`:
`parseExpression code` is `babel.parse(code).program.body[0].expression` and
`parseFirstParam code` is `babel.parse(code).program.body[0].expression.params[0]`. -/
structure Babel (ε α : Type) where
  parseExpression : Str → Except ε α
  parseFirstParam : Str → Except ε α

namespace Plugin

variable {ε α : Type}

/-- The parameter of the callbacks of a clause: the first parameter of the parsed
arrow function `(<loopVar>) => {}` when `loopVar` includes `[` or `{`, the
identifier `loopVar` otherwise. -/
def makeParam (babel : Babel ε α) (loopVar : Str) : Except ε (Node α) :=
  if includes loopVar '[' || includes loopVar '\x7b' then do
    let p ← babel.parseFirstParam ("(".toList ++ loopVar ++ ") => \x7b\x7d".toList)
    pure (.parsed p)
  else pure (.identifier loopVar)

/-- The function `transformListComprehension(expr, clauses, babel)` of the plugin,
for a collaborator that returns a node whenever it does not throw.
The result is `none` for JavaScript `undefined` (the variable `result` is never
assigned); an error thrown by `babel` is the error of the call. The function with
parses that return `undefined` and builders that throw is
`Checked.transformListComprehension`. -/
def transformListComprehension (babel : Babel ε α) (expr : Str) (clauses : List Clause) :
    Except ε (Option (Node α)) :=
  match clauses with
  | [⟨loopVar, iterable, condition⟩] => do
    let iterableNode ← babel.parseExpression iterable
    let exprNode ← babel.parseExpression expr
    let param ← makeParam babel loopVar
    let mapCallback : Node α := .arrowFunctionExpression [param] (.parsed exprNode)
    if truthy condition then
      let conditionNode ← babel.parseExpression (condition.getD [])
      let filterCallback : Node α := .arrowFunctionExpression [param] (.parsed conditionNode)
      pure (some (.callExpression
        (.memberExpression
          (.callExpression
            (.memberExpression (.parsed iterableNode) (.identifier "filter".toList))
            [filterCallback])
          (.identifier "map".toList))
        [mapCallback]))
    else
      pure (some (.callExpression
        (.memberExpression (.parsed iterableNode) (.identifier "map".toList))
        [mapCallback]))
  | [⟨loopVar1, iterable1, condition1⟩, ⟨loopVar2, iterable2, condition2⟩] => do
    let iterableNode1 ← babel.parseExpression iterable1
    let iterableNode2 ← babel.parseExpression iterable2
    let exprNode ← babel.parseExpression expr
    let param1 ← makeParam babel loopVar1
    let param2 ← makeParam babel loopVar2
    let mapCallback : Node α := .arrowFunctionExpression [param2] (.parsed exprNode)
    let innerOperation : Node α ←
      if truthy condition2 then do
        let conditionNode2 ← babel.parseExpression (condition2.getD [])
        let filterCallback2 : Node α :=
          .arrowFunctionExpression [param2] (.parsed conditionNode2)
        pure (.callExpression
          (.memberExpression
            (.callExpression
              (.memberExpression (.parsed iterableNode2) (.identifier "filter".toList))
              [filterCallback2])
            (.identifier "map".toList))
          [mapCallback])
      else
        pure (.callExpression
          (.memberExpression (.parsed iterableNode2) (.identifier "map".toList))
          [mapCallback])
    let flatMapCallback : Node α := .arrowFunctionExpression [param1] innerOperation
    if truthy condition1 then
      let conditionNode1 ← babel.parseExpression (condition1.getD [])
      let filterCallback1 : Node α := .arrowFunctionExpression [param1] (.parsed conditionNode1)
      pure (some (.callExpression
        (.memberExpression
          (.callExpression
            (.memberExpression (.parsed iterableNode1) (.identifier "filter".toList))
            [filterCallback1])
          (.identifier "flatMap".toList))
        [flatMapCallback]))
    else
      pure (some (.callExpression
        (.memberExpression (.parsed iterableNode1) (.identifier "flatMap".toList))
        [flatMapCallback]))
  | _ => pure none

/-- The tag of a tagged template: `path.node.tag.type` and `path.node.tag.name`
(`none` when the tag node has no name). -/
structure Tag where
  type : Str
  name : Option Str

/-- The part of a `TaggedTemplateExpression` node the visitor reads: its tag and
`path.node.quasi.quasis[0].value.raw`. -/
structure TaggedTemplate where
  tag : Tag
  raw : Str

/-- The visitor `TaggedTemplateExpression(path)`: the result is `some node` when
`path.replaceWith(node)` is called and `none` when the node is left as it is. -/
def taggedTemplateExpression (babel : Babel ε α) (node : TaggedTemplate) :
    Except ε (Option (Node α)) :=
  if node.tag.type = "Identifier".toList && node.tag.name = some "list".toList then
    let quasiContent := node.raw
    let parts := split forSeparator quasiContent
    if parts.length < 2 then pure none
    else do
      let expr := parts.headD []
      let clauses := collectClauses (parts.drop 1) []
      let result ← transformListComprehension babel expr clauses
      match result with
      | some r => pure (some r)
      | none => pure none
  else pure none

end Plugin

/-! ## The textual preprocessor (`src/preprocessor.js`) -/

namespace Preprocessor

/-- The binding text of a callback: `loopVar` in parentheses when it includes `[`,
`loopVar` itself otherwise. -/
def varName (loopVar : Str) : Str :=
  if includes loopVar '[' then "(".toList ++ loopVar ++ ")".toList else loopVar

/-- The text `.filter(<varName> => <condition>)` when the condition is truthy, the
empty string otherwise. -/
def filterPart (name : Str) (condition : Option Str) : Str :=
  if truthy condition then
    ".filter(".toList ++ name ++ " => ".toList ++ condition.getD [] ++ ")".toList
  else []

/-- The callback given to `code.replace`: `fullMatch` is the marked literal and
`content` the text between its backticks. -/
def replaceCallback (fullMatch content : Str) : Str :=
  let parts := split forSeparator content
  if parts.length < 2 then fullMatch
  else
    let expr := parts.headD []
    let clauses := collectClauses (parts.drop 1) []
    match clauses with
    | [⟨loopVar, iterable, condition⟩] =>
      let name := varName loopVar
      "(".toList ++ iterable ++ ")".toList ++ filterPart name condition
        ++ ".map(".toList ++ name ++ " => ".toList ++ expr ++ ")".toList
    | [⟨loopVar1, iterable1, condition1⟩, ⟨loopVar2, iterable2, condition2⟩] =>
      let varName1 := varName loopVar1
      let varName2 := varName loopVar2
      let filter1 := filterPart varName1 condition1
      let filter2 := filterPart varName2 condition2
      "(".toList ++ iterable1 ++ ")".toList ++ filter1
        ++ ".flatMap(".toList ++ varName1 ++ " => (".toList ++ iterable2 ++ ")".toList
        ++ filter2 ++ ".map(".toList ++ varName2 ++ " => ".toList ++ expr ++ "))".toList
    | _ => fullMatch

/-- The class `[^BACKTICK]`: any character but a backtick. -/
def notBacktick (c : Char) : Bool := c != '\x60'

/-- The pattern `/\/\*list\*\/BACKTICK([^BACKTICK]+)BACKTICK/g` that marks a literal. -/
def markedLiteral : Regex :=
  .lit "/*list*/\x60".toList (.seq (.group 1 (.plus notBacktick)) (.char '\x60'))

/-- The loop of `code.replace(r, f)` for a global `r`: at each index outside a
match `r` is tried; a match is replaced by `f fullMatch capture1` and the scan
resumes at its end (one character further when the match is empty). -/
def replaceLoop (r : Regex) (f : Str → Str → Str) : Str → Nat → Nat → Str
  | [], q, _ =>
    match matchAt r q [] with
    | none => []
    | some st => f [] ((st.capture 1).getD [])
  | _ :: cs, q, skip + 1 => replaceLoop r f cs (q + 1) skip
  | c :: cs, q, 0 =>
    match matchAt r q (c :: cs) with
    | none => c :: replaceLoop r f cs (q + 1) 0
    | some st =>
      let n := st.pos - q
      f ((c :: cs).take n) ((st.capture 1).getD []) ++
        (if n = 0 then c :: replaceLoop r f cs (q + 1) 0
         else replaceLoop r f cs (q + 1) (n - 1))

/-- The function `transformListComprehension(code)` of the preprocessor. -/
def transformListComprehension (code : Str) : Str :=
  replaceLoop markedLiteral replaceCallback code 0 0

end Preprocessor

/-! ## The shapes named by the specification -/

variable {ε α : Type}

/-- The tree `Map(source, param => body)`: a call of member `map` on `source` with
one arrow function of one parameter. -/
def Node.Map (source param body : Node α) : Node α :=
  .callExpression (.memberExpression source (.identifier "map".toList))
    [.arrowFunctionExpression [param] body]

/-- The tree `Filter(source, param => body)`. -/
def Node.Filter (source param body : Node α) : Node α :=
  .callExpression (.memberExpression source (.identifier "filter".toList))
    [.arrowFunctionExpression [param] body]

/-- The tree `FlatMap(source, param => body)`. -/
def Node.FlatMap (source param body : Node α) : Node α :=
  .callExpression (.memberExpression source (.identifier "flatMap".toList))
    [.arrowFunctionExpression [param] body]

mutual
/-- The names of the members selected anywhere in a built tree, left to right;
the nodes returned by `babel` are leaves. -/
def Node.members : Node α → List Str
  | .parsed _ => []
  | .identifier _ => []
  | .arrowFunctionExpression params body => Node.membersOfList params ++ body.members
  | .callExpression callee arguments => callee.members ++ Node.membersOfList arguments
  | .memberExpression object property =>
    object.members ++
      (match property with
       | .identifier name => [name]
       | other => other.members)
/-- The members selected in a list of trees. -/
def Node.membersOfList : List (Node α) → List Str
  | [] => []
  | n :: ns => n.members ++ Node.membersOfList ns
end

/-- The source of a chain for one clause: the parsed iterable, under `Filter` when
the clause has a condition. -/
def Node.filtered (source param : Node α) (condition : Option (Node α)) : Node α :=
  match condition with
  | none => source
  | some c => Node.Filter source param c

/-- A collaborator that never throws and returns the text it is given as the
parsed node, for the examples. -/
def textBabel : Babel Unit Str := ⟨fun code => .ok code, fun code => .ok code⟩

/-! ## The notation and its texts -/

/-- The test that `s` starts with `kw`. -/
def startsWith (kw s : Str) : Bool := s.take kw.length = kw

/-- The text `s` starts with `kw` followed by a whitespace character. -/
def thenSpace (kw s : Str) : Bool :=
  startsWith kw s &&
    (match s.drop kw.length with
     | d :: _ => isSpace d
     | [] => false)

/-- The text `s` starts with `kw` followed by a whitespace character or by nothing. -/
def thenSpaceOrEnd (kw s : Str) : Bool :=
  startsWith kw s &&
    (match s.drop kw.length with
     | d :: _ => isSpace d
     | [] => true)

/-- Some occurrence of `kw` in `s` stands as a word next to whitespace: it starts
the text and whitespace follows it, or whitespace precedes it and whitespace or
the end of the text follows it. -/
def isolatedKeyword (kw s : Str) : Bool :=
  thenSpace kw s ||
    s.tails.any fun t =>
      match t with
      | c :: cs => isSpace c && thenSpaceOrEnd kw cs
      | [] => false

/-- Some occurrence of `kw` in `s` has a whitespace character on each side. -/
def spacedOccurrence (kw s : Str) : Bool :=
  s.tails.any fun t =>
    match t with
    | c :: cs =>
      isSpace c && startsWith kw cs &&
        (match cs.drop kw.length with
         | d :: _ => isSpace d
         | [] => false)
    | [] => false

/-- A text of the documented grammar: not empty, without `)`, without leading or
trailing whitespace, and without a word `for` or `of` that has whitespace next to
it. -/
def Plain (s : Str) : Prop :=
  s ≠ [] ∧ ')' ∉ s
    ∧ (∀ c ∈ s.head?, isSpace c = false) ∧ (∀ c ∈ s.getLast?, isSpace c = false)
    ∧ isolatedKeyword "for".toList s = false ∧ isolatedKeyword "of".toList s = false

instance (s : Str) : Decidable (Plain s) := by
  unfold Plain; infer_instance

/-- A clause whose pattern, iterable and condition (when present) are texts of the
documented grammar. -/
def PlainClause (cl : Clause) : Prop :=
  Plain cl.loopVar ∧ Plain cl.iterable ∧ ∀ c ∈ cl.condition, Plain c

instance (cl : Clause) : Decidable (PlainClause cl) := by
  unfold PlainClause; infer_instance

/-- The suffix ` if (<condition>)` of a clause, empty when there is no condition. -/
def conditionText (condition : Option Str) : Str :=
  match condition with
  | none => []
  | some c => " if (".toList ++ c ++ ")".toList

/-- The segment `(<pattern> of <iterable>)` with its optional ` if (<condition>)`. -/
def clauseText (cl : Clause) : Str :=
  "(".toList ++ cl.loopVar ++ " of ".toList ++ cl.iterable ++ ")".toList
    ++ conditionText cl.condition

/-- The notation `<yield> for <clause> ... for <clause>` of a comprehension. -/
def comprehensionText (e : Str) (clauses : List Clause) : Str :=
  e ++ (clauses.map fun cl => " for ".toList ++ clauseText cl).flatten

/-- No match of `sep` starts inside `x` when `x` is followed by `r`. -/
def NoMatchIn (sep : Regex) (x r : Str) : Prop :=
  ∀ t, t <:+ x → t ≠ [] → ∀ q, matchAt sep q (t ++ r) = none

/-- A regular expression that starts with `\s+`, in one of the two ways
the clause parser continues after a keyword: `\s+` alone (in the
separator) and `\s+` followed by more (in the clause pattern). -/
def SpaceFirst (r : Regex) : Prop :=
  r = .plus isSpace ∨ ∃ r', r = .seq (.plus isSpace) r'

/-- The numbers of the capturing groups of a regular expression. -/
def Regex.groups : Regex → List Nat
  | .char _ => []
  | .cls _ => []
  | .bol => []
  | .seq a b => a.groups ++ b.groups
  | .plus _ => []
  | .group i r => i :: r.groups
  | .opt r => r.groups

/-- The state `x` was reached from `st` by recording captures of the groups `gs`
only. -/
def CapturesFrom (gs : List Nat) (st x : MatchState) : Prop :=
  ∃ new, x.caps = new ++ st.caps ∧ ∀ e ∈ new, e.1 ∈ gs

/-! ## The meaning of a chain -/

/-- The meaning of the leaves of a chain in an environment: the elements of an
iterable, the value of a yield expression, the truth of a condition, and the
environment in which a parameter is bound to a value. -/
structure Semantics (α Env V : Type) where
  items : α → Env → List V
  value : α → Env → V
  test : α → Env → Bool
  bindParam : Node α → V → Env → Env

/-- The concatenation of the arrays returned by the callback of `flatMap`. -/
def concatAll {V : Type} : List (Option (List V)) → Option (List V)
  | [] => some []
  | none :: _ => none
  | some ys :: rest =>
    match concatAll rest with
    | none => none
    | some zs => some (ys ++ zs)

/-- The value of a chain, with `filter`, `map` and `flatMap` read as the list
operations of these names; `none` for a tree that is not a chain. -/
def evalChain {α Env V : Type} (S : Semantics α Env V) : Node α → Env → Option (List V)
  | .parsed a, env => some (S.items a env)
  | .callExpression (.memberExpression source (.identifier m))
      [.arrowFunctionExpression [param] body], env =>
    match evalChain S source env with
    | none => none
    | some xs =>
      if m = "filter".toList then
        match body with
        | .parsed t => some (xs.filter fun v => S.test t (S.bindParam param v env))
        | _ => none
      else if m = "map".toList then
        match body with
        | .parsed b => some (xs.map fun v => S.value b (S.bindParam param v env))
        | _ => none
      else if m = "flatMap".toList then
        concatAll (xs.map fun v => evalChain S body (S.bindParam param v env))
      else none
  | _, _ => none

/-- The list `[e(x) for x in xs if c(x)]`, as a loop. -/
def comprehension1 {V W : Type} (c : V → Bool) (e : V → W) : List V → List W
  | [] => []
  | x :: xs => if c x then e x :: comprehension1 c e xs else comprehension1 c e xs

/-- The list `[e(x, y) for x in xs if c1(x) for y in ys(x) if c2(x, y)]`, as two
nested loops. -/
def comprehension2 {V W : Type} (c1 : V → Bool) (ys : V → List V) (c2 : V → V → Bool)
    (e : V → V → W) : List V → List W
  | [] => []
  | x :: xs =>
    if c1 x then comprehension1 (c2 x) (e x) (ys x) ++ comprehension2 c1 ys c2 e xs
    else comprehension2 c1 ys c2 e xs

/-- An environment of the examples: the value of each variable. -/
abbrev DemoEnv := Str → Int

/-- The meaning of the texts of the examples over integers: `nums` is
`[1, 2, 3, 4, 5]`, and a parameter that is an identifier is bound by name. -/
def demoSemantics : Semantics Str DemoEnv Int where
  items := fun a _ => if a = "nums".toList then [1, 2, 3, 4, 5] else []
  value := fun a env =>
    if a = "x * x".toList then env "x".toList * env "x".toList
    else if a = "x * y".toList then env "x".toList * env "y".toList
    else 0
  test := fun a env =>
    if a = "x % 2 === 0".toList then env "x".toList % 2 == 0
    else if a = "x !== y".toList then env "x".toList != env "y".toList
    else false
  bindParam := fun param v env =>
    match param with
    | .identifier name => fun n => if n = name then v else env n
    | _ => env

/-! ## The marked literal -/

/-- The marked literal with the given content: the comment `/*list*/`, then the
content between two backticks. -/
def markedText (content : Str) : Str :=
  "/*list*/\x60".toList ++ content ++ "\x60".toList

/-- A content the marker pattern accepts: not empty and without backtick. -/
def IsContent (content : Str) : Prop := content ≠ [] ∧ '\x60' ∉ content

instance (content : Str) : Decidable (IsContent content) := by
  unfold IsContent; infer_instance

/-- The text `.filter(<V> => <c>)` for a present condition `c`, nothing for an
absent one. -/
def filterText (V : Str) (condition : Option Str) : Str :=
  match condition with
  | none => []
  | some c => ".filter(".toList ++ V ++ " => ".toList ++ c ++ ")".toList

/-! ## The requests made to the collaborator -/

/-- A request to the collaborator: a text to parse as an expression, or a text to
parse for the first parameter of its arrow function. -/
inductive Request where
  | expression (code : Str)
  | firstParam (code : Str)
deriving DecidableEq

/-- The answer of the collaborator to a request. -/
def Babel.answer {ε α : Type} (babel : Babel ε α) : Request → Except ε α
  | .expression code => babel.parseExpression code
  | .firstParam code => babel.parseFirstParam code

/-- The requests for a loop pattern: the text `(<pattern>) => {}` for a
destructuring pattern, nothing for a plain identifier. -/
def paramRequests (loopVar : Str) : List Request :=
  if includes loopVar '[' || includes loopVar '\x7b' then
    [.firstParam ("(".toList ++ loopVar ++ ") => \x7b\x7d".toList)]
  else []

/-- The requests for a condition: its text when it is present, nothing when it is
absent. -/
def conditionRequests (condition : Option Str) : List Request :=
  match condition with
  | some (c :: cs) => [.expression (c :: cs)]
  | _ => []

/-- The texts the chain generator asks the collaborator to parse, in the order of
the calls: each iterable, the yield text, `(<pattern>) => {}` for each
destructuring pattern, each present condition. -/
def requests (expr : Str) : List Clause → List Request
  | [cl] =>
    [.expression cl.iterable, .expression expr] ++ paramRequests cl.loopVar
      ++ conditionRequests cl.condition
  | [cl1, cl2] =>
    [.expression cl1.iterable, .expression cl2.iterable, .expression expr]
      ++ paramRequests cl1.loopVar ++ paramRequests cl2.loopVar
      ++ conditionRequests cl2.condition ++ conditionRequests cl1.condition
  | _ => []

/-- The computation `run` asks the collaborator exactly the requests `reqs`: it
succeeds when all of them are answered, it fails with the error of one of them
otherwise, and its result depends on the answers to them only. -/
def Tracks {ε α β : Type} (reqs : List Request) (run : Babel ε α → Except ε β) : Prop :=
  ∀ babel : Babel ε α,
    (∀ x, run babel = .ok x → ∀ r ∈ reqs, ∃ a, babel.answer r = .ok a)
    ∧ (∀ err, run babel = .error err → ∃ r ∈ reqs, babel.answer r = .error err)
    ∧ ∀ babel' : Babel ε α,
        (∀ r ∈ reqs, babel'.answer r = babel.answer r) → run babel' = run babel

/-- The parse of a condition, when there is one to parse. -/
def parseCondition {ε α : Type} (babel : Babel ε α) (condition : Option Str) :
    Except ε (Option (Node α)) :=
  if truthy condition then
    (babel.parseExpression (condition.getD [])).map fun t => some (.parsed t)
  else .ok none

/-- A non-empty run of whitespace characters. -/
def SpaceRun (w : Str) : Prop := w ≠ [] ∧ ∀ c ∈ w, isSpace c = true

instance (w : Str) : Decidable (SpaceRun w) := by
  unfold SpaceRun; infer_instance

/-- The segment that starts with the group `(<g><w1>of<w2><x>)`, followed by `tail`. -/
def groupText (g w1 w2 x tail : Str) : Str :=
  '(' :: (g ++ (w1 ++ ("of".toList ++ (w2 ++ (x ++ ')' :: tail)))))

/-- A reading of the start of a segment as a group `(<g><w1>of<w2><x>)`: a pattern
`g` and an iterable `x` that are not empty and have no `)`, around the keyword `of`
between two runs of whitespace. -/
def IsGroup (g w1 w2 x : Str) : Prop :=
  g ≠ [] ∧ ')' ∉ g ∧ SpaceRun w1 ∧ SpaceRun w2 ∧ x ≠ [] ∧ ')' ∉ x

instance (g w1 w2 x : Str) : Decidable (IsGroup g w1 w2 x) := by
  unfold IsGroup; infer_instance

/-- The group `(\s+if\s+\(([^)]+)\))` that the suffix of the clause pattern makes
optional. -/
def ifGroup : Regex :=
  .group 3
    (.seq (.plus isSpace) (.lit "if".toList
      (.seq (.plus isSpace) (.seq (.char '(')
        (.seq (.group 4 (.plus notClose)) (.char ')'))))))

/-- The text `<w1>if<w2>(<c>)` followed by `rest`. -/
def ifText (w1 w2 c rest : Str) : Str :=
  w1 ++ ("if".toList ++ (w2 ++ '(' :: (c ++ ')' :: rest)))

/-- A reading of a text as a suffix `<w1>if<w2>(<c>)`: two runs of whitespace and a
condition `c` that is not empty and has no `)`. -/
def IsIf (w1 w2 c : Str) : Prop :=
  SpaceRun w1 ∧ SpaceRun w2 ∧ c ≠ [] ∧ ')' ∉ c

instance (w1 w2 c : Str) : Decidable (IsIf w1 w2 c) := by
  unfold IsIf; infer_instance

/-! ## The scopes in a tree -/

mutual
/-- The leaves returned by the collaborator that stand in expression position in a
tree, left to right, each with the parameters of the arrow functions around it,
outermost first; `binders` are the parameters around the tree itself. -/
def Node.leafScopes {α : Type} (binders : List (Node α)) : Node α → List (α × List (Node α))
  | .parsed a => [(a, binders)]
  | .identifier _ => []
  | .arrowFunctionExpression params body => body.leafScopes (binders ++ params)
  | .callExpression callee arguments =>
    callee.leafScopes binders ++ Node.leafScopesOfList binders arguments
  | .memberExpression object property =>
    object.leafScopes binders ++ property.leafScopes binders
/-- The leaves in expression position in a list of trees. -/
def Node.leafScopesOfList {α : Type} (binders : List (Node α)) :
    List (Node α) → List (α × List (Node α))
  | [] => []
  | n :: ns => n.leafScopes binders ++ Node.leafScopesOfList binders ns
end

/-! ## The pieces of a source -/

/-- A marked literal starts the text `s`. -/
def StartsMarked (s : Str) : Prop :=
  ∃ c rest, IsContent c ∧ s = markedText c ++ rest

/-- A piece of a source: a character outside the marked literals that are
processed, or a marked literal that is processed, given by its content. -/
inductive Piece where
  | keep (c : Char)
  | marked (content : Str)

/-- The text of a piece in the source. -/
def Piece.source : Piece → Str
  | .keep c => [c]
  | .marked content => markedText content

/-- The text that stands for a piece in the result: the character itself, or what
the callback returns for the marked literal. -/
def Piece.result : Piece → Str
  | .keep c => [c]
  | .marked content => Preprocessor.replaceCallback (markedText content) content

/-- The source made of a list of pieces. -/
def sourceOf (ps : List Piece) : Str := (ps.map Piece.source).flatten

/-- The result made of a list of pieces. -/
def resultOf (ps : List Piece) : Str := (ps.map Piece.result).flatten

/-! ## The plugin with the checks of the builders -/

/-- What a call of the chain generator throws: the error `err` thrown while a text
is parsed and its first expression is read, or the `TypeError` of a builder of
`babel.types` that is given `undefined` where it requires a node. -/
inductive Failure (ε : Type) where
  | thrown (err : ε)
  | typeError
deriving DecidableEq

namespace Checked

/-- The `babel` collaborator with the value `undefined` (`none`):
`parseExpression code` is `babel.parse(code).program.body[0].expression`, which
throws (the text is rejected, or the program has no statement), or is `undefined`
(the first statement is not an expression statement, as for the text `{}`, a
block), or is an expression node; `parseFirstParam code` is
`babel.parse(code).program.body[0].expression.params[0]`, which is `undefined` for
an arrow function without parameter. -/
structure Babel (ε α : Type) where
  parseExpression : Str → Except ε (Option α)
  parseFirstParam : Str → Except ε (Option α)

/-- The answer of the collaborator to a request. -/
def Babel.answer {ε α : Type} (babel : Babel ε α) : Request → Except ε (Option α)
  | .expression code => babel.parseExpression code
  | .firstParam code => babel.parseFirstParam code

/-- The nodes of an array of values, when none of them is `undefined`. -/
def allNodes {α : Type} : List (Option (Node α)) → Option (List (Node α))
  | [] => some []
  | none :: _ => none
  | some n :: rest => (allNodes rest).map fun ns => n :: ns

/-- The builder `t.arrowFunctionExpression(params, body)`: it validates its fields
and throws a `TypeError` when a parameter or the body is `undefined`. -/
def arrowFunctionExpression {ε α : Type} (params : List (Option (Node α)))
    (body : Option (Node α)) : Except (Failure ε) (Node α) :=
  match allNodes params, body with
  | some ps, some b => .ok (.arrowFunctionExpression ps b)
  | _, _ => .error .typeError

/-- The builder `t.memberExpression(object, property)`: it throws a `TypeError`
when the object is `undefined`. -/
def memberExpression {ε α : Type} (object : Option (Node α)) (property : Node α) :
    Except (Failure ε) (Node α) :=
  match object with
  | some o => .ok (.memberExpression o property)
  | none => .error .typeError

/-- The parameter of the callbacks of a clause, which is `undefined` when the
parsed arrow function `(<loopVar>) => {}` has no parameter. -/
def makeParam {ε α : Type} (babel : Babel ε α) (loopVar : Str) :
    Except (Failure ε) (Option (Node α)) :=
  if includes loopVar '[' || includes loopVar '\x7b' then do
    let p ← (babel.parseFirstParam ("(".toList ++ loopVar ++ ") => \x7b\x7d".toList)).mapError
      Failure.thrown
    pure (p.map Node.parsed)
  else pure (some (.identifier loopVar))

/-- The function `transformListComprehension(expr, clauses, babel)` of the plugin
with what it throws: the statements run in the order of the source, a parse may
throw or return `undefined`, and the builders `t.arrowFunctionExpression` and
`t.memberExpression` throw a `TypeError` on `undefined`. The builder
`t.identifier` is given a string and `t.callExpression` is given nodes that the
other builders returned: these two do not throw. -/
def transformListComprehension {ε α : Type} (babel : Babel ε α) (expr : Str)
    (clauses : List Clause) : Except (Failure ε) (Option (Node α)) :=
  match clauses with
  | [⟨loopVar, iterable, condition⟩] => do
    let iterableNode ← (babel.parseExpression iterable).mapError Failure.thrown
    let exprNode ← (babel.parseExpression expr).mapError Failure.thrown
    let param ← makeParam babel loopVar
    let mapCallback ← arrowFunctionExpression [param] (exprNode.map Node.parsed)
    if truthy condition then
      let conditionNode ← (babel.parseExpression (condition.getD [])).mapError Failure.thrown
      let filterCallback ← arrowFunctionExpression [param] (conditionNode.map Node.parsed)
      let filterMember ← memberExpression (iterableNode.map Node.parsed)
        (.identifier "filter".toList)
      let mapMember ← memberExpression (some (.callExpression filterMember [filterCallback]))
        (.identifier "map".toList)
      pure (some (.callExpression mapMember [mapCallback]))
    else
      let mapMember ← memberExpression (iterableNode.map Node.parsed)
        (.identifier "map".toList)
      pure (some (.callExpression mapMember [mapCallback]))
  | [⟨loopVar1, iterable1, condition1⟩, ⟨loopVar2, iterable2, condition2⟩] => do
    let iterableNode1 ← (babel.parseExpression iterable1).mapError Failure.thrown
    let iterableNode2 ← (babel.parseExpression iterable2).mapError Failure.thrown
    let exprNode ← (babel.parseExpression expr).mapError Failure.thrown
    let param1 ← makeParam babel loopVar1
    let param2 ← makeParam babel loopVar2
    let mapCallback ← arrowFunctionExpression [param2] (exprNode.map Node.parsed)
    let innerOperation : Node α ←
      if truthy condition2 then do
        let conditionNode2 ← (babel.parseExpression (condition2.getD [])).mapError
          Failure.thrown
        let filterCallback2 ← arrowFunctionExpression [param2]
          (conditionNode2.map Node.parsed)
        let filterMember ← memberExpression (iterableNode2.map Node.parsed)
          (.identifier "filter".toList)
        let mapMember ← memberExpression
          (some (.callExpression filterMember [filterCallback2])) (.identifier "map".toList)
        pure (.callExpression mapMember [mapCallback])
      else do
        let mapMember ← memberExpression (iterableNode2.map Node.parsed)
          (.identifier "map".toList)
        pure (.callExpression mapMember [mapCallback])
    let flatMapCallback ← arrowFunctionExpression [param1] (some innerOperation)
    if truthy condition1 then
      let conditionNode1 ← (babel.parseExpression (condition1.getD [])).mapError
        Failure.thrown
      let filterCallback1 ← arrowFunctionExpression [param1]
        (conditionNode1.map Node.parsed)
      let filterMember ← memberExpression (iterableNode1.map Node.parsed)
        (.identifier "filter".toList)
      let flatMapMember ← memberExpression
        (some (.callExpression filterMember [filterCallback1]))
        (.identifier "flatMap".toList)
      pure (some (.callExpression flatMapMember [flatMapCallback]))
    else
      let flatMapMember ← memberExpression (iterableNode1.map Node.parsed)
        (.identifier "flatMap".toList)
      pure (some (.callExpression flatMapMember [flatMapCallback]))
  | _ => pure none

/-- The statements that the source repeats for each chain: the call of the member
`name` with `callback`, on the iterable `iterableNode` itself or, when the clause
has a condition, on the call of `filter` on it with the parsed condition under
`param`. -/
def callMember {ε α : Type} (babel : Babel ε α) (iterableNode : Option α)
    (param : Option (Node α)) (condition : Option Str) (name : Str) (callback : Node α) :
    Except (Failure ε) (Node α) :=
  if truthy condition then do
    let conditionNode ← (babel.parseExpression (condition.getD [])).mapError Failure.thrown
    let filterCallback ← arrowFunctionExpression [param] (conditionNode.map Node.parsed)
    let filterMember ← memberExpression (iterableNode.map Node.parsed)
      (.identifier "filter".toList)
    let member ← memberExpression (some (.callExpression filterMember [filterCallback]))
      (.identifier name)
    pure (.callExpression member [callback])
  else do
    let member ← memberExpression (iterableNode.map Node.parsed) (.identifier name)
    pure (.callExpression member [callback])

end Checked

/-- A collaborator that returns a node whenever it does not throw, as a
collaborator with `undefined`. -/
def Babel.checked {ε α : Type} (babel : Babel ε α) : Checked.Babel ε α :=
  ⟨fun code => (babel.parseExpression code).map some,
   fun code => (babel.parseFirstParam code).map some⟩

/-- A collaborator for the examples: the text `{}` is a block, a statement without
expression, for which it returns `undefined`; the text `x +` is rejected; every
other text is returned as the parsed node. -/
def blockBabel : Checked.Babel Unit Str :=
  ⟨fun code =>
      if code = "\x7b\x7d".toList then .ok none
      else if code = "x +".toList then .error ()
      else .ok (some code),
   fun code => .ok (some code)⟩

/-! ## The chain generator of the plugin -/

/-- C1: with one clause whose loop pattern `v` includes neither `[` nor the opening
brace and whose condition is `null`, when `babel` parses the iterable to `a` and
the yield text to `b`, `transformListComprehension` returns exactly
`Map(a, v => b)` with the identifier `v` as parameter, and the only member
selected in that tree is `map` (no `filter`, no `flatMap`). -/
theorem transform_one_clause_plain (babel : Babel ε α) (e v it : Str) (a b : α)
    (hv : '[' ∉ v ∧ '\x7b' ∉ v)
    (hit : babel.parseExpression it = .ok a) (he : babel.parseExpression e = .ok b) :
    Plugin.transformListComprehension babel e [⟨v, it, none⟩]
        = .ok (some (Node.Map (.parsed a) (.identifier v) (.parsed b)))
      ∧ (Node.Map (.parsed a) (.identifier v) (.parsed b) : Node α).members
          = ["map".toList] := by
  refine ⟨?_, by simp [Node.Map, Node.members, Node.membersOfList]⟩
  simp [Plugin.transformListComprehension, Plugin.makeParam, includes, hv.1, hv.2, hit, he,
    truthy, Node.Map, bind, Except.bind, pure, Except.pure]

/-- The instance of C1 at `x * x for (x of numbers)`. -/
theorem transform_one_clause_plain_witness :
    Plugin.transformListComprehension textBabel "x * x".toList
        [⟨"x".toList, "numbers".toList, none⟩]
      = .ok (some (Node.Map (.parsed "numbers".toList) (.identifier "x".toList)
          (.parsed "x * x".toList))) :=
  (transform_one_clause_plain textBabel "x * x".toList "x".toList "numbers".toList
    "numbers".toList "x * x".toList (by decide) rfl rfl).1

/-- C2: with one clause whose condition `c` is not empty, when `babel` parses the
iterable to `a`, the yield text to `b`, the condition to `t` and the parameter of
the pattern is `p`, `transformListComprehension` returns
`Map(Filter(a, p => t), p => b)`: `filter` is called on the iterable and `map` on
the result of `filter`. -/
theorem transform_one_clause_condition (babel : Babel ε α) (e v it c : Str) (a b t : α)
    (p : Node α) (hc : c ≠ [])
    (hit : babel.parseExpression it = .ok a) (he : babel.parseExpression e = .ok b)
    (hp : Plugin.makeParam babel v = .ok p) (hct : babel.parseExpression c = .ok t) :
    Plugin.transformListComprehension babel e [⟨v, it, some c⟩]
      = .ok (some (Node.Map (Node.Filter (.parsed a) p (.parsed t)) p (.parsed b))) := by
  obtain ⟨d, ds, rfl⟩ := List.exists_cons_of_ne_nil hc
  simp [Plugin.transformListComprehension, hp, hit, he, hct, truthy, Node.Map, Node.Filter,
    bind, Except.bind, pure, Except.pure]

/-- The instance of C2 at `x * x for (x of numbers) if (x % 2 === 0)`, which
becomes `numbers.filter(x => x % 2 === 0).map(x => x * x)`. -/
theorem transform_one_clause_condition_witness :
    Plugin.transformListComprehension textBabel "x * x".toList
        [⟨"x".toList, "numbers".toList, some "x % 2 === 0".toList⟩]
      = .ok (some (Node.Map
          (Node.Filter (.parsed "numbers".toList) (.identifier "x".toList)
            (.parsed "x % 2 === 0".toList))
          (.identifier "x".toList) (.parsed "x * x".toList))) :=
  transform_one_clause_condition textBabel "x * x".toList "x".toList "numbers".toList
    "x % 2 === 0".toList "numbers".toList "x * x".toList "x % 2 === 0".toList
    (.identifier "x".toList) (by decide) rfl rfl rfl rfl

/-- Inversion of the one-clause case. -/
theorem one_clause_inv (babel : Babel ε α) (e v it : Str) (c : Option Str) (inner : Node α)
    (h : Plugin.transformListComprehension babel e [⟨v, it, c⟩] = .ok (some inner)) :
    ∃ a b p, babel.parseExpression it = .ok a ∧ babel.parseExpression e = .ok b
      ∧ Plugin.makeParam babel v = .ok p
      ∧ ((truthy c = false ∧ inner = Node.Map (.parsed a) p (.parsed b))
        ∨ (truthy c = true ∧ ∃ t, babel.parseExpression (c.getD []) = .ok t
            ∧ inner = Node.Map (Node.Filter (.parsed a) p (.parsed t)) p (.parsed b))) := by
  simp only [Plugin.transformListComprehension, bind, Except.bind] at h
  cases hit : babel.parseExpression it with
  | error x => simp [hit] at h
  | ok a =>
    cases he : babel.parseExpression e with
    | error x => simp [hit, he] at h
    | ok b =>
      cases hp : Plugin.makeParam babel v with
      | error x => simp [hit, he, hp] at h
      | ok p =>
        refine ⟨a, b, p, rfl, rfl, rfl, ?_⟩
        simp only [hit, he, hp] at h
        cases htc : truthy c with
        | false =>
          simp [htc, pure, Except.pure] at h
          exact Or.inl ⟨rfl, by rw [← h]; rfl⟩
        | true =>
          simp only [htc, if_true] at h
          cases hct : babel.parseExpression (c.getD []) with
          | error x => simp [hct] at h
          | ok t =>
            simp [hct, pure, Except.pure] at h
            exact Or.inr ⟨rfl, t, rfl, by rw [← h]; rfl⟩

/-- The only member selected in `Map(a, p => b)` over leaves is `map`. -/
theorem members_map_leaf (a b : α) (p : Node α) (hp : p.members = []) :
    (Node.Map (.parsed a) p (.parsed b) : Node α).members = ["map".toList] := by
  simp [Node.Map, Node.members, Node.membersOfList, hp]

/-- The members selected in `Map(Filter(a, p => t), p => b)` over leaves. -/
theorem members_filter_map_leaf (a b t : α) (p : Node α) (hp : p.members = []) :
    (Node.Map (Node.Filter (.parsed a) p (.parsed t)) p (.parsed b) : Node α).members
      = ["filter".toList, "map".toList] := by
  simp [Node.Map, Node.Filter, Node.members, Node.membersOfList, hp]

/-- A parameter selects no member: it is an identifier or a leaf. -/
theorem makeParam_members (babel : Babel ε α) (v : Str) (p : Node α)
    (h : Plugin.makeParam babel v = .ok p) : p.members = [] := by
  unfold Plugin.makeParam at h
  split at h
  · cases hq : babel.parseFirstParam ("(".toList ++ v ++ ") => \x7b\x7d".toList) with
    | error x => simp only [hq, bind, Except.bind] at h; cases h
    | ok q =>
      simp only [hq, bind, Except.bind, pure, Except.pure] at h
      cases h; rfl
  · simp [pure, Except.pure] at h
    subst h; rfl

/-- C3: with two clauses, when `babel` parses the first iterable to `a1`, the
parameter of the first pattern is `p1`, the first condition (when present) parses to
`t1` and the one-clause case returns `inner` for the second clause, the result is
`FlatMap(S1, p1 => inner)` with `S1 = a1` when the first condition is absent and
`S1 = Filter(a1, p1 => t1)` otherwise; the members selected in `inner` are `map`, or
`filter` then `map`, and never `flatMap`. -/
theorem transform_two_clauses (babel : Babel ε α) (e v1 it1 v2 it2 : Str)
    (c1 c2 : Option Str) (a1 t1 : α) (p1 inner : Node α)
    (hit1 : babel.parseExpression it1 = .ok a1)
    (hp1 : Plugin.makeParam babel v1 = .ok p1)
    (hc1 : truthy c1 = true → babel.parseExpression (c1.getD []) = .ok t1)
    (hinner : Plugin.transformListComprehension babel e [⟨v2, it2, c2⟩] = .ok (some inner)) :
    Plugin.transformListComprehension babel e [⟨v1, it1, c1⟩, ⟨v2, it2, c2⟩]
        = .ok (some (Node.FlatMap
            (Node.filtered (.parsed a1) p1 (if truthy c1 then some (.parsed t1) else none))
            p1 inner))
      ∧ (inner.members = ["map".toList] ∨ inner.members = ["filter".toList, "map".toList])
      ∧ "flatMap".toList ∉ inner.members := by
  obtain ⟨a2, b, p2, hit2, he, hp2, hcase⟩ := one_clause_inv babel e v2 it2 c2 inner hinner
  have hm2 := makeParam_members babel v2 p2 hp2
  have hmem : inner.members = ["map".toList]
      ∨ inner.members = ["filter".toList, "map".toList] := by
    rcases hcase with ⟨_, rfl⟩ | ⟨_, t, _, rfl⟩
    · exact Or.inl (members_map_leaf a2 b p2 hm2)
    · exact Or.inr (members_filter_map_leaf a2 b t p2 hm2)
  refine ⟨?_, hmem, ?_⟩
  · cases htc1 : truthy c1 with
    | false =>
      rcases hcase with ⟨h2, rfl⟩ | ⟨h2, t, ht, rfl⟩
      · simp [Plugin.transformListComprehension, hit1, hit2, he, hp1, hp2, htc1, h2,
          Node.FlatMap, Node.Map, Node.filtered, bind, Except.bind, pure, Except.pure]
      · simp [Plugin.transformListComprehension, hit1, hit2, he, hp1, hp2, htc1, h2, ht,
          Node.FlatMap, Node.Map, Node.Filter, Node.filtered, bind, Except.bind, pure,
          Except.pure]
    | true =>
      have ht1 := hc1 htc1
      rcases hcase with ⟨h2, rfl⟩ | ⟨h2, t, ht, rfl⟩
      · simp [Plugin.transformListComprehension, hit1, hit2, he, hp1, hp2, htc1, h2, ht1,
          Node.FlatMap, Node.Map, Node.Filter, Node.filtered, bind, Except.bind, pure,
          Except.pure]
      · simp [Plugin.transformListComprehension, hit1, hit2, he, hp1, hp2, htc1, h2, ht, ht1,
          Node.FlatMap, Node.Map, Node.Filter, Node.filtered, bind, Except.bind, pure,
          Except.pure]
  · rcases hmem with h | h <;> rw [h] <;> decide

/-- The instance of C3 at `x * y for (x of numbers) for (y of numbers) if (x !== y)`. -/
theorem transform_two_clauses_witness :
    Plugin.transformListComprehension textBabel "x * y".toList
        [⟨"x".toList, "numbers".toList, none⟩,
         ⟨"y".toList, "numbers".toList, some "x !== y".toList⟩]
      = .ok (some (Node.FlatMap (.parsed "numbers".toList) (.identifier "x".toList)
          (Node.Map
            (Node.Filter (.parsed "numbers".toList) (.identifier "y".toList)
              (.parsed "x !== y".toList))
            (.identifier "y".toList) (.parsed "x * y".toList)))) :=
  (transform_two_clauses textBabel "x * y".toList "x".toList "numbers".toList "y".toList
    "numbers".toList none (some "x !== y".toList) "numbers".toList [] (.identifier "x".toList)
    _ rfl rfl (by simp [truthy]) rfl).1

/-! ## The matcher -/

theorem orElse_some_left (x : MatchState) (f : Unit → Option MatchState) :
    (some x).orElse f = some x := rfl

theorem orElse_none_left (f : Unit → Option MatchState) :
    (none : Option MatchState).orElse f = f () := rfl

/-- A successful greedy repetition took a run of characters of the class and then
the continuation succeeded. -/
theorem starLoop_sound (p : Char → Bool) (k : MatchState → Option MatchState)
    (caps : List (Nat × Str)) :
    ∀ (s : Str) (pos : Nat) (x : MatchState), starLoop p k caps pos s = some x →
      ∃ a b, s = a ++ b ∧ (∀ c ∈ a, p c = true) ∧ k ⟨pos + a.length, b, caps⟩ = some x
  | [], pos, x, h => ⟨[], [], rfl, by simp, by simpa [starLoop] using h⟩
  | c :: cs, pos, x, h => by
    unfold starLoop at h
    split at h
    · cases h' : starLoop p k caps (pos + 1) cs with
      | some y =>
        rw [h', orElse_some_left] at h
        rw [h] at h'
        obtain ⟨a, b, rfl, ha, hk⟩ := starLoop_sound p k caps cs (pos + 1) x h'
        refine ⟨c :: a, b, rfl, ?_, ?_⟩
        · intro d hd
          rcases List.mem_cons.1 hd with rfl | hd
          · assumption
          · exact ha d hd
        · rw [← hk]; congr 2; simp only [List.length_cons]; omega
      | none =>
        rw [h', orElse_none_left] at h
        exact ⟨[], c :: cs, rfl, by simp, by simpa using h⟩
    · exact ⟨[], c :: cs, rfl, by simp, by simpa using h⟩

/-- A successful `+` took a non-empty run of characters of the class. -/
theorem plus_sound (p : Char → Bool) (st : MatchState) (k : MatchState → Option MatchState)
    (x : MatchState) (h : (Regex.plus p).run st k = some x) :
    ∃ a b, st.rest = a ++ b ∧ a ≠ [] ∧ (∀ c ∈ a, p c = true)
      ∧ k ⟨st.pos + a.length, b, st.caps⟩ = some x := by
  unfold Regex.run at h
  split at h
  · cases h
  · rename_i d ds hrest
    split at h
    · rename_i hd
      obtain ⟨a, b, rfl, ha, hk⟩ := starLoop_sound p k st.caps ds (st.pos + 1) x h
      refine ⟨d :: a, b, hrest, by simp, ?_, ?_⟩
      · intro c hc
        rcases List.mem_cons.1 hc with rfl | hc
        · exact hd
        · exact ha c hc
      · rw [← hk]; congr 2; simp only [List.length_cons]; omega
    · cases h

/-- A literal followed by `r` matches exactly when the input starts with the
literal and `r` matches what follows. -/
theorem lit_run (s : Str) (r : Regex) (k : MatchState → Option MatchState) :
    ∀ (pos : Nat) (rest : Str) (caps : List (Nat × Str)),
      (Regex.lit s r).run ⟨pos, s ++ rest, caps⟩ k = r.run ⟨pos + s.length, rest, caps⟩ k := by
  induction s with
  | nil => intro pos rest caps; rfl
  | cons c cs ih =>
    intro pos rest caps
    have := ih (pos + 1) rest caps
    simp only [Regex.lit, List.foldr_cons, Regex.run, List.cons_append, if_true] at this ⊢
    rw [this]
    congr 2; simp only [List.length_cons]; omega

/-- A successful literal was read from the start of the input. -/
theorem lit_sound (s : Str) (r : Regex) (k : MatchState → Option MatchState) :
    ∀ (st : MatchState) (x : MatchState), (Regex.lit s r).run st k = some x →
      ∃ rest, st.rest = s ++ rest ∧ r.run ⟨st.pos + s.length, rest, st.caps⟩ k = some x := by
  induction s with
  | nil => intro st x h; exact ⟨st.rest, rfl, h⟩
  | cons c cs ih =>
    intro st x h
    simp only [Regex.lit, List.foldr_cons, Regex.run] at h
    split at h
    · cases h
    · rename_i d ds hrest
      split at h
      · rename_i hd
        obtain ⟨rest, hr, hx⟩ := ih ⟨st.pos + 1, ds, st.caps⟩ x h
        refine ⟨rest, ?_, ?_⟩
        · rw [hrest, hd]; simp at hr; simp [hr]
        · rw [← hx]; congr 2; simp only [List.length_cons]; omega
      · cases h

/-! ## Occurrences of a keyword -/

theorem startsWith_append (kw b : Str) : startsWith kw (kw ++ b) = true := by
  simp [startsWith]

theorem thenSpace_append (kw b : Str) (d : Char) (hd : isSpace d = true) :
    thenSpace kw (kw ++ d :: b) = true := by
  simp [thenSpace, startsWith, hd]

theorem thenSpaceOrEnd_append (kw b : Str) (d : Char) (hd : isSpace d = true) :
    thenSpaceOrEnd kw (kw ++ d :: b) = true := by
  simp [thenSpaceOrEnd, startsWith, hd]

theorem thenSpaceOrEnd_self (kw : Str) : thenSpaceOrEnd kw kw = true := by
  simp [thenSpaceOrEnd, startsWith]

theorem isolatedKeyword_start (kw b : Str) (d : Char) (hd : isSpace d = true) :
    isolatedKeyword kw (kw ++ d :: b) = true := by
  simp [isolatedKeyword, thenSpace_append kw b d hd]

theorem isolatedKeyword_mid (kw a b : Str) (c d : Char) (hc : isSpace c = true)
    (hd : isSpace d = true) : isolatedKeyword kw (a ++ c :: (kw ++ d :: b)) = true := by
  unfold isolatedKeyword
  rw [Bool.or_eq_true, List.any_eq_true]
  refine Or.inr ⟨c :: (kw ++ d :: b), ?_, ?_⟩
  · rw [List.mem_tails]; exact ⟨a, rfl⟩
  · simp [hc, thenSpaceOrEnd_append kw b d hd]

theorem isolatedKeyword_end (kw a : Str) (c : Char) (hc : isSpace c = true) :
    isolatedKeyword kw (a ++ c :: kw) = true := by
  unfold isolatedKeyword
  rw [Bool.or_eq_true, List.any_eq_true]
  refine Or.inr ⟨c :: kw, ?_, ?_⟩
  · rw [List.mem_tails]; exact ⟨a, rfl⟩
  · simp [hc, thenSpaceOrEnd_self]

theorem spacedOccurrence_intro (kw a b : Str) (c d : Char) (hc : isSpace c = true)
    (hd : isSpace d = true) :
    spacedOccurrence kw (a ++ c :: (kw ++ d :: b)) = true := by
  unfold spacedOccurrence
  rw [List.any_eq_true]
  refine ⟨c :: (kw ++ d :: b), ?_, ?_⟩
  · rw [List.mem_tails]; exact ⟨a, rfl⟩
  · simp [hc, hd, startsWith_append]

/-- A non-empty list ends with its last element. -/
theorem exists_append_last (w : Str) (hw : w ≠ []) : ∃ w' c, w = w' ++ [c] := by
  refine ⟨w.dropLast, w.getLast hw, ?_⟩
  exact (List.dropLast_append_getLast hw).symm

/-- The alignment of a keyword occurrence `w ++ kw ++ d :: r`, with `w` a non-empty
run of whitespace and `d` whitespace, against a text `t` that ends with a character
that is not whitespace: the keyword lies inside `t` or ends it, or it runs over the
end of `t`. -/
theorem keyword_align (kw w r t y : Str) (d : Char) (hw : w ≠ [])
    (hws : ∀ c ∈ w, isSpace c = true) (hd : isSpace d = true)
    (ht : t ≠ []) (hlast : ∀ c ∈ t.getLast?, isSpace c = false)
    (h : w ++ (kw ++ d :: r) = t ++ y) :
    (∀ u, isolatedKeyword kw (u ++ t) = true) ∨ ∃ c ∈ y.head?, c ∈ kw.tail := by
  rcases List.append_eq_append_iff.1 h with ⟨a, hta, hkr⟩ | ⟨c', hwt, _⟩
  · -- t = w ++ a
    obtain ⟨w', c, rfl⟩ := exists_append_last w hw
    have hc : isSpace c = true := hws c (by simp)
    have hend : ∀ u, isolatedKeyword kw (u ++ (w' ++ [c] ++ kw)) = true := by
      intro u
      have := isolatedKeyword_end kw (u ++ w') c hc
      simpa using this
    rcases List.append_eq_append_iff.1 hkr with ⟨a', hkw, hy⟩ | ⟨c'', ha, hr⟩
    · -- a = kw ++ a',  d :: r = a' ++ y
      left
      rw [hta, hkw]
      cases a' with
      | nil => simpa using hend
      | cons a0 as =>
        simp at hy
        intro u
        have := isolatedKeyword_mid kw (u ++ w') as c d hc hd
        rw [← hy.1]
        simpa using this
    · -- kw = a ++ c'',  y = c'' ++ d :: r
      cases c'' with
      | nil =>
        left
        rw [hta]
        simp at ha
        rw [← ha]
        exact hend
      | cons e es =>
        cases a with
        | nil =>
          exfalso
          simp at hta
          have := hlast c (by rw [hta]; simp)
          rw [hc] at this; cases this
        | cons a0 as =>
          right
          refine ⟨e, by rw [hr]; simp, ?_⟩
          rw [ha]; simp
  · -- w = t ++ c'
    exfalso
    obtain ⟨t', c, rfl⟩ := exists_append_last t ht
    have h1 := hlast c (by simp)
    have h2 := hws c (by rw [hwt]; simp)
    rw [h1] at h2; cases h2

/-! ## A keyword between whitespace -/

/-- A successful `\s+kw` followed by `r` read a non-empty run of whitespace and the
keyword, and `r` succeeded on what follows. -/
theorem keyword_sound (kw : Str) (r : Regex) (st x : MatchState)
    (k : MatchState → Option MatchState)
    (h : (Regex.seq (.plus isSpace) (.lit kw r)).run st k = some x) :
    ∃ w rest, st.rest = w ++ (kw ++ rest) ∧ w ≠ [] ∧ (∀ c ∈ w, isSpace c = true)
      ∧ r.run ⟨st.pos + w.length + kw.length, rest, st.caps⟩ k = some x := by
  rw [Regex.run] at h
  obtain ⟨w, b, hrest, hw, hws, hk⟩ := plus_sound isSpace st _ x h
  obtain ⟨rest, hb, hr⟩ := lit_sound kw r k _ x hk
  exact ⟨w, rest, by rw [hrest]; simp at hb; rw [hb], hw, hws, hr⟩

/-- A match of `\s+` starts with a whitespace character. -/
theorem plus_space_head (st x : MatchState) (k : MatchState → Option MatchState)
    (h : (Regex.plus isSpace).run st k = some x) :
    ∃ c rest, st.rest = c :: rest ∧ isSpace c = true := by
  obtain ⟨a, b, hrest, ha, hws, _⟩ := plus_sound isSpace st k x h
  cases a with
  | nil => exact absurd rfl ha
  | cons c cs => exact ⟨c, cs ++ b, hrest, hws c (by simp)⟩

theorem spaceFirst_head (r : Regex) (hr : SpaceFirst r) (st x : MatchState)
    (k : MatchState → Option MatchState) (h : r.run st k = some x) :
    ∃ c rest, st.rest = c :: rest ∧ isSpace c = true := by
  rcases hr with rfl | ⟨r', rfl⟩
  · exact plus_space_head st x k h
  · rw [Regex.run] at h
    exact plus_space_head st x _ h

/-- Inside a text that ends without whitespace and has no word `kw` next to
whitespace, followed by a text that does not start with a later character of `kw`,
no match of `\s+kw\s+...` starts. -/
theorem keyword_fails_inside (kw : Str) (r : Regex) (hr : SpaceFirst r)
    (k : MatchState → Option MatchState)
    (x y : Str) (hlast : ∀ c ∈ x.getLast?, isSpace c = false)
    (hx : isolatedKeyword kw x = false) (hy : ∀ c ∈ y.head?, c ∉ kw.tail)
    (t : Str) (ht : t <:+ x) (hne : t ≠ []) (pos : Nat) (caps : List (Nat × Str)) :
    (Regex.seq (.plus isSpace) (.lit kw r)).run ⟨pos, t ++ y, caps⟩ k = none := by
  cases hrun : (Regex.seq (.plus isSpace) (.lit kw r)).run ⟨pos, t ++ y, caps⟩ k with
  | none => rfl
  | some m =>
    exfalso
    obtain ⟨w, rest, hrest, hw, hws, hr'⟩ := keyword_sound kw r _ m k hrun
    obtain ⟨d, rest', hrest', hd⟩ := spaceFirst_head r hr _ m k hr'
    simp only at hrest hrest'
    subst hrest'
    obtain ⟨a, rfl⟩ := ht
    have hlast' : ∀ c ∈ t.getLast?, isSpace c = false := by
      intro c hc
      apply hlast c
      rw [List.getLast?_append_of_ne_nil _ hne]; exact hc
    rcases keyword_align kw w rest' t y d hw hws hd hne hlast' hrest.symm
      with hb | ⟨c, hc, hmem⟩
    · have := hb a
      rw [hx] at this; cases this
    · exact hy c hc hmem

/-- Right after one whitespace character, before a text that starts without
whitespace and does not start with `kw` followed by whitespace, no match of
`\s+kw\s+...` starts when what follows the text starts neither with whitespace nor
with a later character of `kw`. -/
theorem keyword_fails_after_space (kw : Str) (r : Regex) (hr : SpaceFirst r)
    (k : MatchState → Option MatchState) (c0 : Char) (x y : Str) (hne : x ≠ [])
    (hhead : ∀ c ∈ x.head?, isSpace c = false)
    (hx : isolatedKeyword kw x = false)
    (hy : ∀ c ∈ y.head?, isSpace c = false ∧ c ∉ kw.tail)
    (pos : Nat) (caps : List (Nat × Str)) :
    (Regex.seq (.plus isSpace) (.lit kw r)).run ⟨pos, c0 :: (x ++ y), caps⟩ k = none := by
  cases hrun : (Regex.seq (.plus isSpace) (.lit kw r)).run ⟨pos, c0 :: (x ++ y), caps⟩ k with
  | none => rfl
  | some m =>
    exfalso
    obtain ⟨w, rest, hrest, hw, hws, hr'⟩ := keyword_sound kw r _ m k hrun
    obtain ⟨c2, rest', hrest', hc2⟩ := spaceFirst_head r hr _ m k hr'
    simp only at hrest hrest'
    subst hrest'
    obtain ⟨xh, xt, rfl⟩ := List.exists_cons_of_ne_nil hne
    have hxh : isSpace xh = false := hhead xh (by simp)
    cases w with
    | nil => exact hw rfl
    | cons w0 wt =>
      cases wt with
      | cons w1 wt' =>
        simp at hrest
        have := hws w1 (by simp)
        rw [← hrest.2.1, hxh] at this; cases this
      | nil =>
        simp only [List.nil_append, List.cons_append, List.cons.injEq] at hrest
        obtain ⟨_, hrest⟩ := hrest
        rcases List.append_eq_append_iff.1 (show (xh :: xt) ++ y = kw ++ (c2 :: rest') from hrest)
          with ⟨a', hkw, hy'⟩ | ⟨c', hxk, hcr⟩
        · -- kw = (xh :: xt) ++ a',  y = a' ++ c2 :: rest'
          cases a' with
          | nil =>
            have := (hy c2 (by rw [hy']; simp)).1
            rw [hc2] at this; cases this
          | cons d ds =>
            exact (hy d (by rw [hy']; simp)).2 (by rw [hkw]; simp)
        · -- xh :: xt = kw ++ c',  c2 :: rest' = c' ++ y
          cases c' with
          | nil =>
            have := (hy c2 (by simp at hcr; rw [← hcr]; simp)).1
            rw [hc2] at this; cases this
          | cons d ds =>
            simp at hcr
            have : isolatedKeyword kw (xh :: xt) = true := by
              rw [hxk, ← hcr.1]
              exact isolatedKeyword_start kw ds c2 hc2
            rw [hx] at this; cases this

/-! ## Greedy repetition picks the longest run that lets the rest match -/

/-- When the repetition succeeds after a run `a` of the class, it succeeds with the
same result before `a`: longer runs are tried first. -/
theorem starLoop_skip (p : Char → Bool) (k : MatchState → Option MatchState)
    (caps : List (Nat × Str)) (x : MatchState) :
    ∀ (a b : Str) (pos : Nat), (∀ c ∈ a, p c = true) →
      starLoop p k caps (pos + a.length) b = some x →
      starLoop p k caps pos (a ++ b) = some x
  | [], b, pos, _, h => by simpa using h
  | c :: a, b, pos, ha, h => by
    have hc : p c = true := ha c (by simp)
    have ih := starLoop_skip p k caps x a b (pos + 1) (fun d hd => ha d (by simp [hd]))
      (by rw [← h]; congr 1; simp only [List.length_cons]; omega)
    rw [List.cons_append, starLoop]
    simp only [hc, if_true, ih, orElse_some_left]

/-- When the continuation fails at every end inside `b` and the repetition cannot
go beyond `b`, the repetition fails. -/
theorem starLoop_none (p : Char → Bool) (k : MatchState → Option MatchState)
    (caps : List (Nat × Str)) (y : Str) (hy : ∀ c ∈ y.head?, p c = false) :
    ∀ (b : Str) (pos : Nat),
      (∀ a t, b = a ++ t → k ⟨pos + a.length, t ++ y, caps⟩ = none) →
      starLoop p k caps pos (b ++ y) = none
  | [], pos, h => by
    have h0 := h [] [] rfl
    simp only [List.nil_append, List.length_nil, Nat.add_zero] at h0 ⊢
    cases y with
    | nil => simpa [starLoop] using h0
    | cons c cs =>
      have := hy c (by simp)
      simp [starLoop, this, h0]
  | c :: b, pos, h => by
    have h0 := h [] (c :: b) rfl
    simp only [List.nil_append, List.length_nil, Nat.add_zero] at h0
    have ih := starLoop_none p k caps y hy b (pos + 1) (fun a t hat => by
      have := h (c :: a) t (by rw [hat]; rfl)
      rw [← this]; congr 2; simp only [List.length_cons]; omega)
    rw [List.cons_append, starLoop]
    split
    · rw [ih, orElse_none_left]; exact h0
    · exact h0

/-- When the continuation succeeds here and fails at every later end inside `b`,
the repetition returns the result obtained here. -/
theorem starLoop_here (p : Char → Bool) (k : MatchState → Option MatchState)
    (caps : List (Nat × Str)) (y : Str) (hy : ∀ c ∈ y.head?, p c = false)
    (x : MatchState) (b : Str) (pos : Nat)
    (hk : k ⟨pos, b ++ y, caps⟩ = some x)
    (hfail : ∀ a t, b = a ++ t → a ≠ [] → k ⟨pos + a.length, t ++ y, caps⟩ = none) :
    starLoop p k caps pos (b ++ y) = some x := by
  cases b with
  | nil =>
    simp only [List.nil_append] at hk ⊢
    cases y with
    | nil => simpa [starLoop] using hk
    | cons c cs =>
      have := hy c (by simp)
      simp [starLoop, this, hk]
  | cons c b =>
    have hn := starLoop_none p k caps y hy b (pos + 1) (fun a t hat => by
      have := hfail (c :: a) t (by rw [hat]; rfl) (by simp)
      rw [← this]; congr 2; simp only [List.length_cons]; omega)
    rw [List.cons_append] at hk ⊢
    rw [starLoop]
    split
    · rw [hn, orElse_none_left]; exact hk
    · exact hk

/-- The greedy `+` over a class, on a run `a` of the class followed by `b` and `y`:
when the continuation succeeds after `a` and fails at every later end inside `b`,
the match ends after `a`. -/
theorem plus_here (p : Char → Bool) (k : MatchState → Option MatchState)
    (caps : List (Nat × Str)) (y : Str) (hy : ∀ c ∈ y.head?, p c = false)
    (x : MatchState) (a b : Str) (pos : Nat) (ha : a ≠ []) (hp : ∀ c ∈ a, p c = true)
    (hk : k ⟨pos + a.length, b ++ y, caps⟩ = some x)
    (hfail : ∀ u t, b = u ++ t → u ≠ [] →
      k ⟨pos + a.length + u.length, t ++ y, caps⟩ = none) :
    (Regex.plus p).run ⟨pos, a ++ (b ++ y), caps⟩ k = some x := by
  obtain ⟨c, a', rfl⟩ := List.exists_cons_of_ne_nil ha
  have hc : p c = true := hp c (by simp)
  simp only [Regex.run, List.cons_append, hc, if_true]
  apply starLoop_skip p k caps x a' (b ++ y) (pos + 1) (fun d hd => hp d (by simp [hd]))
  have e : pos + 1 + a'.length = pos + (c :: a').length := by
    simp only [List.length_cons]; omega
  rw [e]
  exact starLoop_here p k caps y hy x b _ hk hfail

/-! ## The clause pattern on a well-formed segment -/

theorem run_seq (a b : Regex) (st : MatchState) (k : MatchState → Option MatchState) :
    (Regex.seq a b).run st k = a.run st (fun st₁ => b.run st₁ k) := rfl

theorem run_char_cons (c : Char) (pos : Nat) (rest : Str) (caps : List (Nat × Str))
    (k : MatchState → Option MatchState) :
    (Regex.char c).run ⟨pos, c :: rest, caps⟩ k = k ⟨pos + 1, rest, caps⟩ := by
  simp [Regex.run]

theorem run_group (i : Nat) (r : Regex) (st : MatchState)
    (k : MatchState → Option MatchState) :
    (Regex.group i r).run st k
      = r.run st (fun st₁ =>
          k ⟨st₁.pos, st₁.rest, (i, st.rest.take (st₁.pos - st.pos)) :: st₁.caps⟩) := rfl

/-- The optional suffix never makes a match fail. -/
theorem ifSuffix_some (st : MatchState) : ∃ x, ifSuffix.run st some = some x := by
  unfold ifSuffix
  rw [Regex.run]
  cases h : (Regex.group 3
      (.seq (.plus isSpace) (.lit "if".toList
        (.seq (.plus isSpace) (.seq (.char '(')
          (.seq (.group 4 (.plus notClose)) (.char ')'))))))).run st some with
  | none => exact ⟨st, rfl⟩
  | some x => exact ⟨x, rfl⟩

theorem notClose_of_not_mem (s : Str) (h : ')' ∉ s) : ∀ c ∈ s, notClose c = true := by
  intro c hc
  simp only [notClose, bne_iff_ne, ne_eq]
  rintro rfl
  exact h hc

/-- The pattern from `\s+of` on does not match at a character that is not
whitespace. -/
theorem afterPattern_not_space (c : Char) (hc : isSpace c = false) (pos : Nat) (rest : Str)
    (caps : List (Nat × Str)) (k : MatchState → Option MatchState) :
    afterPattern.run ⟨pos, c :: rest, caps⟩ k = none := by
  simp [afterPattern, Regex.run, hc]

/-- Iterable, closing parenthesis and suffix: the iterable is captured whole. -/
theorem iterable_run (it tail : Str) (hne : it ≠ []) (hclose : ')' ∉ it) (pos : Nat)
    (caps : List (Nat × Str)) (x : MatchState)
    (h : ifSuffix.run ⟨pos + it.length + 1, tail, (2, it) :: caps⟩ some = some x) :
    (Regex.seq (.group 2 (.plus notClose)) afterIterable).run
      ⟨pos, it ++ ')' :: tail, caps⟩ some = some x := by
  rw [run_seq, run_group]
  have := plus_here notClose
    (fun st₁ => (fun st₁ => afterIterable.run st₁ some)
      ⟨st₁.pos, st₁.rest, (2, (it ++ ')' :: tail).take (st₁.pos - pos)) :: st₁.caps⟩)
    caps (')' :: tail) (by simp [notClose]) x it [] pos hne (notClose_of_not_mem it hclose)
    (by
      simp only [List.nil_append, afterIterable, run_seq, run_char_cons]
      rw [← h]
      simp)
    (by
      intro u t hut hu
      cases u with
      | nil => exact absurd rfl hu
      | cons _ _ => cases hut)
  simpa using this

/-- One whitespace character, then the iterable: `\s+` takes the one character. -/
theorem afterOf_run (it tail : Str) (hne : it ≠ []) (hclose : ')' ∉ it)
    (hhead : ∀ c ∈ it.head?, isSpace c = false) (pos : Nat)
    (caps : List (Nat × Str)) (x : MatchState)
    (h : ifSuffix.run ⟨pos + it.length + 2, tail, (2, it) :: caps⟩ some = some x) :
    afterOf.run ⟨pos, ' ' :: (it ++ ')' :: tail), caps⟩ some = some x := by
  rw [afterOf, run_seq]
  have := plus_here isSpace
    (fun st₁ => (Regex.seq (.group 2 (.plus notClose)) afterIterable).run st₁ some)
    caps (it ++ ')' :: tail)
    (by
      obtain ⟨c, cs, rfl⟩ := List.exists_cons_of_ne_nil hne
      intro d hd
      simp at hd
      subst hd
      exact hhead _ (by simp))
    x [' '] [] pos (by simp) (by simp [isSpace])
    (by
      simp only [List.nil_append, List.length_singleton]
      exact iterable_run it tail hne hclose (pos + 1) caps x
        (by rw [← h]; congr 2; omega))
    (by
      intro u t hut hu
      cases u with
      | nil => exact absurd rfl hu
      | cons _ _ => cases hut)
  simpa using this

/-- The text ` of <iterable>)`, read from `\s+of` on. -/
theorem afterPattern_run (it tail : Str) (hne : it ≠ []) (hclose : ')' ∉ it)
    (hhead : ∀ c ∈ it.head?, isSpace c = false) (pos : Nat)
    (caps : List (Nat × Str)) (x : MatchState)
    (h : ifSuffix.run ⟨pos + it.length + 5, tail, (2, it) :: caps⟩ some = some x) :
    afterPattern.run ⟨pos, " of ".toList ++ (it ++ ')' :: tail), caps⟩ some = some x := by
  rw [afterPattern, run_seq]
  have := plus_here isSpace
    (fun st₁ => (Regex.lit "of".toList afterOf).run st₁ some)
    caps ("of ".toList ++ (it ++ ')' :: tail)) (by simp [isSpace])
    x [' '] [] pos (by simp) (by simp [isSpace])
    (by
      simp only [List.nil_append, List.length_singleton]
      have e : "of ".toList ++ (it ++ ')' :: tail)
          = "of".toList ++ (' ' :: (it ++ ')' :: tail)) := rfl
      rw [e, lit_run]
      exact afterOf_run it tail hne hclose hhead _ caps x
        (by rw [← h]; congr 2; simp only [show "of".toList.length = 2 from rfl]; omega))
    (by
      intro u t hut hu
      cases u with
      | nil => exact absurd rfl hu
      | cons _ _ => cases hut)
  simpa using this

/-- Further into ` of <iterable>`, the pattern from `\s+of` on does not match. -/
theorem afterPattern_fails (it tail : Str)
    (hlast : ∀ c ∈ it.getLast?, isSpace c = false)
    (hhead : ∀ c ∈ it.head?, isSpace c = false) (hne : it ≠ [])
    (hof : isolatedKeyword "of".toList it = false)
    (u t : Str) (hut : " of ".toList ++ it = u ++ t) (hu : u ≠ []) (pos : Nat)
    (caps : List (Nat × Str)) (k : MatchState → Option MatchState) :
    afterPattern.run ⟨pos, t ++ ')' :: tail, caps⟩ k = none := by
  have hy : ∀ c ∈ (')' :: tail).head?, isSpace c = false ∧ c ∉ "of".toList.tail := by
    intro c hc
    simp at hc
    subst hc
    exact ⟨by decide, by decide⟩
  rcases u with _ | ⟨u0, _ | ⟨u1, _ | ⟨u2, _ | ⟨u3, u'⟩⟩⟩⟩
  · exact absurd rfl hu
  · simp at hut
    rw [← hut.2]
    exact afterPattern_not_space 'o' (by decide) _ _ _ _
  · simp at hut
    rw [← hut.2.2]
    exact afterPattern_not_space 'f' (by decide) _ _ _ _
  · simp at hut
    rw [← hut.2.2.2]
    exact keyword_fails_after_space "of".toList afterOf (Or.inr ⟨_, rfl⟩) k ' ' it
      (')' :: tail) hne hhead hof hy pos caps
  · simp at hut
    obtain ⟨_, _, _, _, hit⟩ := hut
    cases t with
    | nil => exact afterPattern_not_space ')' (by decide) _ _ _ _
    | cons t0 ts =>
      exact keyword_fails_inside "of".toList afterOf (Or.inr ⟨_, rfl⟩) k it (')' :: tail)
        hlast hof
        (fun c hc => (hy c hc).2) (t0 :: ts) ⟨u', hit.symm⟩ (by simp) pos caps

theorem run_bol (s : Str) (caps : List (Nat × Str)) (k : MatchState → Option MatchState) :
    Regex.bol.run ⟨0, s, caps⟩ k = k ⟨0, s, caps⟩ := by
  simp [Regex.run]

/-- The clause pattern on `(<p> of <it>)<tail>`: the match starts at index 0, group
1 is `p`, group 2 is `it`, and only the optional suffix reads `tail`. -/
theorem clausePattern_run (p it tail : Str) (hp : p ≠ []) (hpc : ')' ∉ p)
    (hne : it ≠ []) (hclose : ')' ∉ it)
    (hhead : ∀ c ∈ it.head?, isSpace c = false)
    (hlast : ∀ c ∈ it.getLast?, isSpace c = false)
    (hof : isolatedKeyword "of".toList it = false)
    (x : MatchState)
    (h : ifSuffix.run ⟨p.length + it.length + 6, tail, [(2, it), (1, p)]⟩ some = some x) :
    exec clausePattern ('(' :: (p ++ ((" of ".toList ++ it) ++ ')' :: tail))) = some x := by
  have hm : matchAt clausePattern 0 ('(' :: (p ++ ((" of ".toList ++ it) ++ ')' :: tail)))
      = some x := by
    rw [matchAt, clausePattern, run_seq, run_bol, run_seq, run_char_cons, run_seq, run_group]
    apply plus_here notClose _ [] (')' :: tail) (by simp [notClose]) x p
      (" of ".toList ++ it) (0 + 1) hp (notClose_of_not_mem p hpc)
    · simp only [Nat.add_sub_cancel_left, List.take_left', List.append_assoc]
      exact afterPattern_run it tail hne hclose hhead _ _ x
        (by rw [← h]; congr 2; omega)
    · intro u t hut hu
      exact afterPattern_fails it tail hlast hhead hne hof u t hut hu _ _ _
  rw [exec, execFrom, hm, orElse_some_left]

/-- The optional suffix at the end of the segment: nothing is read. -/
theorem ifSuffix_nil (pos : Nat) (caps : List (Nat × Str)) :
    ifSuffix.run ⟨pos, [], caps⟩ some = some ⟨pos, [], caps⟩ := rfl

/-- The optional suffix on ` if (<c>)`: group 4 is `c`. -/
theorem ifSuffix_condition (c tail : Str) (hne : c ≠ []) (hclose : ')' ∉ c) (pos : Nat)
    (caps : List (Nat × Str)) :
    ifSuffix.run ⟨pos, " if (".toList ++ (c ++ ')' :: tail), caps⟩ some
      = some ⟨pos + c.length + 6, tail,
          (3, " if (".toList ++ (c ++ [')'])) :: (4, c) :: caps⟩ := by
  have hg : (Regex.group 3
      (.seq (.plus isSpace) (.lit "if".toList
        (.seq (.plus isSpace) (.seq (.char '(')
          (.seq (.group 4 (.plus notClose)) (.char ')'))))))).run
        ⟨pos, " if (".toList ++ (c ++ ')' :: tail), caps⟩ some
      = some ⟨pos + c.length + 6, tail,
          (3, " if (".toList ++ (c ++ [')'])) :: (4, c) :: caps⟩ := by
    rw [run_group, run_seq]
    apply plus_here isSpace _ caps ("if (".toList ++ (c ++ ')' :: tail)) (by simp [isSpace])
      _ [' '] [] pos (by simp) (by simp [isSpace])
    · simp only [List.nil_append, List.length_singleton]
      have e : "if (".toList ++ (c ++ ')' :: tail)
          = "if".toList ++ (' ' :: '(' :: (c ++ ')' :: tail)) := rfl
      rw [e, lit_run, run_seq]
      apply plus_here isSpace _ caps ('(' :: (c ++ ')' :: tail)) (by simp [isSpace])
        _ [' '] [] _ (by simp) (by simp [isSpace])
      · simp only [List.nil_append, List.length_singleton]
        rw [run_seq, run_char_cons, run_seq, run_group]
        apply plus_here notClose _ caps (')' :: tail) (by simp [notClose]) _ c [] _ hne
          (notClose_of_not_mem c hclose)
        · simp only [List.nil_append, run_char_cons]
          simp only [show "if".toList.length = 2 from rfl,
            show " if (".toList = ' ' :: 'i' :: 'f' :: ' ' :: '(' :: [] from rfl]
          simp
          refine ⟨by omega, ?_⟩
          rw [show pos + 1 + 2 + 1 + 1 + c.length + 1 - pos = c.length + 1 + 5 by omega]
          have ht : List.take (c.length + 1) (c ++ ')' :: tail) = c ++ [')'] := by
            rw [List.take_append_eq_append_take]; simp
          simp [List.take_succ_cons, ht]
        · intro u t hut hu
          cases u with
          | nil => exact absurd rfl hu
          | cons _ _ => cases hut
      · intro u t hut hu
        cases u with
        | nil => exact absurd rfl hu
        | cons _ _ => cases hut
    · intro u t hut hu
      cases u with
      | nil => exact absurd rfl hu
      | cons _ _ => cases hut
  rw [ifSuffix, Regex.run, hg, orElse_some_left]

/-- The segment written for a clause of the documented grammar is matched by the
clause pattern, and the clause pushed for it is that clause. -/
theorem exec_clauseText (cl : Clause) (h : PlainClause cl) :
    (exec clausePattern (clauseText cl)).map clauseOfMatch = some cl := by
  obtain ⟨p, it, cond⟩ := cl
  obtain ⟨⟨hp, hpc, -⟩, ⟨hne, hclose, hhead, hlast, -, hof⟩, hcond⟩ := h
  have e : clauseText ⟨p, it, cond⟩
      = '(' :: (p ++ ((" of ".toList ++ it) ++ ')' :: conditionText cond)) := by
    simp [clauseText]
  rw [e]
  cases cond with
  | none =>
    rw [show conditionText none = [] from rfl,
      clausePattern_run p it [] hp hpc hne hclose hhead hlast hof _ (ifSuffix_nil _ _)]
    simp [clauseOfMatch, MatchState.capture, List.lookup, orNull]
  | some c =>
    obtain ⟨hcne, hcc, -⟩ := hcond c rfl
    have e2 : conditionText (some c) = " if (".toList ++ (c ++ ')' :: []) := by
      simp [conditionText]
    rw [e2, clausePattern_run p it _ hp hpc hne hclose hhead hlast hof _
      (ifSuffix_condition c [] hcne hcc _ _)]
    obtain ⟨c0, cs, rfl⟩ := List.exists_cons_of_ne_nil hcne
    simp [clauseOfMatch, MatchState.capture, List.lookup, orNull]

/-! ## The clause loop -/

/-- The clause pushed for a segment, if any. -/
theorem collectClauses_acc (parts : List Str) :
    ∀ clauses : List Clause,
      collectClauses parts clauses
        = clauses ++ parts.filterMap (fun s => (exec clausePattern s).map clauseOfMatch) := by
  induction parts with
  | nil => intro clauses; simp [collectClauses]
  | cons part parts ih =>
    intro clauses
    rw [collectClauses]
    cases h : exec clausePattern part with
    | none => simp [ih, List.filterMap_cons, h]
    | some m => simp [ih, List.filterMap_cons, h]

theorem collectClauses_clauseText (cls : List Clause) (h : ∀ cl ∈ cls, PlainClause cl) :
    collectClauses (cls.map clauseText) [] = cls := by
  rw [collectClauses_acc, List.nil_append]
  induction cls with
  | nil => rfl
  | cons cl cls ih =>
    rw [List.map_cons, List.filterMap_cons, exec_clauseText cl (h cl (by simp))]
    simp only
    rw [ih (fun c hc => h c (by simp [hc]))]

/-! ## The split -/

/-- The characters of a separator already matched are passed over. -/
theorem splitLoop_skip (sep : Regex) (r seg : Str) :
    ∀ (a : Str) (q : Nat),
      splitLoop sep (a ++ r) q a.length seg = splitLoop sep r (q + a.length) 0 seg
  | [], q => by simp
  | c :: a, q => by
    rw [List.cons_append, List.length_cons, splitLoop, splitLoop_skip sep r seg a (q + 1)]
    congr 1; omega

/-- A stretch in which no separator starts is added to the current segment. -/
theorem splitLoop_quiet (sep : Regex) (r : Str) :
    ∀ (x seg : Str) (q : Nat), NoMatchIn sep x r →
      splitLoop sep (x ++ r) q 0 seg = splitLoop sep r (q + x.length) 0 (seg ++ x)
  | [], seg, q, _ => by simp
  | c :: x, seg, q, h => by
    have h0 : matchAt sep q (c :: x ++ r) = none := h (c :: x) (List.suffix_refl _) (by simp) q
    have ih := splitLoop_quiet sep r x (seg ++ [c]) (q + 1)
      (fun t ht hne q' => h t (ht.trans (List.suffix_cons c x)) hne q')
    rw [List.cons_append] at h0 ⊢
    rw [splitLoop, h0]
    simp only
    rw [ih]
    simp only [List.append_assoc, List.singleton_append, List.length_cons]
    congr 1; omega

theorem noMatchIn_append (sep : Regex) (a b r : Str) (ha : NoMatchIn sep a (b ++ r))
    (hb : NoMatchIn sep b r) : NoMatchIn sep (a ++ b) r := by
  intro t ht hne q
  obtain ⟨u, hu⟩ := ht
  rcases List.append_eq_append_iff.1 hu with ⟨a', hau, htb⟩ | ⟨c', hua, hbt⟩
  · -- a = u ++ a', t = a' ++ b
    cases a' with
    | nil =>
      simp at htb
      rw [htb]
      exact hb b (List.suffix_refl _) (by rw [← htb]; exact hne) q
    | cons d ds =>
      rw [htb, List.append_assoc]
      exact ha (d :: ds) ⟨u, hau.symm⟩ (by simp) q
  · -- u = a ++ c', b = c' ++ t
    exact hb t ⟨c', hbt.symm⟩ hne q

/-- The separator does not match at a character that is not whitespace. -/
theorem forSeparator_not_space (c : Char) (hc : isSpace c = false) (q : Nat) (rest : Str) :
    matchAt forSeparator q (c :: rest) = none := by
  simp [matchAt, forSeparator, Regex.run, hc]

/-- The separator does not match at a whitespace character followed by a character
that is neither whitespace nor `f`. -/
theorem forSeparator_space_other (c d : Char) (hd : isSpace d = false) (hf : d ≠ 'f')
    (q : Nat) (rest : Str) :
    matchAt forSeparator q (c :: d :: rest) = none := by
  by_cases hc : isSpace c = true
  · simp [matchAt, forSeparator, Regex.run, Regex.lit, starLoop, hc, hd, hf]
  · exact forSeparator_not_space c (by simpa using hc) q _

theorem noMatchIn_single (c : Char) (hc : isSpace c = false) (r : Str) :
    NoMatchIn forSeparator [c] r := by
  intro t ht hne q
  obtain ⟨u, hu⟩ := ht
  cases t with
  | nil => exact absurd rfl hne
  | cons t0 ts =>
    have : t0 = c ∧ ts = [] := by
      cases u with
      | nil => simpa using hu
      | cons u0 us => simp at hu
    rw [this.1, this.2]
    exact forSeparator_not_space c hc q _

/-- No separator starts inside a text of the documented grammar when what follows
starts neither with `o` nor with `r`. -/
theorem noMatchIn_plain (x r : Str) (hx : Plain x) (hr : ∀ c ∈ r.head?, c ∉ "for".toList.tail) :
    NoMatchIn forSeparator x r := by
  intro t ht hne q
  obtain ⟨-, -, -, hlast, hfor, -⟩ := hx
  exact keyword_fails_inside "for".toList (.plus isSpace) (Or.inl rfl) some x r hlast hfor hr
    t ht hne q []

/-- No separator starts inside ` of ` followed by an iterable of the documented
grammar and a closing parenthesis. -/
theorem noMatchIn_of (it r : Str) (hit : Plain it) :
    NoMatchIn forSeparator " of ".toList (it ++ ')' :: r) := by
  obtain ⟨hne, -, hhead, -, hfor, -⟩ := hit
  intro t ht hne' q
  obtain ⟨u, hu⟩ := ht
  rcases u with _ | ⟨u0, _ | ⟨u1, _ | ⟨u2, _ | ⟨u3, u'⟩⟩⟩⟩
  · simp at hu; rw [hu]
    exact forSeparator_space_other ' ' 'o' (by decide) (by decide) q _
  · simp at hu; rw [hu.2]
    exact forSeparator_not_space 'o' (by decide) q _
  · simp at hu; rw [hu.2.2]
    exact forSeparator_not_space 'f' (by decide) q _
  · simp at hu; rw [hu.2.2.2]
    have hy : ∀ c ∈ (')' :: r).head?, isSpace c = false ∧ c ∉ "for".toList.tail := by
      intro c hc
      simp at hc
      subst hc
      exact ⟨by decide, by decide⟩
    exact keyword_fails_after_space "for".toList (.plus isSpace) (Or.inl rfl) some ' ' it
      (')' :: r) hne hhead hfor hy q []
  · simp at hu
    exact absurd hu.2.2.2.2.2 hne'

/-- No separator starts inside ` if (`. -/
theorem noMatchIn_if (r : Str) : NoMatchIn forSeparator " if (".toList r := by
  intro t ht hne' q
  obtain ⟨u, hu⟩ := ht
  rcases u with _ | ⟨u0, _ | ⟨u1, _ | ⟨u2, _ | ⟨u3, _ | ⟨u4, u'⟩⟩⟩⟩⟩
  · simp at hu; rw [hu]
    exact forSeparator_space_other ' ' 'i' (by decide) (by decide) q _
  · simp at hu; rw [hu.2]
    exact forSeparator_not_space 'i' (by decide) q _
  · simp at hu; rw [hu.2.2]
    exact forSeparator_not_space 'f' (by decide) q _
  · simp at hu; rw [hu.2.2.2]
    exact forSeparator_space_other ' ' '(' (by decide) (by decide) q _
  · simp at hu; rw [hu.2.2.2.2]
    exact forSeparator_not_space '(' (by decide) q _
  · simp at hu
    exact absurd hu.2.2.2.2.2.2 hne'

/-- No separator starts inside the segment written for a clause of the documented
grammar, whatever follows. -/
theorem noMatchIn_clauseText (cl : Clause) (h : PlainClause cl) (r : Str) :
    NoMatchIn forSeparator (clauseText cl) r := by
  obtain ⟨p, it, cond⟩ := cl
  obtain ⟨hp, hit, hcond⟩ := h
  have hclose : ∀ r' : Str, ∀ c ∈ (')' :: r').head?, c ∉ "for".toList.tail := by
    intro r' c hc
    simp at hc
    subst hc
    decide
  have hcond' : NoMatchIn forSeparator (conditionText cond) r := by
    cases cond with
    | none => intro t ht hne; exact absurd (List.suffix_nil.1 ht) hne
    | some c =>
      have hc := hcond c rfl
      rw [show conditionText (some c) = " if (".toList ++ (c ++ [')']) from rfl]
      apply noMatchIn_append _ _ _ _ (noMatchIn_if _)
      apply noMatchIn_append _ _ _ _ (noMatchIn_plain c _ hc (hclose r))
      exact noMatchIn_single ')' (by decide) r
  rw [show clauseText ⟨p, it, cond⟩
      = ['('] ++ (p ++ (" of ".toList ++ (it ++ ([')'] ++ conditionText cond)))) by
    simp [clauseText]]
  apply noMatchIn_append _ _ _ _ (noMatchIn_single '(' (by decide) _)
  apply noMatchIn_append _ _ _ _ (noMatchIn_plain p _ hp (by
    intro c hc
    simp at hc
    subst hc
    decide))
  apply noMatchIn_append _ _ _ _ (by
    have := noMatchIn_of it (conditionText cond ++ r) hit
    simpa using this)
  apply noMatchIn_append _ _ _ _ (noMatchIn_plain it _ hit (by
    intro c hc
    simp at hc
    subst hc
    decide))
  exact noMatchIn_append _ _ _ _ (noMatchIn_single ')' (by decide) _) hcond'

/-- The separator matches ` for ` before an opening parenthesis and ends after it. -/
theorem forSeparator_match (q : Nat) (rest : Str) :
    matchAt forSeparator q (" for ".toList ++ '(' :: rest) = some ⟨q + 5, '(' :: rest, []⟩ := by
  have h1 : isSpace ' ' = true := by decide
  have h2 : isSpace 'f' = false := by decide
  have h3 : isSpace '(' = false := by decide
  simp [matchAt, forSeparator, Regex.run, Regex.lit, starLoop, h1, h2, h3]

/-- The split of a stretch without separator followed by the clauses of a
comprehension of the documented grammar. -/
theorem splitLoop_clauses :
    ∀ (cls : List Clause) (x seg : Str) (q : Nat),
      (∀ cl ∈ cls, PlainClause cl) →
      (∀ r : Str, (∀ c ∈ r.head?, c = ' ') → NoMatchIn forSeparator x r) →
      splitLoop forSeparator
          (x ++ (cls.map fun cl => " for ".toList ++ clauseText cl).flatten) q 0 seg
        = (seg ++ x) :: cls.map clauseText
  | [], x, seg, q, _, hx => by
    have := splitLoop_quiet forSeparator [] x seg q (hx [] (by simp))
    simpa [splitLoop] using this
  | cl :: cls, x, seg, q, hcls, hx => by
    have hq := splitLoop_quiet forSeparator
      (" for ".toList ++ (clauseText cl
        ++ (cls.map fun cl => " for ".toList ++ clauseText cl).flatten)) x seg q
      (hx _ (by simp))
    have ih := splitLoop_clauses cls (clauseText cl) [] (q + x.length + 5)
      (fun c hc => hcls c (by simp [hc]))
      (fun r _ => noMatchIn_clauseText cl (hcls cl (by simp)) r)
    rw [List.map_cons, List.flatten_cons, List.append_assoc, hq]
    obtain ⟨rest, hrest⟩ : ∃ rest, clauseText cl
        ++ (cls.map fun cl => " for ".toList ++ clauseText cl).flatten = '(' :: rest :=
      ⟨_, by simp [clauseText]; rfl⟩
    rw [hrest] at ih ⊢
    have hm := forSeparator_match (q + x.length) rest
    have e : " for ".toList ++ '(' :: rest = ' ' :: ("for ".toList ++ '(' :: rest) := rfl
    rw [e] at hm ⊢
    rw [splitLoop, hm]
    simp only
    rw [if_neg (by omega)]
    have hs := splitLoop_skip forSeparator ('(' :: rest) [] "for ".toList (q + x.length + 1)
    have e4 : "for ".toList.length = 4 := rfl
    rw [e4] at hs
    rw [show q + x.length + 5 - (q + x.length) - 1 = 4 by omega, hs,
      show q + x.length + 1 + 4 = q + x.length + 5 by omega, ih]
    simp

/-- The split of a comprehension of the documented grammar: the yield text, then
one segment for each clause. -/
theorem split_comprehensionText (e : Str) (cls : List Clause) (he : Plain e)
    (hcls : ∀ cl ∈ cls, PlainClause cl) :
    split forSeparator (comprehensionText e cls) = e :: cls.map clauseText := by
  have h := splitLoop_clauses cls e [] 0 hcls (fun r hr => noMatchIn_plain e r he (by
    intro c hc
    rw [hr c hc]
    decide))
  obtain ⟨e0, es, rfl⟩ := List.exists_cons_of_ne_nil he.1
  rw [comprehensionText]
  rw [List.nil_append] at h
  rw [← h]
  rfl

/-- The clause parser on a comprehension of the documented grammar. -/
theorem parseComprehension_text (e : Str) (cls : List Clause) (he : Plain e)
    (hne : cls ≠ []) (hcls : ∀ cl ∈ cls, PlainClause cl) :
    parseComprehension (comprehensionText e cls) = some (e, cls) := by
  obtain ⟨cl, cls', rfl⟩ := List.exists_cons_of_ne_nil hne
  rw [parseComprehension, split_comprehensionText e _ he hcls]
  have := collectClauses_clauseText (cl :: cls') hcls
  simp at this ⊢
  exact this

/-! ## Captures are only added -/

theorem capturesFrom_refl (gs : List Nat) (pos pos' : Nat) (rest rest' : Str)
    (caps : List (Nat × Str)) : CapturesFrom gs ⟨pos, rest, caps⟩ ⟨pos', rest', caps⟩ :=
  ⟨[], rfl, by simp⟩

theorem capturesFrom_trans (gs₁ gs₂ gs : List Nat) (a b c : MatchState)
    (h₁ : CapturesFrom gs₁ a b) (h₂ : CapturesFrom gs₂ b c)
    (s₁ : ∀ i ∈ gs₁, i ∈ gs) (s₂ : ∀ i ∈ gs₂, i ∈ gs) : CapturesFrom gs a c := by
  obtain ⟨n₁, e₁, m₁⟩ := h₁
  obtain ⟨n₂, e₂, m₂⟩ := h₂
  refine ⟨n₂ ++ n₁, by rw [e₂, e₁, List.append_assoc], ?_⟩
  intro e he
  rcases List.mem_append.1 he with h | h
  · exact s₂ _ (m₂ e h)
  · exact s₁ _ (m₁ e h)

/-- A successful match hands to its continuation a state whose captures are those
it started with, preceded by captures of its own groups. -/
theorem run_captures (r : Regex) :
    ∀ (st : MatchState) (k : MatchState → Option MatchState) (x : MatchState),
      r.run st k = some x → ∃ st', CapturesFrom r.groups st st' ∧ k st' = some x := by
  induction r with
  | char c =>
    intro st k x h
    rw [Regex.run] at h
    split at h
    · cases h
    · split at h
      · refine ⟨_, ?_, h⟩
        exact ⟨[], rfl, by simp⟩
      · cases h
  | cls p =>
    intro st k x h
    rw [Regex.run] at h
    split at h
    · cases h
    · split at h
      · refine ⟨_, ?_, h⟩
        exact ⟨[], rfl, by simp⟩
      · cases h
  | bol =>
    intro st k x h
    rw [Regex.run] at h
    split at h
    · exact ⟨st, ⟨[], rfl, by simp⟩, h⟩
    · cases h
  | seq a b iha ihb =>
    intro st k x h
    rw [Regex.run] at h
    obtain ⟨st₁, c₁, h₁⟩ := iha st _ x h
    obtain ⟨st₂, c₂, h₂⟩ := ihb st₁ k x h₁
    exact ⟨st₂, capturesFrom_trans _ _ _ st st₁ st₂ c₁ c₂
      (fun i hi => by simp [Regex.groups, hi]) (fun i hi => by simp [Regex.groups, hi]), h₂⟩
  | plus p =>
    intro st k x h
    obtain ⟨a, b, _, _, _, hk⟩ := plus_sound p st k x h
    refine ⟨_, ?_, hk⟩
    exact ⟨[], rfl, by simp⟩
  | group i r ih =>
    intro st k x h
    rw [Regex.run] at h
    obtain ⟨st₁, ⟨new, e, m⟩, h₁⟩ := ih st _ x h
    refine ⟨_, ⟨(i, st.rest.take (st₁.pos - st.pos)) :: new, ?_, ?_⟩, h₁⟩
    · simp [e]
    · intro e' he'
      rcases List.mem_cons.1 he' with rfl | he'
      · simp [Regex.groups]
      · simp [Regex.groups, m e' he']
  | opt r ih =>
    intro st k x h
    rw [Regex.run] at h
    cases h' : r.run st k with
    | some y =>
      rw [h', orElse_some_left] at h
      rw [h] at h'
      exact ih st k x h'
    | none =>
      rw [h', orElse_none_left] at h
      exact ⟨st, ⟨[], rfl, by simp⟩, h⟩

/-- Captures recorded for other groups do not change the capture of group `i`. -/
theorem capture_of_capturesFrom (gs : List Nat) (st x : MatchState) (i : Nat)
    (h : CapturesFrom gs st x) (hi : i ∉ gs) : x.capture i = st.capture i := by
  obtain ⟨new, e, m⟩ := h
  rw [MatchState.capture, MatchState.capture, e]
  clear e
  induction new with
  | nil => rfl
  | cons a new ih =>
    have ha : (i == a.1) = false := by
      have := m a (by simp)
      simp only [beq_eq_false_iff_ne, ne_eq]
      rintro rfl
      exact hi this
    obtain ⟨a1, a2⟩ := a
    rw [List.cons_append, List.lookup_cons, ha]
    exact ih (fun e he => m e (by simp [he]))

/-- The optional suffix leaves the captures of groups 1 and 2 as they are. -/
theorem ifSuffix_captures (st x : MatchState) (h : ifSuffix.run st some = some x) :
    x.capture 1 = st.capture 1 ∧ x.capture 2 = st.capture 2 := by
  obtain ⟨st', c, h'⟩ := run_captures ifSuffix st some x h
  cases h'
  exact ⟨capture_of_capturesFrom _ st _ 1 c (by decide),
    capture_of_capturesFrom _ st _ 2 c (by decide)⟩

/-! ## The clause parser on the documented grammar -/

/-- The visitor of the plugin runs the clause parser on the raw text of a
template tagged `list` and hands its result to the chain generator. -/
theorem taggedTemplateExpression_eq (babel : Babel ε α) (raw : Str) :
    Plugin.taggedTemplateExpression babel ⟨⟨"Identifier".toList, some "list".toList⟩, raw⟩
      = match parseComprehension raw with
        | none => .ok none
        | some (expr, clauses) => Plugin.transformListComprehension babel expr clauses := by
  unfold Plugin.taggedTemplateExpression parseComprehension
  simp only [decide_True, Bool.and_self, if_true]
  split
  · rfl
  · simp only [bind, Except.bind, pure, Except.pure]
    cases Plugin.transformListComprehension babel ((split forSeparator raw).headD [])
        (collectClauses (List.drop 1 (split forSeparator raw)) []) with
    | error e => rfl
    | ok r => cases r <;> rfl

/-- The callback of the preprocessor leaves the literal as it is when the clause
parser finds fewer than two segments. -/
theorem replaceCallback_none (fullMatch content : Str) (h : parseComprehension content = none) :
    Preprocessor.replaceCallback fullMatch content = fullMatch := by
  simp only [parseComprehension] at h
  simp only [Preprocessor.replaceCallback]
  split at h
  · rename_i hlt
    simp only [hlt, if_true]
  · cases h

/-- C5: for a yield text `e`, a pattern `p`, an iterable `it` and a condition `c`
that are not empty, have no `)`, no leading or trailing whitespace and no word
`for` or `of` next to whitespace, the clause parser reads `e for (p of it) if (c)` as `e`
with the one clause `(p, it, c)`, and `e for (p of it)` as `e` with the one clause
`(p, it, null)`; for two clauses `cl1`, `cl2` of such texts, each with or without
condition, it reads `e for <cl1> for <cl2>` as `e` with exactly `[cl1, cl2]`, in
that order, each condition with the clause it follows. -/
theorem clause_parser_documented_grammar (e p it c : Str) (cl1 cl2 : Clause)
    (he : Plain e) (hp : Plain p) (hit : Plain it) (hc : Plain c)
    (h1 : PlainClause cl1) (h2 : PlainClause cl2) :
    parseComprehension
        (e ++ " for (".toList ++ p ++ " of ".toList ++ it ++ ") if (".toList ++ c
          ++ ")".toList)
      = some (e, [⟨p, it, some c⟩])
    ∧ parseComprehension (e ++ " for (".toList ++ p ++ " of ".toList ++ it ++ ")".toList)
      = some (e, [⟨p, it, none⟩])
    ∧ parseComprehension
        (e ++ " for ".toList ++ clauseText cl1 ++ " for ".toList ++ clauseText cl2)
      = some (e, [cl1, cl2]) := by
  refine ⟨?_, ?_, ?_⟩
  · have := parseComprehension_text e [⟨p, it, some c⟩] he (by simp) (by
      intro cl hcl
      simp at hcl
      subst hcl
      exact ⟨hp, hit, fun d hd => by cases hd; exact hc⟩)
    rw [← this]
    simp [comprehensionText, clauseText, conditionText]
  · have := parseComprehension_text e [⟨p, it, none⟩] he (by simp) (by
      intro cl hcl
      simp at hcl
      subst hcl
      exact ⟨hp, hit, fun d hd => by cases hd⟩)
    rw [← this]
    simp [comprehensionText, clauseText, conditionText]
  · have := parseComprehension_text e [cl1, cl2] he (by simp) (by
      intro cl hcl
      simp at hcl
      rcases hcl with rfl | rfl
      · exact h1
      · exact h2)
    rw [← this]
    simp [comprehensionText]

/-- The instance of C5 at `x * y for (x of numbers) for (y of numbers) if (x !== y)`. -/
theorem clause_parser_documented_grammar_witness :
    parseComprehension "x * y for (x of numbers) for (y of numbers) if (x !== y)".toList
      = some ("x * y".toList,
          [⟨"x".toList, "numbers".toList, none⟩,
           ⟨"y".toList, "numbers".toList, some "x !== y".toList⟩]) :=
  (clause_parser_documented_grammar "x * y".toList "y".toList "numbers".toList
    "x !== y".toList ⟨"x".toList, "numbers".toList, none⟩
    ⟨"y".toList, "numbers".toList, some "x !== y".toList⟩
    (by decide) (by decide) (by decide) (by decide) (by decide) (by decide)).2.2

theorem dropWhile_head (p : Char → Bool) :
    ∀ (l : Str) (d : Char) (ds : Str), l.dropWhile p = d :: ds → p d = false
  | [], d, ds, h => by simp at h
  | c :: l, d, ds, h => by
    by_cases hc : p c = true
    · rw [List.dropWhile_cons_of_pos hc] at h
      exact dropWhile_head p l d ds h
    · rw [List.dropWhile_cons_of_neg hc] at h
      cases h
      simpa using hc

/-- C6, as amended: in a segment `(<p> of <t>)` whose pattern `p` is not empty and
has no `)`, and whose iterable text `t`, up to its first `)`, is not empty, has no
leading or trailing whitespace and no word `of` next to whitespace, the parsed
iterable is the part of `t` before its first `)`: all of `t` when `t` has no `)`. -/
theorem iterable_extent (p t : Str) (hp : p ≠ []) (hpc : ')' ∉ p)
    (hne : t.takeWhile notClose ≠ [])
    (hhead : ∀ c ∈ (t.takeWhile notClose).head?, isSpace c = false)
    (hlast : ∀ c ∈ (t.takeWhile notClose).getLast?, isSpace c = false)
    (hof : isolatedKeyword "of".toList (t.takeWhile notClose) = false) :
    (exec clausePattern ("(".toList ++ p ++ " of ".toList ++ t ++ ")".toList)).map
        (fun m => (clauseOfMatch m).iterable) = some (t.takeWhile notClose)
      ∧ (')' ∉ t → t.takeWhile notClose = t) := by
  constructor
  · have hclose : ')' ∉ t.takeWhile notClose := by
      intro hmem
      have := List.mem_takeWhile_imp hmem
      simp [notClose] at this
    obtain ⟨tail, htail⟩ : ∃ tail, "(".toList ++ p ++ " of ".toList ++ t ++ ")".toList
        = '(' :: (p ++ ((" of ".toList ++ t.takeWhile notClose) ++ ')' :: tail)) := by
      cases hd : t.dropWhile notClose with
      | nil =>
        refine ⟨[], ?_⟩
        have := List.takeWhile_append_dropWhile notClose t
        rw [hd, List.append_nil] at this
        rw [this]
        simp
      | cons d ds =>
        refine ⟨ds ++ [')'], ?_⟩
        have hdc : d = ')' := by
          have := dropWhile_head notClose t d ds hd
          simpa [notClose] using this
        have := List.takeWhile_append_dropWhile notClose t
        rw [hd, hdc] at this
        conv_lhs => rw [← this]
        simp
    obtain ⟨x, hx⟩ := ifSuffix_some
      ⟨p.length + (t.takeWhile notClose).length + 6, tail,
        [(2, t.takeWhile notClose), (1, p)]⟩
    rw [htail, clausePattern_run p _ tail hp hpc hne hclose hhead hlast hof x hx]
    have := (ifSuffix_captures _ x hx).2
    simp only [Option.map_some', clauseOfMatch, this]
    rfl
  · intro h
    rw [List.takeWhile_eq_self_iff]
    exact notClose_of_not_mem t h

/-- The instance of C6 at `(x of range(1, 5))`: the parsed iterable is `range(1, 5`. -/
theorem iterable_extent_witness :
    (exec clausePattern "(x of range(1, 5))".toList).map
        (fun m => (clauseOfMatch m).iterable) = some "range(1, 5".toList :=
  (iterable_extent "x".toList "range(1, 5)".toList (by decide) (by decide) (by decide)
    (by decide) (by decide) (by decide)).1

/-- C6 as stated fails: the iterable parsed from `(x of range(1, 5))` is not
`range(1, 5)`. -/
theorem iterable_extent_counterexample :
    (exec clausePattern "(x of range(1, 5))".toList).map
        (fun m => (clauseOfMatch m).iterable) ≠ some "range(1, 5)".toList := by
  decide

/-- A match of the separator reads whitespace, `for` and whitespace. -/
theorem forSeparator_sound (q : Nat) (s : Str) (x : MatchState)
    (h : matchAt forSeparator q s = some x) :
    ∃ w c d rest, s = w ++ c :: ("for".toList ++ d :: rest)
      ∧ isSpace c = true ∧ isSpace d = true := by
  obtain ⟨w, rest, hrest, hw, hws, hr⟩ :=
    keyword_sound "for".toList (.plus isSpace) ⟨q, s, []⟩ x some h
  obtain ⟨d, rest', hd, hds⟩ := plus_space_head _ x some hr
  obtain ⟨w', c, rfl⟩ := exists_append_last w hw
  simp only at hrest hd
  refine ⟨w', c, d, rest', ?_, hws c (by simp), hds⟩
  rw [hrest, hd]
  simp

/-- Without a `for` between whitespace the split returns the text as its only
segment. -/
theorem split_no_separator (raw : Str) (h : spacedOccurrence "for".toList raw = false) :
    split forSeparator raw = [raw] := by
  have hq : NoMatchIn forSeparator raw [] := by
    intro t ht _ q
    cases hm : matchAt forSeparator q (t ++ []) with
    | none => rfl
    | some x =>
      exfalso
      obtain ⟨w, c, d, rest, hs, hc, hd⟩ := forSeparator_sound q _ x hm
      obtain ⟨u, hu⟩ := ht
      have : spacedOccurrence "for".toList raw = true := by
        rw [← hu, ← List.append_nil t, hs, ← List.append_assoc]
        exact spacedOccurrence_intro _ _ _ c d hc hd
      rw [h] at this
      cases this
  cases raw with
  | nil => rfl
  | cons c cs =>
    have := splitLoop_quiet forSeparator [] (c :: cs) [] 0 hq
    rw [List.append_nil] at this
    rw [split, this]
    simp [splitLoop]

/-- C8: when the raw text has no `for` with whitespace on each side, the split
returns one segment, the visitor of the plugin replaces nothing whatever the tag,
and the callback of the preprocessor returns the marked literal as it is. -/
theorem no_for_clause_untransformed (babel : Babel ε α) (tag : Plugin.Tag)
    (raw fullMatch : Str) (h : spacedOccurrence "for".toList raw = false) :
    split forSeparator raw = [raw]
      ∧ Plugin.taggedTemplateExpression babel ⟨tag, raw⟩ = .ok none
      ∧ Preprocessor.replaceCallback fullMatch raw = fullMatch := by
  have hs := split_no_separator raw h
  refine ⟨hs, ?_, ?_⟩
  · simp only [Plugin.taggedTemplateExpression, hs]
    split <;> rfl
  · simp only [Preprocessor.replaceCallback, hs]
    rfl

/-- The instance of C8 at `x * x`, with the literal marked for the preprocessor. -/
theorem no_for_clause_untransformed_witness :
    split forSeparator "x * x".toList = ["x * x".toList]
      ∧ Plugin.taggedTemplateExpression textBabel
          ⟨⟨"Identifier".toList, some "list".toList⟩, "x * x".toList⟩ = .ok none
      ∧ Preprocessor.replaceCallback "/*list*/\x60x * x\x60".toList "x * x".toList
          = "/*list*/\x60x * x\x60".toList :=
  no_for_clause_untransformed textBabel ⟨"Identifier".toList, some "list".toList⟩
    "x * x".toList "/*list*/\x60x * x\x60".toList (by decide)

/-- C9: the clauses collected from a list of segments are those of the segments
that match the clause pattern, in their order; around any segment `s`, matching or
not, the clauses of the segments before it and after it are collected as they
would be without it. -/
theorem collectClauses_lenient (segments before after : List Str) (s : Str) :
    collectClauses segments []
        = segments.filterMap (fun part => (exec clausePattern part).map clauseOfMatch)
      ∧ collectClauses (before ++ s :: after) []
        = collectClauses before [] ++ ((exec clausePattern s).map clauseOfMatch).toList
            ++ collectClauses after [] := by
  simp only [collectClauses_acc, List.nil_append, List.filterMap_append, List.filterMap_cons]
  refine ⟨trivial, ?_⟩
  cases (exec clausePattern s).map clauseOfMatch <;> simp

/-- C10: when the raw text splits into two segments or more and no segment matches
the clause pattern, the chain generator of the plugin returns no result, the
visitor replaces nothing, and the callback of the preprocessor returns the marked
literal as it is. -/
theorem zero_clauses_untransformed (babel : Babel ε α) (tag : Plugin.Tag)
    (raw fullMatch : Str) (h2 : 2 ≤ (split forSeparator raw).length)
    (h0 : collectClauses ((split forSeparator raw).drop 1) [] = []) :
    Plugin.transformListComprehension babel ((split forSeparator raw).headD []) [] = .ok none
      ∧ Plugin.taggedTemplateExpression babel ⟨tag, raw⟩ = .ok none
      ∧ Preprocessor.replaceCallback fullMatch raw = fullMatch := by
  have hlt : ¬ (split forSeparator raw).length < 2 := by omega
  refine ⟨rfl, ?_, ?_⟩
  · simp only [Plugin.taggedTemplateExpression, hlt, h0, if_false]
    split <;> rfl
  · simp only [Preprocessor.replaceCallback, hlt, h0, if_false]

/-- The instance of C10 at `x for y`. -/
theorem zero_clauses_untransformed_witness :
    Plugin.taggedTemplateExpression textBabel
        ⟨⟨"Identifier".toList, some "list".toList⟩, "x for y".toList⟩ = .ok none
      ∧ Preprocessor.replaceCallback "/*list*/\x60x for y\x60".toList "x for y".toList
          = "/*list*/\x60x for y\x60".toList :=
  (zero_clauses_untransformed textBabel ⟨"Identifier".toList, some "list".toList⟩
    "x for y".toList "/*list*/\x60x for y\x60".toList (by decide) (by decide)).2

/-- C7, on the code: the plugin takes the pattern with braces as a destructuring
pattern and parses `(<pattern>) => ...` for its parameter, but the preprocessor
tests `[` only and emits the pattern with braces bare. -/
theorem preprocessor_brace_pattern_bare :
    Plugin.makeParam textBabel "\x7ba, b\x7d".toList
        = .ok (.parsed "(\x7ba, b\x7d) => \x7b\x7d".toList)
      ∧ Preprocessor.varName "\x7ba, b\x7d".toList = "\x7ba, b\x7d".toList
      ∧ Preprocessor.varName "[x, y]".toList = "([x, y])".toList
      ∧ Preprocessor.transformListComprehension
          "/*list*/\x60a + b for (\x7ba, b\x7d of objs)\x60".toList
        = "(objs).map(\x7ba, b\x7d => a + b)".toList
      ∧ Preprocessor.transformListComprehension
          "/*list*/\x60x + y for ([x, y] of pairs)\x60".toList
        = "(pairs).map(([x, y]) => x + y)".toList := by
  refine ⟨rfl, by decide, by decide, by decide, by decide⟩

/-! ## The meaning of the generated chain -/

variable {Env V W : Type}

theorem evalChain_filter (S : Semantics α Env V) (source param : Node α) (t : α) (env : Env)
    (xs : List V) (h : evalChain S source env = some xs) :
    evalChain S (Node.Filter source param (.parsed t)) env
      = some (xs.filter fun v => S.test t (S.bindParam param v env)) := by
  rw [Node.Filter, evalChain, h]
  simp

theorem evalChain_map (S : Semantics α Env V) (source param : Node α) (b : α) (env : Env)
    (xs : List V) (h : evalChain S source env = some xs) :
    evalChain S (Node.Map source param (.parsed b)) env
      = some (xs.map fun v => S.value b (S.bindParam param v env)) := by
  rw [Node.Map, evalChain, h]
  simp

theorem evalChain_flatMap (S : Semantics α Env V) (source param body : Node α) (env : Env)
    (xs : List V) (h : evalChain S source env = some xs) :
    evalChain S (Node.FlatMap source param body) env
      = concatAll (xs.map fun v => evalChain S body (S.bindParam param v env)) := by
  rw [Node.FlatMap, evalChain, h]
  simp

theorem comprehension1_eq (c : V → Bool) (e : V → W) (xs : List V) :
    comprehension1 c e xs = (xs.filter c).map e := by
  induction xs with
  | nil => rfl
  | cons x xs ih =>
    rw [comprehension1, List.filter_cons]
    split <;> simp [ih]

theorem concatAll_some (f : V → List W) (xs : List V) :
    concatAll (xs.map fun v => some (f v)) = some (xs.map f).flatten := by
  induction xs with
  | nil => rfl
  | cons x xs ih => simp [concatAll, ih]

theorem comprehension2_eq (c1 : V → Bool) (ys : V → List V) (c2 : V → V → Bool)
    (e : V → V → W) (xs : List V) :
    comprehension2 c1 ys c2 e xs
      = ((xs.filter c1).map fun x => comprehension1 (c2 x) (e x) (ys x)).flatten := by
  induction xs with
  | nil => rfl
  | cons x xs ih =>
    rw [comprehension2, List.filter_cons]
    split <;> simp [ih]


/-- The tree returned for one clause when every parse succeeds. -/
theorem transform_one (babel : Babel ε α) (e v it : Str) (c : Option Str) (a b t : α)
    (p : Node α) (hit : babel.parseExpression it = .ok a)
    (he : babel.parseExpression e = .ok b) (hp : Plugin.makeParam babel v = .ok p)
    (hc : truthy c = true → babel.parseExpression (c.getD []) = .ok t) :
    Plugin.transformListComprehension babel e [⟨v, it, c⟩]
      = .ok (some (Node.Map
          (Node.filtered (.parsed a) p (if truthy c then some (.parsed t) else none))
          p (.parsed b))) := by
  cases htc : truthy c with
  | false =>
    simp [Plugin.transformListComprehension, hit, he, hp, htc, Node.Map, Node.filtered,
      bind, Except.bind, pure, Except.pure]
  | true =>
    simp [Plugin.transformListComprehension, hit, he, hp, htc, hc htc, Node.Map, Node.Filter,
      Node.filtered, bind, Except.bind, pure, Except.pure]

/-- The tree returned for two clauses when every parse succeeds. -/
theorem transform_two (babel : Babel ε α) (e v1 it1 v2 it2 : Str) (c1 c2 : Option Str)
    (a1 a2 b t1 t2 : α) (p1 p2 : Node α)
    (hit1 : babel.parseExpression it1 = .ok a1) (hit2 : babel.parseExpression it2 = .ok a2)
    (he : babel.parseExpression e = .ok b)
    (hp1 : Plugin.makeParam babel v1 = .ok p1) (hp2 : Plugin.makeParam babel v2 = .ok p2)
    (hc1 : truthy c1 = true → babel.parseExpression (c1.getD []) = .ok t1)
    (hc2 : truthy c2 = true → babel.parseExpression (c2.getD []) = .ok t2) :
    Plugin.transformListComprehension babel e [⟨v1, it1, c1⟩, ⟨v2, it2, c2⟩]
      = .ok (some (Node.FlatMap
          (Node.filtered (.parsed a1) p1 (if truthy c1 then some (.parsed t1) else none))
          p1
          (Node.Map
            (Node.filtered (.parsed a2) p2 (if truthy c2 then some (.parsed t2) else none))
            p2 (.parsed b)))) := by
  cases htc1 : truthy c1 <;> cases htc2 : truthy c2 <;>
    simp [Plugin.transformListComprehension, hit1, hit2, he, hp1, hp2, htc1, htc2, hc1, hc2,
      Node.FlatMap, Node.Map, Node.Filter, Node.filtered, bind, Except.bind, pure,
      Except.pure]

/-- The value of the source of a chain: the elements of the iterable that pass the
condition, all of them when there is no condition. -/
theorem evalChain_filtered (S : Semantics α Env V) (a t : α) (p : Node α) (present : Bool)
    (env : Env) :
    evalChain S (Node.filtered (.parsed a) p (if present then some (.parsed t) else none)) env
      = some ((S.items a env).filter
          fun x => !present || S.test t (S.bindParam p x env)) := by
  cases present with
  | false =>
    simp [Node.filtered, evalChain]
  | true =>
    simp only [if_true, Node.filtered, Bool.not_true, Bool.false_or]
    exact evalChain_filter S _ p t env _ (by rw [evalChain])

/-- C4: with `filter`, `map` and `flatMap` read as the list operations, the chain
generated for one clause has the value `[e(x) for x in it if c(x)]`, and the chain
generated for two clauses has the value
`[e(x, y) for x in it1 if c1(x) for y in it2(x) if c2(x, y)]`, in the order of the
nested loops; the first pattern is bound for the first condition, the second
iterable, the second condition and the yield expression, the second pattern for
the second condition and the yield expression, and an absent condition is true. -/
theorem chain_semantics (babel : Babel ε α) (S : Semantics α Env V) (env : Env)
    (e v1 it1 v2 it2 : Str) (c1 c2 : Option Str) (a1 a2 b t1 t2 : α) (p1 p2 : Node α)
    (hit1 : babel.parseExpression it1 = .ok a1) (hit2 : babel.parseExpression it2 = .ok a2)
    (he : babel.parseExpression e = .ok b)
    (hp1 : Plugin.makeParam babel v1 = .ok p1) (hp2 : Plugin.makeParam babel v2 = .ok p2)
    (hc1 : truthy c1 = true → babel.parseExpression (c1.getD []) = .ok t1)
    (hc2 : truthy c2 = true → babel.parseExpression (c2.getD []) = .ok t2) :
    (∃ tree, Plugin.transformListComprehension babel e [⟨v1, it1, c1⟩] = .ok (some tree)
      ∧ evalChain S tree env
        = some (comprehension1
            (fun x => !truthy c1 || S.test t1 (S.bindParam p1 x env))
            (fun x => S.value b (S.bindParam p1 x env))
            (S.items a1 env)))
    ∧ (∃ tree, Plugin.transformListComprehension babel e [⟨v1, it1, c1⟩, ⟨v2, it2, c2⟩]
          = .ok (some tree)
      ∧ evalChain S tree env
        = some (comprehension2
            (fun x => !truthy c1 || S.test t1 (S.bindParam p1 x env))
            (fun x => S.items a2 (S.bindParam p1 x env))
            (fun x y => !truthy c2
              || S.test t2 (S.bindParam p2 y (S.bindParam p1 x env)))
            (fun x y => S.value b (S.bindParam p2 y (S.bindParam p1 x env)))
            (S.items a1 env))) := by
  constructor
  · refine ⟨_, transform_one babel e v1 it1 c1 a1 b t1 p1 hit1 he hp1 hc1, ?_⟩
    rw [evalChain_map S _ p1 b env _ (evalChain_filtered S a1 t1 p1 (truthy c1) env),
      comprehension1_eq]
  · refine ⟨_, transform_two babel e v1 it1 v2 it2 c1 c2 a1 a2 b t1 t2 p1 p2 hit1 hit2 he
      hp1 hp2 hc1 hc2, ?_⟩
    rw [evalChain_flatMap S _ p1 _ env _ (evalChain_filtered S a1 t1 p1 (truthy c1) env),
      comprehension2_eq]
    have hin : ∀ x, evalChain S
        (Node.Map
          (Node.filtered (.parsed a2) p2 (if truthy c2 then some (.parsed t2) else none))
          p2 (.parsed b)) (S.bindParam p1 x env)
        = some (comprehension1
            (fun y => !truthy c2 || S.test t2 (S.bindParam p2 y (S.bindParam p1 x env)))
            (fun y => S.value b (S.bindParam p2 y (S.bindParam p1 x env)))
            (S.items a2 (S.bindParam p1 x env))) := by
      intro x
      rw [evalChain_map S _ p2 b _ _ (evalChain_filtered S a2 t2 p2 (truthy c2) _),
        comprehension1_eq]
    simp only [hin]
    rw [concatAll_some]

/-- The instances of C4 at `x * x for (x of nums) if (x % 2 === 0)` and at
`x * y for (x of nums) for (y of nums) if (x !== y)` over `nums = [1, 2, 3, 4, 5]`:
the values are `[4, 16]` and a list of 20 products of two distinct members. -/
theorem chain_semantics_witness :
    ((∃ tree, Plugin.transformListComprehension textBabel "x * x".toList
          [⟨"x".toList, "nums".toList, some "x % 2 === 0".toList⟩] = .ok (some tree)
        ∧ evalChain demoSemantics tree (fun _ => 0) = some [4, 16])
      ∧ (∃ tree, Plugin.transformListComprehension textBabel "x * y".toList
          [⟨"x".toList, "nums".toList, none⟩,
           ⟨"y".toList, "nums".toList, some "x !== y".toList⟩] = .ok (some tree)
        ∧ evalChain demoSemantics tree (fun _ => 0)
          = some [2, 3, 4, 5, 2, 6, 8, 10, 3, 6, 12, 15, 4, 8, 12, 20, 5, 10, 15, 20]))
    ∧ ([2, 3, 4, 5, 2, 6, 8, 10, 3, 6, 12, 15, 4, 8, 12, 20, 5, 10, 15, 20] : List Int).length
        = 20
    ∧ ∀ z ∈ ([2, 3, 4, 5, 2, 6, 8, 10, 3, 6, 12, 15, 4, 8, 12, 20, 5, 10, 15, 20] : List Int),
        ∃ x ∈ ([1, 2, 3, 4, 5] : List Int), ∃ y ∈ ([1, 2, 3, 4, 5] : List Int),
          x ≠ y ∧ z = x * y :=
  ⟨⟨(chain_semantics textBabel demoSemantics (fun _ => 0) "x * x".toList "x".toList
        "nums".toList "x".toList "nums".toList (some "x % 2 === 0".toList) none
        "nums".toList "nums".toList "x * x".toList "x % 2 === 0".toList []
        (.identifier "x".toList) (.identifier "x".toList) rfl rfl rfl rfl rfl
        (fun _ => rfl) (by simp [truthy])).1,
     (chain_semantics textBabel demoSemantics (fun _ => 0) "x * y".toList "x".toList
        "nums".toList "y".toList "nums".toList none (some "x !== y".toList)
        "nums".toList "nums".toList "x * y".toList [] "x !== y".toList
        (.identifier "x".toList) (.identifier "y".toList) rfl rfl rfl rfl rfl
        (by simp [truthy]) (fun _ => rfl)).2⟩,
   by decide, by decide⟩

/-! ## The marker pattern -/

theorem notBacktick_of_not_mem (s : Str) (h : '\x60' ∉ s) : ∀ c ∈ s, Preprocessor.notBacktick c = true := by
  intro c hc
  simp only [Preprocessor.notBacktick, bne_iff_ne, ne_eq]
  rintro rfl
  exact h hc

theorem not_mem_of_notBacktick (s : Str) (h : ∀ c ∈ s, Preprocessor.notBacktick c = true) : '\x60' ∉ s := by
  intro hmem
  have := h _ hmem
  simp [Preprocessor.notBacktick] at this

/-- The marker pattern matches a marked literal, captures its content and ends
after its closing backtick. -/
theorem markedLiteral_match (c rest : Str) (hc : IsContent c) (q : Nat) :
    matchAt Preprocessor.markedLiteral q (markedText c ++ rest)
      = some ⟨q + (markedText c).length, rest, [(1, c)]⟩ := by
  have e : markedText c ++ rest = "/*list*/\x60".toList ++ (c ++ ([] ++ '\x60' :: rest)) := by
    simp [markedText]
  rw [matchAt, Preprocessor.markedLiteral, e, lit_run, run_seq, run_group]
  apply plus_here Preprocessor.notBacktick _ [] ('\x60' :: rest) (by simp [Preprocessor.notBacktick]) _ c [] _ hc.1
    (notBacktick_of_not_mem c hc.2)
  · simp only [List.nil_append, run_char_cons]
    simp [markedText]
    omega
  · intro u t hut hu
    cases u with
    | nil => exact absurd rfl hu
    | cons _ _ => cases hut

/-- A match of the marker pattern reads a marked literal. -/
theorem markedLiteral_sound (s : Str) (q : Nat) (st : MatchState)
    (h : matchAt Preprocessor.markedLiteral q s = some st) :
    ∃ c rest, IsContent c ∧ s = markedText c ++ rest := by
  rw [matchAt, Preprocessor.markedLiteral] at h
  obtain ⟨r1, hr1, h1⟩ := lit_sound _ _ _ _ st h
  rw [run_seq, run_group] at h1
  obtain ⟨a, b, hab, hne, hall, hk⟩ := plus_sound Preprocessor.notBacktick _ _ st h1
  simp only at hr1 hab hk
  rw [Regex.run] at hk
  split at hk
  · cases hk
  · rename_i d ds hb
    split at hk
    · rename_i hd
      simp only at hb
      refine ⟨a, ds, ⟨hne, not_mem_of_notBacktick a hall⟩, ?_⟩
      rw [hr1, hab, hb, hd]
      simp [markedText]
    · cases hk

/-- Where no marked literal starts, the marker pattern does not match. -/
theorem markedLiteral_none (s : Str) (q : Nat)
    (h : ¬ ∃ c rest, IsContent c ∧ s = markedText c ++ rest) :
    matchAt Preprocessor.markedLiteral q s = none := by
  cases hm : matchAt Preprocessor.markedLiteral q s with
  | none => rfl
  | some st => exact absurd (markedLiteral_sound s q st hm) h

/-! ## The replacement loop -/

/-- The characters of a match already replaced are passed over. -/
theorem replaceLoop_skip (r : Regex) (f : Str → Str → Str) (rest : Str) :
    ∀ (a : Str) (q : Nat),
      Preprocessor.replaceLoop r f (a ++ rest) q a.length
        = Preprocessor.replaceLoop r f rest (q + a.length) 0
  | [], q => by simp
  | c :: a, q => by
    rw [List.cons_append, List.length_cons, Preprocessor.replaceLoop,
      replaceLoop_skip r f rest a (q + 1)]
    congr 1; omega

/-- At a marked literal the loop calls the callback and resumes after the literal. -/
theorem replaceLoop_marked (f : Str → Str → Str) (c rest : Str) (hc : IsContent c) (q : Nat) :
    Preprocessor.replaceLoop Preprocessor.markedLiteral f (markedText c ++ rest) q 0
      = f (markedText c) c
        ++ Preprocessor.replaceLoop Preprocessor.markedLiteral f rest
            (q + (markedText c).length) 0 := by
  have hm := markedLiteral_match c rest hc q
  obtain ⟨d, ds, hd⟩ : ∃ d ds, markedText c = d :: ds := ⟨'/', _, rfl⟩
  have hlen : (markedText c).length = ds.length + 1 := by rw [hd]; rfl
  rw [hd, List.cons_append] at hm ⊢
  rw [Preprocessor.replaceLoop, hm]
  simp only [MatchState.capture, List.lookup, beq_self_eq_true, Option.getD_some]
  rw [if_neg (by simp only [List.length_cons]; omega)]
  have h1 : q + (d :: ds).length - q = (d :: ds).length := by omega
  have h2 : (d :: ds).length - 1 = ds.length := by simp
  rw [h1, h2, replaceLoop_skip, ← List.cons_append, List.take_left' rfl]
  congr 2
  simp only [List.length_cons]; omega

/-- Where the pattern does not match, the character is kept. -/
theorem replaceLoop_keep (r : Regex) (f : Str → Str → Str) (c : Char) (cs : Str) (q : Nat)
    (h : matchAt r q (c :: cs) = none) :
    Preprocessor.replaceLoop r f (c :: cs) q 0
      = c :: Preprocessor.replaceLoop r f cs (q + 1) 0 := by
  rw [Preprocessor.replaceLoop, h]

/-- The result of the loop with the marker pattern does not depend on the index
the scan starts from. -/
theorem replaceLoop_index (f : Str → Str → Str) :
    ∀ (n : Nat) (s : Str), s.length ≤ n → ∀ q q' : Nat,
      Preprocessor.replaceLoop Preprocessor.markedLiteral f s q 0
        = Preprocessor.replaceLoop Preprocessor.markedLiteral f s q' 0 := by
  intro n
  induction n with
  | zero =>
    intro s hs q q'
    have : s = [] := List.length_eq_zero.1 (Nat.le_zero.1 hs)
    subst this
    rfl
  | succ n ih =>
    intro s hs q q'
    cases s with
    | nil => rfl
    | cons d ds =>
      by_cases hocc : ∃ c rest, IsContent c ∧ d :: ds = markedText c ++ rest
      · obtain ⟨c, rest, hc, he⟩ := hocc
        rw [he, replaceLoop_marked f c rest hc q, replaceLoop_marked f c rest hc q']
        congr 1
        apply ih
        have : (d :: ds).length = (markedText c).length + rest.length := by
          rw [he, List.length_append]
        have h9 : 1 ≤ (markedText c).length := by simp [markedText]
        simp only [List.length_cons] at hs this
        omega
      · rw [replaceLoop_keep _ f d ds q (markedLiteral_none _ q hocc),
          replaceLoop_keep _ f d ds q' (markedLiteral_none _ q' hocc)]
        congr 1
        exact ih ds (by simpa using hs) _ _

/-- The preprocessor on the empty source. -/
theorem transform_nil : Preprocessor.transformListComprehension [] = [] := rfl

/-- The preprocessor at a marked literal: the literal is replaced by the result of
the callback and the rest of the source is processed in the same way. -/
theorem transform_marked (c rest : Str) (hc : IsContent c) :
    Preprocessor.transformListComprehension (markedText c ++ rest)
      = Preprocessor.replaceCallback (markedText c) c
        ++ Preprocessor.transformListComprehension rest := by
  rw [Preprocessor.transformListComprehension, replaceLoop_marked _ c rest hc 0,
    Preprocessor.transformListComprehension]
  congr 1
  exact replaceLoop_index _ rest.length rest (Nat.le_refl _) _ _

/-- The preprocessor at a character where no marked literal starts: the character
is kept and the rest of the source is processed in the same way. -/
theorem transform_keep (d : Char) (ds : Str)
    (h : ¬ ∃ c rest, IsContent c ∧ d :: ds = markedText c ++ rest) :
    Preprocessor.transformListComprehension (d :: ds)
      = d :: Preprocessor.transformListComprehension ds := by
  rw [Preprocessor.transformListComprehension,
    replaceLoop_keep _ _ d ds 0 (markedLiteral_none _ 0 h), Preprocessor.transformListComprehension]
  congr 1
  exact replaceLoop_index _ ds.length ds (Nat.le_refl _) _ _

/-! ## The text written by the preprocessor -/

/-- A collected clause is the clause pushed for a segment that matches. -/
theorem mem_collectClauses (segs : List Str) (cl : Clause) (h : cl ∈ collectClauses segs []) :
    ∃ s ∈ segs, ∃ m, exec clausePattern s = some m ∧ cl = clauseOfMatch m := by
  rw [collectClauses_acc, List.nil_append, List.mem_filterMap] at h
  obtain ⟨s, hs, hm⟩ := h
  cases he : exec clausePattern s with
  | none => rw [he] at hm; cases hm
  | some m =>
    rw [he] at hm
    simp only [Option.map_some', Option.some.injEq] at hm
    exact ⟨s, hs, m, he, hm.symm⟩

/-- The value of `x || null` is never the empty string. -/
theorem orNull_ne_empty (x : Option Str) : orNull x ≠ some [] := by
  unfold orNull
  split <;> simp

/-- The clauses of a parsed comprehension are collected from its segments. -/
theorem mem_parseComprehension (content e : Str) (cls : List Clause) (cl : Clause)
    (h : parseComprehension content = some (e, cls)) (hcl : cl ∈ cls) :
    ∃ s ∈ split forSeparator content, ∃ m, exec clausePattern s = some m
      ∧ cl = clauseOfMatch m := by
  simp only [parseComprehension] at h
  split at h
  · cases h
  · simp only [Option.some.injEq, Prod.mk.injEq] at h
    rw [← h.2] at hcl
    obtain ⟨s, hs, m, hm, hc⟩ := mem_collectClauses _ cl hcl
    exact ⟨s, List.mem_of_mem_drop hs, m, hm, hc⟩

/-- The condition of a parsed clause is `null` or a non-empty text. -/
theorem condition_ne_empty (content e : Str) (cls : List Clause) (cl : Clause)
    (h : parseComprehension content = some (e, cls)) (hcl : cl ∈ cls) :
    cl.condition ≠ some [] := by
  obtain ⟨s, _, m, _, rfl⟩ := mem_parseComprehension content e cls cl h hcl
  exact orNull_ne_empty _

theorem filterPart_eq (V : Str) (condition : Option Str) (h : condition ≠ some []) :
    Preprocessor.filterPart V condition = filterText V condition := by
  unfold Preprocessor.filterPart filterText truthy
  cases condition with
  | none => rfl
  | some c =>
    cases c with
    | nil => exact absurd rfl h
    | cons d ds => rfl

/-- The callback of the preprocessor on one parsed clause. -/
theorem replaceCallback_one (fullMatch content e : Str) (cl : Clause)
    (h : parseComprehension content = some (e, [cl])) :
    Preprocessor.replaceCallback fullMatch content
      = "(".toList ++ cl.iterable ++ ")".toList
          ++ Preprocessor.filterPart (Preprocessor.varName cl.loopVar) cl.condition
          ++ ".map(".toList ++ Preprocessor.varName cl.loopVar ++ " => ".toList ++ e
          ++ ")".toList := by
  simp only [parseComprehension] at h
  split at h
  · cases h
  · rename_i hlt
    simp only [Option.some.injEq, Prod.mk.injEq] at h
    simp only [Preprocessor.replaceCallback, hlt, if_false, h.1, h.2]

/-- The callback of the preprocessor on two parsed clauses. -/
theorem replaceCallback_two (fullMatch content e : Str) (cl1 cl2 : Clause)
    (h : parseComprehension content = some (e, [cl1, cl2])) :
    Preprocessor.replaceCallback fullMatch content
      = "(".toList ++ cl1.iterable ++ ")".toList
          ++ Preprocessor.filterPart (Preprocessor.varName cl1.loopVar) cl1.condition
          ++ ".flatMap(".toList ++ Preprocessor.varName cl1.loopVar ++ " => (".toList
          ++ cl2.iterable ++ ")".toList
          ++ Preprocessor.filterPart (Preprocessor.varName cl2.loopVar) cl2.condition
          ++ ".map(".toList ++ Preprocessor.varName cl2.loopVar ++ " => ".toList ++ e
          ++ "))".toList := by
  simp only [parseComprehension] at h
  split at h
  · cases h
  · rename_i hlt
    simp only [Option.some.injEq, Prod.mk.injEq] at h
    simp only [Preprocessor.replaceCallback, hlt, if_false, h.1, h.2]

/-- The callback of the preprocessor on no clause or on three clauses and more. -/
theorem replaceCallback_other (fullMatch content e : Str) (cls : List Clause)
    (h : parseComprehension content = some (e, cls)) (h1 : cls.length ≠ 1)
    (h2 : cls.length ≠ 2) :
    Preprocessor.replaceCallback fullMatch content = fullMatch := by
  simp only [parseComprehension] at h
  split at h
  · cases h
  · rename_i hlt
    simp only [Option.some.injEq, Prod.mk.injEq] at h
    simp only [Preprocessor.replaceCallback, hlt, if_false, h.2]
    rcases cls with _ | ⟨a, _ | ⟨b, _ | ⟨c, cs⟩⟩⟩
    · rfl
    · exact absurd rfl h1
    · exact absurd rfl h2
    · rfl

/-- C11: when the content of a marked literal parses to the yield text `e` and one
clause `(v, it, c?)`, the preprocessor replaces the literal by
`(it)` + F + `.map(V => e)`, with `V` the pattern, bare or in parentheses, and
`F = .filter(V => c)` for a present condition and nothing otherwise; when it parses
to two clauses, by `(it1)` + F1 + `.flatMap(V1 => (it2)` + F2 + `.map(V2 => e))`.
Each iterable stands in its own parentheses. -/
theorem textual_output (content₁ content₂ e₁ e₂ : Str) (cl cl1 cl2 : Clause)
    (hb₁ : '\x60' ∉ content₁) (hb₂ : '\x60' ∉ content₂)
    (h₁ : parseComprehension content₁ = some (e₁, [cl]))
    (h₂ : parseComprehension content₂ = some (e₂, [cl1, cl2])) :
    Preprocessor.transformListComprehension (markedText content₁)
        = "(".toList ++ cl.iterable ++ ")".toList
          ++ filterText (Preprocessor.varName cl.loopVar) cl.condition
          ++ ".map(".toList ++ Preprocessor.varName cl.loopVar ++ " => ".toList ++ e₁
          ++ ")".toList
      ∧ Preprocessor.transformListComprehension (markedText content₂)
        = "(".toList ++ cl1.iterable ++ ")".toList
          ++ filterText (Preprocessor.varName cl1.loopVar) cl1.condition
          ++ ".flatMap(".toList ++ Preprocessor.varName cl1.loopVar ++ " => (".toList
          ++ cl2.iterable ++ ")".toList
          ++ filterText (Preprocessor.varName cl2.loopVar) cl2.condition
          ++ ".map(".toList ++ Preprocessor.varName cl2.loopVar ++ " => ".toList ++ e₂
          ++ "))".toList
      ∧ ∀ p : Str, Preprocessor.varName p = p
          ∨ Preprocessor.varName p = "(".toList ++ p ++ ")".toList := by
  have hne : ∀ content e cls, parseComprehension content = some (e, cls) → content ≠ [] := by
    intro content e cls h hc
    subst hc
    cases h
  have hT : ∀ content, IsContent content →
      Preprocessor.transformListComprehension (markedText content)
        = Preprocessor.replaceCallback (markedText content) content := by
    intro content hc
    have := transform_marked content [] hc
    rw [List.append_nil, transform_nil, List.append_nil] at this
    exact this
  refine ⟨?_, ?_, ?_⟩
  · rw [hT content₁ ⟨hne _ _ _ h₁, hb₁⟩, replaceCallback_one _ _ _ _ h₁,
      filterPart_eq _ _ (condition_ne_empty _ _ _ cl h₁ (by simp))]
  · rw [hT content₂ ⟨hne _ _ _ h₂, hb₂⟩, replaceCallback_two _ _ _ _ _ h₂,
      filterPart_eq _ _ (condition_ne_empty _ _ _ cl1 h₂ (by simp)),
      filterPart_eq _ _ (condition_ne_empty _ _ _ cl2 h₂ (by simp))]
  · intro p
    unfold Preprocessor.varName
    split
    · exact Or.inr rfl
    · exact Or.inl rfl

/-- The instances of C11 at the three comprehensions of `test.js`, with the texts
expected in `transformed.js`. -/
theorem textual_output_witness :
    (Preprocessor.transformListComprehension
        (markedText "x * x for (x of numbers) if (x % 2 === 0)".toList)
        = "(numbers).filter(x => x % 2 === 0).map(x => x * x)".toList
      ∧ Preprocessor.transformListComprehension
        (markedText "x * y for (x of numbers) for (y of numbers) if (x !== y)".toList)
        = "(numbers).flatMap(x => (numbers).filter(y => x !== y).map(y => x * y))".toList)
    ∧ Preprocessor.transformListComprehension
        (markedText "x + y for ([x, y] of pairs)".toList)
        = "(pairs).map(([x, y]) => x + y)".toList :=
  ⟨(fun h => ⟨h.1, h.2.1⟩) (textual_output "x * x for (x of numbers) if (x % 2 === 0)".toList
      "x * y for (x of numbers) for (y of numbers) if (x !== y)".toList
      "x * x".toList "x * y".toList
      ⟨"x".toList, "numbers".toList, some "x % 2 === 0".toList⟩
      ⟨"x".toList, "numbers".toList, none⟩
      ⟨"y".toList, "numbers".toList, some "x !== y".toList⟩
      (by decide) (by decide) (by decide) (by decide)),
   (textual_output "x + y for ([x, y] of pairs)".toList
      "x * y for (x of numbers) for (y of numbers) if (x !== y)".toList
      "x + y".toList "x * y".toList
      ⟨"[x, y]".toList, "pairs".toList, none⟩
      ⟨"x".toList, "numbers".toList, none⟩
      ⟨"y".toList, "numbers".toList, some "x !== y".toList⟩
      (by decide) (by decide) (by decide) (by decide)).1⟩

/-! ## The requests of the chain generator -/

variable {β γ : Type}

theorem tracks_pure (x : β) : Tracks (ε := ε) (α := α) [] (fun _ => .ok x) := by
  intro babel
  refine ⟨?_, ?_, ?_⟩
  · intro _ _ r hr
    simp at hr
  · intro err h
    simp at h
  · intro _ _
    rfl

theorem tracks_bind (reqs₁ reqs₂ : List Request) (run₁ : Babel ε α → Except ε β)
    (run₂ : β → Babel ε α → Except ε γ) (h₁ : Tracks reqs₁ run₁)
    (h₂ : ∀ x, Tracks reqs₂ (run₂ x)) :
    Tracks (reqs₁ ++ reqs₂) (fun babel => run₁ babel >>= fun x => run₂ x babel) := by
  intro babel
  obtain ⟨hok, herr, hc⟩ := h₁ babel
  refine ⟨?_, ?_, ?_⟩
  · intro y hy r hr
    simp only [bind, Except.bind] at hy
    cases h : run₁ babel with
    | error err => rw [h] at hy; cases hy
    | ok x =>
      rw [h] at hy
      rcases List.mem_append.1 hr with hr | hr
      · exact hok x h r hr
      · exact (h₂ x babel).1 y hy r hr
  · intro err hy
    simp only [bind, Except.bind] at hy
    cases h : run₁ babel with
    | error err' =>
      rw [h] at hy
      cases hy
      obtain ⟨r, hr, he⟩ := herr _ h
      exact ⟨r, List.mem_append_left _ hr, he⟩
    | ok x =>
      rw [h] at hy
      obtain ⟨r, hr, he⟩ := (h₂ x babel).2.1 err hy
      exact ⟨r, List.mem_append_right _ hr, he⟩
  · intro babel' hsame
    have e₁ : run₁ babel' = run₁ babel :=
      hc babel' (fun r hr => hsame r (List.mem_append_left _ hr))
    simp only [bind, Except.bind, e₁]
    cases run₁ babel with
    | error err => rfl
    | ok x =>
      exact (h₂ x babel).2.2 babel' (fun r hr => hsame r (List.mem_append_right _ hr))

/-- One request, answered or not. -/
theorem tracks_request (r₀ : Request) (f : α → β) :
    Tracks (ε := ε) (α := α) [r₀] (fun babel => (babel.answer r₀).map f) := by
  intro babel
  refine ⟨?_, ?_, ?_⟩
  · intro x hx r hr
    simp only [List.mem_singleton] at hr
    subst hr
    simp only at hx
    cases h : babel.answer r with
    | error err => rw [h] at hx; cases hx
    | ok a => exact ⟨a, rfl⟩
  · intro err hx
    refine ⟨r₀, by simp, ?_⟩
    simp only at hx
    cases h : babel.answer r₀ with
    | error err' => rw [h] at hx; cases hx; rfl
    | ok a => rw [h] at hx; cases hx
  · intro babel' hsame
    simp only [hsame r₀ (by simp)]

theorem tracks_expression (code : Str) :
    Tracks (ε := ε) (α := α) [.expression code] (fun babel => babel.parseExpression code) := by
  have := tracks_request (ε := ε) (α := α) (.expression code) id
  have e : (fun babel : Babel ε α => babel.parseExpression code)
      = (fun babel => (babel.answer (.expression code)).map id) := by
    funext babel
    simp only [Babel.answer]
    cases babel.parseExpression code <;> rfl
  rw [e]
  exact this

theorem tracks_makeParam (v : Str) :
    Tracks (ε := ε) (α := α) (paramRequests v) (fun babel => Plugin.makeParam babel v) := by
  by_cases hd : (includes v '[' || includes v '\x7b') = true
  · have := tracks_request (ε := ε) (α := α)
      (.firstParam ("(".toList ++ v ++ ") => \x7b\x7d".toList)) Node.parsed
    have e : (fun babel : Babel ε α => Plugin.makeParam babel v)
        = (fun babel =>
            (babel.answer (.firstParam ("(".toList ++ v ++ ") => \x7b\x7d".toList))).map
              Node.parsed) := by
      funext babel
      simp only [Plugin.makeParam, hd, if_true, Babel.answer, bind, Except.bind, pure,
        Except.pure]
      cases babel.parseFirstParam ("(".toList ++ v ++ ") => \x7b\x7d".toList) <;> rfl
    rw [e, paramRequests, if_pos hd]
    exact this
  · have e : (fun babel : Babel ε α => Plugin.makeParam babel v)
        = (fun _ => .ok (Node.identifier v)) := by
      funext babel
      simp only [Plugin.makeParam, hd, if_false, pure, Except.pure]
      rfl
    rw [e, paramRequests, if_neg hd]
    exact tracks_pure _

theorem tracks_parseCondition (c : Option Str) :
    Tracks (ε := ε) (α := α) (conditionRequests c) (fun babel => parseCondition babel c) := by
  rcases c with _ | _ | ⟨d, ds⟩
  · exact tracks_pure _
  · exact tracks_pure _
  · exact tracks_request (ε := ε) (α := α) (.expression (d :: ds))
      (fun t => some (Node.parsed t))

/-- The chain generator on one clause, as a sequence of requests. -/
theorem transform_one_steps (babel : Babel ε α) (e v it : Str) (c : Option Str) :
    Plugin.transformListComprehension babel e [⟨v, it, c⟩]
      = (babel.parseExpression it >>= fun a =>
          babel.parseExpression e >>= fun b =>
          Plugin.makeParam babel v >>= fun p =>
          parseCondition babel c >>= fun t =>
          Except.ok (some (Node.Map (Node.filtered (.parsed a) p t) p (.parsed b)))) := by
  simp only [Plugin.transformListComprehension, parseCondition, bind, Except.bind, pure,
    Except.pure, Except.map]
  cases babel.parseExpression it with
  | error err => rfl
  | ok a =>
    cases babel.parseExpression e with
    | error err => rfl
    | ok b =>
      cases Plugin.makeParam babel v with
      | error err => rfl
      | ok p =>
        cases htc : truthy c with
        | false => rfl
        | true =>
          simp only [if_true]
          cases babel.parseExpression (c.getD []) with
          | error err => rfl
          | ok t => rfl

/-- The chain generator on two clauses, as a sequence of requests. -/
theorem transform_two_steps (babel : Babel ε α) (e v1 it1 v2 it2 : Str)
    (c1 c2 : Option Str) :
    Plugin.transformListComprehension babel e [⟨v1, it1, c1⟩, ⟨v2, it2, c2⟩]
      = (babel.parseExpression it1 >>= fun a1 =>
          babel.parseExpression it2 >>= fun a2 =>
          babel.parseExpression e >>= fun b =>
          Plugin.makeParam babel v1 >>= fun p1 =>
          Plugin.makeParam babel v2 >>= fun p2 =>
          parseCondition babel c2 >>= fun t2 =>
          parseCondition babel c1 >>= fun t1 =>
          Except.ok (some (Node.FlatMap (Node.filtered (.parsed a1) p1 t1) p1
            (Node.Map (Node.filtered (.parsed a2) p2 t2) p2 (.parsed b))))) := by
  simp only [Plugin.transformListComprehension, parseCondition, bind, Except.bind, pure,
    Except.pure, Except.map]
  cases babel.parseExpression it1 with
  | error err => rfl
  | ok a1 =>
    cases babel.parseExpression it2 with
    | error err => rfl
    | ok a2 =>
      cases babel.parseExpression e with
      | error err => rfl
      | ok b =>
        cases Plugin.makeParam babel v1 with
        | error err => rfl
        | ok p1 =>
          cases Plugin.makeParam babel v2 with
          | error err => rfl
          | ok p2 =>
            cases htc2 : truthy c2 <;> cases htc1 : truthy c1 <;> simp only [if_true] <;>
              (try cases babel.parseExpression (c2.getD [])) <;>
              (try cases babel.parseExpression (c1.getD [])) <;> rfl

/-- The chain generator asks exactly the requests listed for its clauses. -/
theorem tracks_transform (e : Str) (cls : List Clause) :
    Tracks (ε := ε) (α := α) (requests e cls)
      (fun babel => Plugin.transformListComprehension babel e cls) := by
  rcases cls with _ | ⟨⟨v1, it1, c1⟩, _ | ⟨⟨v2, it2, c2⟩, _ | ⟨cl3, cls⟩⟩⟩
  · exact tracks_pure _
  · have h := tracks_bind _ _ _ _ (tracks_expression (ε := ε) (α := α) it1) (fun a =>
      tracks_bind _ _ _ _ (tracks_expression e) (fun b =>
      tracks_bind _ _ _ _ (tracks_makeParam v1) (fun p =>
      tracks_bind _ _ _ _ (tracks_parseCondition c1) (fun t =>
      tracks_pure (some (Node.Map (Node.filtered (.parsed a) p t) p (.parsed b)))))))
    have e1 : (fun babel : Babel ε α =>
        Plugin.transformListComprehension babel e [⟨v1, it1, c1⟩]) = _ :=
      funext (fun babel => transform_one_steps babel e v1 it1 c1)
    rw [e1]
    have e2 : requests e [⟨v1, it1, c1⟩]
        = [.expression it1] ++ ([.expression e] ++ (paramRequests v1
            ++ (conditionRequests c1 ++ []))) := by
      simp [requests]
    rw [e2]
    exact h
  · have h := tracks_bind _ _ _ _ (tracks_expression (ε := ε) (α := α) it1) (fun a1 =>
      tracks_bind _ _ _ _ (tracks_expression it2) (fun a2 =>
      tracks_bind _ _ _ _ (tracks_expression e) (fun b =>
      tracks_bind _ _ _ _ (tracks_makeParam v1) (fun p1 =>
      tracks_bind _ _ _ _ (tracks_makeParam v2) (fun p2 =>
      tracks_bind _ _ _ _ (tracks_parseCondition c2) (fun t2 =>
      tracks_bind _ _ _ _ (tracks_parseCondition c1) (fun t1 =>
      tracks_pure (some (Node.FlatMap (Node.filtered (.parsed a1) p1 t1) p1
        (Node.Map (Node.filtered (.parsed a2) p2 t2) p2 (.parsed b)))))))))))
    have e1 : (fun babel : Babel ε α =>
        Plugin.transformListComprehension babel e [⟨v1, it1, c1⟩, ⟨v2, it2, c2⟩]) = _ :=
      funext (fun babel => transform_two_steps babel e v1 it1 v2 it2 c1 c2)
    rw [e1]
    have e2 : requests e [⟨v1, it1, c1⟩, ⟨v2, it2, c2⟩]
        = [.expression it1] ++ ([.expression it2] ++ ([.expression e] ++ (paramRequests v1
            ++ (paramRequests v2 ++ (conditionRequests c2 ++ (conditionRequests c1 ++ [])))))) := by
      simp [requests]
    rw [e2]
    exact h
  · exact tracks_pure _

/-- With one or two clauses the chain generator does not return without a tree. -/
theorem transform_ne_none (babel : Babel ε α) (e : Str) (cls : List Clause)
    (h : cls.length = 1 ∨ cls.length = 2) :
    Plugin.transformListComprehension babel e cls ≠ .ok none := by
  rcases cls with _ | ⟨⟨v1, it1, c1⟩, _ | ⟨⟨v2, it2, c2⟩, _ | ⟨cl3, cls⟩⟩⟩
  · simp at h
  · rw [transform_one_steps]
    simp only [bind, Except.bind]
    cases babel.parseExpression it1 <;> cases babel.parseExpression e <;>
      cases Plugin.makeParam babel v1 <;> cases parseCondition babel c1 <;> simp
  · rw [transform_two_steps]
    simp only [bind, Except.bind]
    cases babel.parseExpression it1 <;> cases babel.parseExpression it2 <;>
      cases babel.parseExpression e <;> cases Plugin.makeParam babel v1 <;>
      cases Plugin.makeParam babel v2 <;> cases parseCondition babel c2 <;>
      cases parseCondition babel c1 <;> simp
  · simp at h

/-! ## The first success of a greedy repetition -/

/-- A repetition that fails has a continuation that fails after every run of the
class. -/
theorem starLoop_none_all (p : Char → Bool) (k : MatchState → Option MatchState)
    (caps : List (Nat × Str)) :
    ∀ (s : Str) (pos : Nat), starLoop p k caps pos s = none →
      ∀ a b, s = a ++ b → (∀ c ∈ a, p c = true) → k ⟨pos + a.length, b, caps⟩ = none
  | [], pos, h, a, b, hab, _ => by
    have ha : a = [] := (List.append_eq_nil.1 hab.symm).1
    have hb : b = [] := (List.append_eq_nil.1 hab.symm).2
    subst ha hb
    simpa [starLoop] using h
  | c :: cs, pos, h, a, b, hab, ha => by
    rw [starLoop] at h
    cases a with
    | nil =>
      simp only [List.nil_append] at hab
      subst hab
      simp only [List.length_nil, Nat.add_zero]
      split at h
      · cases h' : starLoop p k caps (pos + 1) cs with
        | some y => rw [h', orElse_some_left] at h; cases h
        | none => rw [h', orElse_none_left] at h; exact h
      · exact h
    | cons a0 as =>
      simp only [List.cons_append, List.cons.injEq] at hab
      obtain ⟨rfl, rfl⟩ := hab
      have hc : p c = true := ha c (by simp)
      rw [if_pos hc] at h
      cases h' : starLoop p k caps (pos + 1) (as ++ b) with
      | some y => rw [h', orElse_some_left] at h; cases h
      | none =>
        have := starLoop_none_all p k caps (as ++ b) (pos + 1) h' as b rfl
          (fun d hd => ha d (by simp [hd]))
        rw [← this]; congr 2; simp only [List.length_cons]; omega

/-- A successful repetition ends after the longest run of the class after which
the continuation succeeds. -/
theorem starLoop_first (p : Char → Bool) (k : MatchState → Option MatchState)
    (caps : List (Nat × Str)) :
    ∀ (s : Str) (pos : Nat) (x : MatchState), starLoop p k caps pos s = some x →
      ∃ a b, s = a ++ b ∧ (∀ c ∈ a, p c = true) ∧ k ⟨pos + a.length, b, caps⟩ = some x
        ∧ ∀ a' b', s = a' ++ b' → (∀ c ∈ a', p c = true) → a.length < a'.length →
            k ⟨pos + a'.length, b', caps⟩ = none
  | [], pos, x, h => by
    refine ⟨[], [], rfl, by simp, by simpa [starLoop] using h, ?_⟩
    intro a' b' hab _ hlt
    have : a' = [] := (List.append_eq_nil.1 hab.symm).1
    subst this
    simp at hlt
  | c :: cs, pos, x, h => by
    rw [starLoop] at h
    have hhere : k ⟨pos, c :: cs, caps⟩ = some x →
        (∀ a' b', cs = a' ++ b' → (∀ d ∈ a', p d = true) →
          k ⟨pos + 1 + a'.length, b', caps⟩ = none) ∨ p c = false →
        ∃ a b, c :: cs = a ++ b ∧ (∀ d ∈ a, p d = true) ∧ k ⟨pos + a.length, b, caps⟩ = some x
          ∧ ∀ a' b', c :: cs = a' ++ b' → (∀ d ∈ a', p d = true) → a.length < a'.length →
              k ⟨pos + a'.length, b', caps⟩ = none := by
      intro hk hfail
      refine ⟨[], c :: cs, rfl, by simp, by simpa using hk, ?_⟩
      intro a' b' hab ha' hlt
      cases a' with
      | nil => simp at hlt
      | cons a0 as =>
        simp only [List.cons_append, List.cons.injEq] at hab
        obtain ⟨rfl, rfl⟩ := hab
        rcases hfail with hfail | hpc
        · have := hfail as b' rfl (fun d hd => ha' d (by simp [hd]))
          rw [← this]; congr 2; simp only [List.length_cons]; omega
        · have := ha' c (by simp)
          rw [hpc] at this; cases this
    split at h
    · rename_i hc
      cases h' : starLoop p k caps (pos + 1) cs with
      | some y =>
        rw [h', orElse_some_left] at h
        rw [h] at h'
        obtain ⟨a, b, rfl, ha, hk, hmax⟩ := starLoop_first p k caps cs (pos + 1) x h'
        refine ⟨c :: a, b, rfl, ?_, ?_, ?_⟩
        · intro d hd
          rcases List.mem_cons.1 hd with rfl | hd
          · exact hc
          · exact ha d hd
        · rw [← hk]; congr 2; simp only [List.length_cons]; omega
        · intro a' b' hab ha' hlt
          cases a' with
          | nil => simp at hlt
          | cons a0 as =>
            simp only [List.cons_append, List.cons.injEq] at hab
            obtain ⟨rfl, hab⟩ := hab
            have := hmax as b' hab (fun d hd => ha' d (by simp [hd]))
              (by simp only [List.length_cons] at hlt; omega)
            rw [← this]; congr 2; simp only [List.length_cons]; omega
      | none =>
        rw [h', orElse_none_left] at h
        exact hhere h (Or.inl (fun a' b' hab ha' =>
          starLoop_none_all p k caps cs (pos + 1) h' a' b' hab ha'))
    · rename_i hc
      exact hhere h (Or.inr (by simpa using hc))

/-- A successful `+` ends after the longest non-empty run of the class after which
the continuation succeeds. -/
theorem plus_first (p : Char → Bool) (st : MatchState) (k : MatchState → Option MatchState)
    (x : MatchState) (h : (Regex.plus p).run st k = some x) :
    ∃ a b, st.rest = a ++ b ∧ a ≠ [] ∧ (∀ c ∈ a, p c = true)
      ∧ k ⟨st.pos + a.length, b, st.caps⟩ = some x
      ∧ ∀ a' b', st.rest = a' ++ b' → (∀ c ∈ a', p c = true) → a.length < a'.length →
          k ⟨st.pos + a'.length, b', st.caps⟩ = none := by
  unfold Regex.run at h
  split at h
  · cases h
  · rename_i d ds hrest
    split at h
    · rename_i hd
      obtain ⟨a, b, rfl, ha, hk, hmax⟩ := starLoop_first p k st.caps ds (st.pos + 1) x h
      refine ⟨d :: a, b, hrest, by simp, ?_, ?_, ?_⟩
      · intro c hc
        rcases List.mem_cons.1 hc with rfl | hc
        · exact hd
        · exact ha c hc
      · rw [← hk]; congr 2; simp only [List.length_cons]; omega
      · intro a' b' hab ha' hlt
        rw [hrest] at hab
        cases a' with
        | nil => simp at hlt
        | cons a0 as =>
          simp only [List.cons_append, List.cons.injEq] at hab
          obtain ⟨rfl, hab⟩ := hab
          have := hmax as b' hab (fun c hc => ha' c (by simp [hc]))
            (by simp only [List.length_cons] at hlt; omega)
          rw [← this]; congr 2; simp only [List.length_cons]; omega
    · cases h

/-- A repetition succeeds when its continuation succeeds after some run of the
class. -/
theorem starLoop_isSome (p : Char → Bool) (k : MatchState → Option MatchState)
    (caps : List (Nat × Str)) :
    ∀ (a b : Str) (pos : Nat), (∀ c ∈ a, p c = true) →
      (k ⟨pos + a.length, b, caps⟩).isSome = true →
      (starLoop p k caps pos (a ++ b)).isSome = true
  | [], b, pos, _, h => by
    simp only [List.length_nil, Nat.add_zero, List.nil_append] at h ⊢
    cases b with
    | nil => simpa [starLoop] using h
    | cons c cs =>
      rw [starLoop]
      split
      · cases starLoop p k caps (pos + 1) cs with
        | some y => rfl
        | none => rw [orElse_none_left]; exact h
      · exact h
  | c :: a, b, pos, ha, h => by
    have hc : p c = true := ha c (by simp)
    have ih := starLoop_isSome p k caps a b (pos + 1) (fun d hd => ha d (by simp [hd]))
      (by rw [← h]; congr 3; simp only [List.length_cons]; omega)
    rw [List.cons_append, starLoop, if_pos hc]
    cases h' : starLoop p k caps (pos + 1) (a ++ b) with
    | some y => rfl
    | none => rw [h'] at ih; cases ih

/-- A `+` succeeds when its continuation succeeds after some non-empty run of the
class. -/
theorem plus_isSome (p : Char → Bool) (k : MatchState → Option MatchState)
    (caps : List (Nat × Str)) (a b : Str) (pos : Nat) (hne : a ≠ [])
    (ha : ∀ c ∈ a, p c = true) (h : (k ⟨pos + a.length, b, caps⟩).isSome = true) :
    ((Regex.plus p).run ⟨pos, a ++ b, caps⟩ k).isSome = true := by
  obtain ⟨c, a', rfl⟩ := List.exists_cons_of_ne_nil hne
  have hc : p c = true := ha c (by simp)
  simp only [Regex.run, List.cons_append, hc, if_true]
  apply starLoop_isSome p k caps a' b (pos + 1) (fun d hd => ha d (by simp [hd]))
  rw [← h]; congr 3; simp only [List.length_cons]; omega

/-! ## What a match of the clause pattern has read -/

theorem char_sound (c : Char) (st x : MatchState) (k : MatchState → Option MatchState)
    (h : (Regex.char c).run st k = some x) :
    ∃ rest, st.rest = c :: rest ∧ k ⟨st.pos + 1, rest, st.caps⟩ = some x := by
  rw [Regex.run] at h
  split at h
  · cases h
  · rename_i d ds hrest
    split at h
    · rename_i hd
      exact ⟨ds, by rw [hrest, hd], h⟩
    · cases h

theorem not_mem_of_notClose (s : Str) (h : ∀ c ∈ s, notClose c = true) : ')' ∉ s := by
  intro hmem
  have := h _ hmem
  simp [notClose] at this

/-- The clause pattern can only match at the start of the segment. -/
theorem execFrom_clausePattern_succ :
    ∀ (s : Str) (i : Nat), execFrom clausePattern (i + 1) s = none
  | [], i => by simp [execFrom, matchAt, clausePattern, Regex.run]
  | c :: cs, i => by
    rw [execFrom, execFrom_clausePattern_succ cs (i + 1)]
    simp [matchAt, clausePattern, Regex.run]

theorem exec_clausePattern (s : Str) : exec clausePattern s = matchAt clausePattern 0 s := by
  cases s with
  | nil => rfl
  | cons c cs =>
    rw [exec, execFrom, execFrom_clausePattern_succ cs 0]
    cases matchAt clausePattern 0 (c :: cs) <;> rfl

/-- The pattern from `\s+of` on succeeds on whitespace, `of`, whitespace, a
non-empty text without `)` and a closing parenthesis. -/
theorem afterPattern_isSome (w1 w2 x tail : Str) (h1 : SpaceRun w1) (h2 : SpaceRun w2)
    (hx : x ≠ []) (hxc : ')' ∉ x) (pos : Nat) (caps : List (Nat × Str)) :
    (afterPattern.run ⟨pos, w1 ++ ("of".toList ++ (w2 ++ (x ++ ')' :: tail))), caps⟩
      some).isSome = true := by
  rw [afterPattern, run_seq]
  apply plus_isSome isSpace _ caps w1 _ pos h1.1 h1.2
  rw [lit_run, afterOf, run_seq]
  apply plus_isSome isSpace _ caps w2 _ _ h2.1 h2.2
  rw [run_seq, run_group]
  apply plus_isSome notClose _ caps x _ _ hx (notClose_of_not_mem x hxc)
  simp only [afterIterable, run_seq, run_char_cons]
  obtain ⟨y, hy⟩ := ifSuffix_some
    ⟨pos + w1.length + "of".toList.length + w2.length + x.length + 1, tail,
      (2, List.take
        (pos + w1.length + "of".toList.length + w2.length + x.length
          - (pos + w1.length + "of".toList.length + w2.length))
        (x ++ ')' :: tail)) :: caps⟩
  rw [hy]
  rfl

/-- A match of the clause pattern has read a group `(<g><w1>of<w2><x>)`; groups 1
and 2 are `g` and `x`, only the optional suffix has read what follows the group,
and the rest of the pattern fails after every longer run without `)`. -/
theorem clausePattern_sound (seg : Str) (m : MatchState)
    (h : exec clausePattern seg = some m) :
    ∃ g w1 w2 x tail pos, seg = groupText g w1 w2 x tail ∧ IsGroup g w1 w2 x
      ∧ m.capture 1 = some g ∧ m.capture 2 = some x
      ∧ ifSuffix.run ⟨pos, tail, [(2, x), (1, g)]⟩ some = some m
      ∧ ∀ g' r', g ++ (w1 ++ ("of".toList ++ (w2 ++ (x ++ ')' :: tail)))) = g' ++ r' →
          ')' ∉ g' → g.length < g'.length →
          afterPattern.run ⟨1 + g'.length, r', [(1, g')]⟩ some = none := by
  rw [exec_clausePattern, matchAt, clausePattern, run_seq, run_bol, run_seq] at h
  obtain ⟨r0, hr0, h0⟩ := char_sound '(' _ m _ h
  rw [run_seq, run_group] at h0
  obtain ⟨g, b1, hb1, hg, hgc, hk1, hmax⟩ := plus_first notClose _ _ m h0
  simp only at hr0 hb1 hk1 hmax
  have htake : List.take (0 + 1 + g.length - (0 + 1)) r0 = g := by
    rw [hb1, Nat.add_sub_cancel_left, List.take_left' rfl]
  rw [htake] at hk1
  obtain ⟨w1, r1, hr1, hw1, hws1, h1⟩ := keyword_sound "of".toList afterOf _ m some hk1
  simp only at hr1 h1
  rw [afterOf, run_seq] at h1
  obtain ⟨w2, b2, hb2, hw2, hws2, hk2⟩ := plus_sound isSpace _ _ m h1
  simp only at hb2 hk2
  rw [run_seq, run_group] at hk2
  obtain ⟨x, b3, hb3, hx, hxc, hk3⟩ := plus_sound notClose _ _ m hk2
  simp only at hb3 hk3
  rw [afterIterable, run_seq] at hk3
  obtain ⟨tail, htail, hk4⟩ := char_sound ')' _ m _ hk3
  simp only at htail hk4
  have htake2 : ∀ n : Nat, List.take (n + x.length - n) b2 = x := by
    intro n
    rw [hb3, Nat.add_sub_cancel_left, List.take_left' rfl]
  rw [htake2] at hk4
  have hcap := ifSuffix_captures _ m hk4
  refine ⟨g, w1, w2, x, tail, _, ?_, ⟨hg, not_mem_of_notClose g hgc, ⟨hw1, hws1⟩,
    ⟨hw2, hws2⟩, hx, not_mem_of_notClose x hxc⟩, ?_, ?_, hk4, ?_⟩
  · rw [groupText, hr0, hb1, hr1, hb2, hb3, htail]
  · rw [hcap.1]; rfl
  · rw [hcap.2]; rfl
  · intro g' r' hgr hgc' hlt
    have hsplit : r0 = g' ++ r' := by
      rw [hb1, hr1, hb2, hb3, htail]; exact hgr
    have := hmax g' r' hsplit (notClose_of_not_mem g' hgc') hlt
    have htake' : List.take (0 + 1 + g'.length - (0 + 1)) r0 = g' := by
      rw [hsplit, Nat.add_sub_cancel_left, List.take_left' rfl]
    rw [htake'] at this
    rw [← this]

/-! ## The optional suffix -/

theorem ifSuffix_eq : ifSuffix = .opt ifGroup := rfl

/-- The suffix group on `<w1>if<w2>(<c>)`: group 4 is `c`, whatever follows. -/
theorem ifGroup_run (w1 w2 c rest : Str) (h : IsIf w1 w2 c) (pos : Nat)
    (caps : List (Nat × Str)) :
    ∃ n s, ifGroup.run ⟨pos, ifText w1 w2 c rest, caps⟩ some
      = some ⟨n, rest, (3, s) :: (4, c) :: caps⟩ := by
  obtain ⟨⟨hw1, hws1⟩, ⟨hw2, hws2⟩, hc, hcc⟩ := h
  refine ⟨pos + w1.length + "if".toList.length + w2.length + 1 + c.length + 1,
    List.take (pos + w1.length + "if".toList.length + w2.length + 1 + c.length + 1 - pos)
      (ifText w1 w2 c rest), ?_⟩
  rw [ifGroup, run_group, run_seq, ifText]
  have e1 : w1 ++ ("if".toList ++ (w2 ++ '(' :: (c ++ ')' :: rest)))
      = w1 ++ ([] ++ ("if".toList ++ (w2 ++ '(' :: (c ++ ')' :: rest)))) := rfl
  rw [e1]
  apply plus_here isSpace _ caps _ (by simp [isSpace]) _ w1 [] pos hw1 hws1
  · simp only [List.nil_append]
    rw [lit_run, run_seq]
    have e2 : w2 ++ '(' :: (c ++ ')' :: rest) = w2 ++ ([] ++ '(' :: (c ++ ')' :: rest)) := rfl
    rw [e2]
    apply plus_here isSpace _ caps _ (by simp [isSpace]) _ w2 [] _ hw2 hws2
    · simp only [List.nil_append]
      rw [run_seq, run_char_cons, run_seq, run_group]
      have e3 : c ++ ')' :: rest = c ++ ([] ++ ')' :: rest) := rfl
      rw [e3]
      apply plus_here notClose _ caps _ (by simp [notClose]) _ c [] _ hc
        (notClose_of_not_mem c hcc)
      · simp only [List.nil_append, run_char_cons]
        have ht : ∀ n : Nat, List.take (n + c.length - n) (c ++ ')' :: rest) = c := by
          intro n
          rw [Nat.add_sub_cancel_left, List.take_left' rfl]
        rw [ht]
      · intro u t hut hu
        cases u with
        | nil => exact absurd rfl hu
        | cons _ _ => cases hut
    · intro u t hut hu
      cases u with
      | nil => exact absurd rfl hu
      | cons _ _ => cases hut
  · intro u t hut hu
    cases u with
    | nil => exact absurd rfl hu
    | cons _ _ => cases hut

/-- A match of the suffix group has read `<w1>if<w2>(<c>)`. -/
theorem ifGroup_sound (st m : MatchState) (h : ifGroup.run st some = some m) :
    ∃ w1 w2 c rest, IsIf w1 w2 c ∧ st.rest = ifText w1 w2 c rest := by
  rw [ifGroup, run_group] at h
  obtain ⟨w1, r1, hr1, hw1, hws1, h1⟩ := keyword_sound "if".toList _ _ m _ h
  rw [run_seq] at h1
  obtain ⟨w2, b2, hb2, hw2, hws2, h2⟩ := plus_sound isSpace _ _ m h1
  simp only at hb2 h2
  rw [run_seq] at h2
  obtain ⟨r3, hr3, h3⟩ := char_sound '(' _ m _ h2
  simp only at hr3 h3
  rw [run_seq, run_group] at h3
  obtain ⟨c, b4, hb4, hc, hcc, h4⟩ := plus_sound notClose _ _ m h3
  simp only at hb4 h4
  obtain ⟨rest, hrest, -⟩ := char_sound ')' _ m _ h4
  simp only at hrest
  refine ⟨w1, w2, c, rest, ⟨⟨hw1, hws1⟩, ⟨hw2, hws2⟩, hc, not_mem_of_notClose c hcc⟩, ?_⟩
  rw [ifText, hr1, hb2, hr3, hb4, hrest]

/-- The condition read by the optional suffix after a group: the condition of the
text `<w1>if<w2>(<c>)` when what follows the group starts with such a text, and none
otherwise. -/
theorem ifSuffix_condition_iff (tail g x : Str) (pos : Nat) (m : MatchState)
    (h : ifSuffix.run ⟨pos, tail, [(2, x), (1, g)]⟩ some = some m) :
    (∀ w1 w2 c rest, IsIf w1 w2 c → tail = ifText w1 w2 c rest → m.capture 4 = some c)
      ∧ ((¬ ∃ w1 w2 c rest, IsIf w1 w2 c ∧ tail = ifText w1 w2 c rest) →
          m.capture 4 = none) := by
  rw [ifSuffix_eq, Regex.run] at h
  constructor
  · intro w1 w2 c rest hif ht
    obtain ⟨n, s, hrun⟩ := ifGroup_run w1 w2 c rest hif pos [(2, x), (1, g)]
    rw [ht, hrun, orElse_some_left] at h
    cases h
    rfl
  · intro hno
    cases hg : ifGroup.run ⟨pos, tail, [(2, x), (1, g)]⟩ some with
    | some y =>
      obtain ⟨w1, w2, c, rest, hif, ht⟩ := ifGroup_sound _ y hg
      exact absurd ⟨w1, w2, c, rest, hif, ht⟩ hno
    | none =>
      rw [hg, orElse_none_left] at h
      cases h
      rfl

/-! ## The clauses that are collected -/

/-- C13: every clause collected from a list of segments, on either surface, has a
loop pattern and an iterable that are not empty and have no `)`, and a condition
that is `null` or a non-empty text. -/
theorem clause_invariant (segs : List Str) (cl : Clause)
    (h : cl ∈ collectClauses segs []) :
    cl.loopVar ≠ [] ∧ ')' ∉ cl.loopVar ∧ cl.iterable ≠ [] ∧ ')' ∉ cl.iterable
      ∧ (cl.condition = none ∨ ∃ c, cl.condition = some c ∧ c ≠ []) := by
  obtain ⟨s, _, m, hm, rfl⟩ := mem_collectClauses segs cl h
  obtain ⟨g, w1, w2, x, tail, pos, _, ⟨hg, hgc, _, _, hx, hxc⟩, h1, h2, _, _⟩ :=
    clausePattern_sound s m hm
  simp only [clauseOfMatch, h1, h2, Option.getD_some]
  refine ⟨hg, hgc, hx, hxc, ?_⟩
  cases hc : orNull (m.capture 4) with
  | none => exact Or.inl rfl
  | some c =>
    refine Or.inr ⟨c, rfl, ?_⟩
    rintro rfl
    exact orNull_ne_empty _ hc

/-- The instance of C13 at the segments of
`x * y for (x of numbers) for (y of numbers) if (x !== y)`. -/
theorem clause_invariant_witness :
    ("y".toList ≠ [] ∧ ')' ∉ "y".toList ∧ "numbers".toList ≠ [] ∧ ')' ∉ "numbers".toList
      ∧ ((some "x !== y".toList : Option Str) = none
        ∨ ∃ c, (some "x !== y".toList : Option Str) = some c ∧ c ≠ [])) :=
  clause_invariant ["(x of numbers)".toList, "(y of numbers) if (x !== y)".toList]
    ⟨"y".toList, "numbers".toList, some "x !== y".toList⟩ (by decide)

/-- C17: a segment that begins with a group `(<p> of <it>)`, with `p` not empty and
without `)`, and `it` not empty, without `)`, without leading or trailing whitespace
and without a word `of` next to whitespace, gives the clause of `p` and `it`
whatever follows the group; its condition is `c` when what follows starts with
whitespace, `if`, whitespace and `(<c>)`, whatever comes after that, and `null` in
every other case. -/
theorem clause_anchored_at_start (p it tail : Str) (hp : p ≠ []) (hpc : ')' ∉ p)
    (hne : it ≠ []) (hclose : ')' ∉ it)
    (hhead : ∀ c ∈ it.head?, isSpace c = false)
    (hlast : ∀ c ∈ it.getLast?, isSpace c = false)
    (hof : isolatedKeyword "of".toList it = false) :
    (∃ cond, (exec clausePattern
          ("(".toList ++ p ++ " of ".toList ++ it ++ ")".toList ++ tail)).map clauseOfMatch
        = some ⟨p, it, cond⟩)
      ∧ (∀ w1 w2 c rest, IsIf w1 w2 c → tail = ifText w1 w2 c rest →
          (exec clausePattern
            ("(".toList ++ p ++ " of ".toList ++ it ++ ")".toList ++ tail)).map clauseOfMatch
          = some ⟨p, it, some c⟩)
      ∧ ((¬ ∃ w1 w2 c rest, IsIf w1 w2 c ∧ tail = ifText w1 w2 c rest) →
          (exec clausePattern
            ("(".toList ++ p ++ " of ".toList ++ it ++ ")".toList ++ tail)).map clauseOfMatch
          = some ⟨p, it, none⟩) := by
  have e : "(".toList ++ p ++ " of ".toList ++ it ++ ")".toList ++ tail
      = '(' :: (p ++ ((" of ".toList ++ it) ++ ')' :: tail)) := by simp
  obtain ⟨m, hm⟩ := ifSuffix_some ⟨p.length + it.length + 6, tail, [(2, it), (1, p)]⟩
  have hrun := clausePattern_run p it tail hp hpc hne hclose hhead hlast hof m hm
  have hcap := ifSuffix_captures _ m hm
  have hcond := ifSuffix_condition_iff tail p it _ m hm
  have h1 : m.capture 1 = some p := by rw [hcap.1]; rfl
  have h2 : m.capture 2 = some it := by rw [hcap.2]; rfl
  rw [e, hrun]
  simp only [Option.map_some', clauseOfMatch, h1, h2, Option.getD_some, Option.some.injEq,
    Clause.mk.injEq, true_and]
  refine ⟨⟨_, rfl⟩, ?_, ?_⟩
  · intro w1 w2 c rest hif ht
    rw [hcond.1 w1 w2 c rest hif ht]
    obtain ⟨c0, cs, rfl⟩ := List.exists_cons_of_ne_nil hif.2.2.1
    rfl
  · intro hno
    rw [hcond.2 hno]
    rfl

/-- The instance of C17 at `(x of nums) if (x > 2) and more`, and the segments
`(x of nums) if x > 2` and `(x of nums) if(x > 2)`, collected without condition. -/
theorem clause_anchored_at_start_witness :
    (exec clausePattern "(x of nums) if (x > 2) and more".toList).map clauseOfMatch
        = some ⟨"x".toList, "nums".toList, some "x > 2".toList⟩
      ∧ (exec clausePattern "(x of nums) if x > 2".toList).map clauseOfMatch
        = some ⟨"x".toList, "nums".toList, none⟩
      ∧ (exec clausePattern "(x of nums) if(x > 2)".toList).map clauseOfMatch
        = some ⟨"x".toList, "nums".toList, none⟩ :=
  ⟨(clause_anchored_at_start "x".toList "nums".toList " if (x > 2) and more".toList
      (by decide) (by decide) (by decide) (by decide) (by decide) (by decide)
      (by decide)).2.1 " ".toList " ".toList "x > 2".toList " and more".toList
      (by decide) rfl,
    by decide, by decide⟩

/-! ## Where the group is split -/

theorem not_mem_close_of_spaceRun (w : Str) (h : SpaceRun w) : ')' ∉ w := by
  intro hmem
  have := h.2 _ hmem
  revert this
  decide

/-- Among the readings of the start of a segment as a group, the clause pattern
takes one with the longest pattern. -/
theorem loopVar_longest (seg : Str) (m : MatchState) (h : exec clausePattern seg = some m)
    (g' w1' w2' x' tail' : Str) (hseg : seg = groupText g' w1' w2' x' tail')
    (hgroup : IsGroup g' w1' w2' x') :
    g'.length ≤ (clauseOfMatch m).loopVar.length := by
  obtain ⟨g, w1, w2, x, tail, pos, hs, _, h1, _, _, hmax⟩ := clausePattern_sound seg m h
  simp only [clauseOfMatch, h1, Option.getD_some]
  by_contra hlt
  have hlt' : g.length < g'.length := by omega
  obtain ⟨_, hgc', hw1', hw2', hx', hxc'⟩ := hgroup
  have heq : g ++ (w1 ++ ("of".toList ++ (w2 ++ (x ++ ')' :: tail))))
      = g' ++ (w1' ++ ("of".toList ++ (w2' ++ (x' ++ ')' :: tail')))) := by
    have := hs.symm.trans hseg
    simp only [groupText, List.cons.injEq, true_and] at this
    exact this
  have hnone := hmax g' _ heq hgc' hlt'
  have hsome := afterPattern_isSome w1' w2' x' tail' hw1' hw2' hx' hxc' (1 + g'.length)
    [(1, g')]
  rw [hnone] at hsome
  cases hsome

/-- C18, as amended: a segment that the clause pattern matches starts with a group
`(<loopVar><w1>of<w2><iterable>)`; no other reading of its start as a group (a
pattern and an iterable that are not empty and have no `)`, around an `of` between
two runs of whitespace) has a longer pattern; and an `of` between whitespace inside
the parsed iterable can only end it, followed by one whitespace character. -/
theorem split_point (seg : Str) (cl : Clause)
    (h : (exec clausePattern seg).map clauseOfMatch = some cl) :
    (∃ w1 w2 tail, seg = groupText cl.loopVar w1 w2 cl.iterable tail
        ∧ IsGroup cl.loopVar w1 w2 cl.iterable)
      ∧ (∀ g' w1' w2' x' tail', seg = groupText g' w1' w2' x' tail' →
          IsGroup g' w1' w2' x' → g'.length ≤ cl.loopVar.length)
      ∧ (∀ u w w' v, cl.iterable = u ++ (w ++ ("of".toList ++ (w' ++ v))) →
          SpaceRun w → SpaceRun w' → v = [] ∧ w'.length = 1) := by
  cases hm : exec clausePattern seg with
  | none => rw [hm] at h; cases h
  | some m =>
    rw [hm] at h
    simp only [Option.map_some', Option.some.injEq] at h
    subst h
    obtain ⟨g, w1, w2, x, tail, pos, hs, hgroup, h1, h2, _, _⟩ := clausePattern_sound seg m hm
    have hlv : (clauseOfMatch m).loopVar = g := by
      simp only [clauseOfMatch, h1, Option.getD_some]
    have hit : (clauseOfMatch m).iterable = x := by
      simp only [clauseOfMatch, h2, Option.getD_some]
    have hlong := loopVar_longest seg m hm
    rw [hlv] at hlong
    rw [hlv, hit]
    refine ⟨⟨w1, w2, tail, hs, hgroup⟩, hlong, ?_⟩
    intro u w w' v hx hw hw'
    obtain ⟨hg, hgc, hw1, hw2, hxne, hxc⟩ := hgroup
    have hu : ')' ∉ u := fun hmem => hxc (by rw [hx]; simp [hmem])
    have hv : ')' ∉ v := fun hmem => hxc (by rw [hx]; simp [hmem])
    have hgc' : ')' ∉ g ++ (w1 ++ ("of".toList ++ (w2 ++ u))) := by
      have n1 := not_mem_close_of_spaceRun w1 hw1
      have n2 := not_mem_close_of_spaceRun w2 hw2
      simp only [List.mem_append, not_or]
      exact ⟨hgc, n1, by decide, n2, hu⟩
    have hlen : g.length < (g ++ (w1 ++ ("of".toList ++ (w2 ++ u)))).length := by
      have : 0 < w1.length := List.length_pos.2 hw1.1
      simp only [List.length_append]
      omega
    by_cases hvne : v = []
    · subst hvne
      refine ⟨rfl, ?_⟩
      by_contra hlen1
      obtain ⟨w'', s, rfl⟩ := exists_append_last w' hw'.1
      have hw''ne : w'' ≠ [] := by
        intro hnil
        rw [hnil] at hlen1
        simp at hlen1
      have hs' : isSpace s = true := hw'.2 s (by simp)
      have := hlong (g ++ (w1 ++ ("of".toList ++ (w2 ++ u)))) w w'' [s] tail
        (by rw [hs, hx]; simp [groupText])
        ⟨by simp [hg], hgc', hw, ⟨hw''ne, fun c hc => hw'.2 c (by simp [hc])⟩, by simp,
          by
            intro hmem
            simp only [List.mem_singleton] at hmem
            rw [← hmem] at hs'
            revert hs'
            decide⟩
      omega
    · exfalso
      have := hlong (g ++ (w1 ++ ("of".toList ++ (w2 ++ u)))) w w' v tail
        (by rw [hs, hx]; simp [groupText])
        ⟨by simp [hg], hgc', hw, hw', hvne, hv⟩
      omega

/-- The instance of C18 at `(a of b of c)`: the loop pattern is `a of b`, the
iterable is `c`, and the reading with the pattern `a` has a shorter pattern. -/
theorem split_point_witness :
    (exec clausePattern "(a of b of c)".toList).map clauseOfMatch
        = some ⟨"a of b".toList, "c".toList, none⟩
      ∧ "a".toList.length ≤ "a of b".toList.length :=
  ⟨by decide,
    (split_point "(a of b of c)".toList ⟨"a of b".toList, "c".toList, none⟩ (by decide)).2.1
      "a".toList " ".toList " ".toList "b of c".toList [] (by decide) (by decide)⟩

/-- C18 as stated fails: in `(a of b of )` both `of` stand between whitespace, the
parser splits at the first one, and the parsed iterable `b of ` has an `of` between
whitespace. -/
theorem split_point_counterexample :
    (exec clausePattern "(a of b of )".toList).map clauseOfMatch
        = some ⟨"a".toList, "b of ".toList, none⟩
      ∧ spacedOccurrence "of".toList "b of ".toList = true := by
  decide

/-! ## The scopes of the generated chain -/

/-- The scopes in the tree that the plugin generates for two clauses: the first
iterable stands under no parameter, the first condition and the second iterable
under the parameter of the first pattern only, and the second condition and the
yield expression under the parameter of the first pattern and, inside it, the
parameter of the second. -/
theorem chain_scopes (babel : Babel ε α) (e v1 it1 v2 it2 : Str) (c1 c2 : Option Str)
    (a1 a2 b t1 t2 : α) (p1 p2 : Node α)
    (hit1 : babel.parseExpression it1 = .ok a1) (hit2 : babel.parseExpression it2 = .ok a2)
    (he : babel.parseExpression e = .ok b)
    (hp1 : Plugin.makeParam babel v1 = .ok p1) (hp2 : Plugin.makeParam babel v2 = .ok p2)
    (hc1 : truthy c1 = true → babel.parseExpression (c1.getD []) = .ok t1)
    (hc2 : truthy c2 = true → babel.parseExpression (c2.getD []) = .ok t2) :
    ∃ tree, Plugin.transformListComprehension babel e [⟨v1, it1, c1⟩, ⟨v2, it2, c2⟩]
        = .ok (some tree)
      ∧ tree.leafScopes []
        = [(a1, [])] ++ (if truthy c1 then [(t1, [p1])] else []) ++ [(a2, [p1])]
          ++ (if truthy c2 then [(t2, [p1, p2])] else []) ++ [(b, [p1, p2])] := by
  refine ⟨_, transform_two babel e v1 it1 v2 it2 c1 c2 a1 a2 b t1 t2 p1 p2 hit1 hit2 he
    hp1 hp2 hc1 hc2, ?_⟩
  cases truthy c1 <;> cases truthy c2 <;>
    simp [Node.FlatMap, Node.Map, Node.Filter, Node.filtered, Node.leafScopes,
      Node.leafScopesOfList]

/-- The scopes in the tree for `x * y for (x of numbers) for (y of numbers) if (x !== y)`. -/
theorem chain_scopes_witness :
    ∃ tree, Plugin.transformListComprehension textBabel "x * y".toList
        [⟨"x".toList, "numbers".toList, none⟩,
         ⟨"y".toList, "numbers".toList, some "x !== y".toList⟩] = .ok (some tree)
      ∧ tree.leafScopes []
        = [("numbers".toList, []), ("numbers".toList, [.identifier "x".toList]),
           ("x !== y".toList, [.identifier "x".toList, .identifier "y".toList]),
           ("x * y".toList, [.identifier "x".toList, .identifier "y".toList])] :=
  chain_scopes textBabel "x * y".toList "x".toList "numbers".toList "y".toList
    "numbers".toList none (some "x !== y".toList) "numbers".toList "numbers".toList
    "x * y".toList [] "x !== y".toList (.identifier "x".toList) (.identifier "y".toList)
    rfl rfl rfl rfl rfl (by simp [truthy]) (fun _ => rfl)

/-! ## Clause lists of other lengths -/

/-- The visitor of the plugin on a parsed comprehension: the result of the chain
generator for a template tagged `list`, no replacement for another tag. -/
theorem taggedTemplateExpression_parsed (babel : Babel ε α) (tag : Plugin.Tag)
    (raw e : Str) (cls : List Clause) (h : parseComprehension raw = some (e, cls)) :
    Plugin.taggedTemplateExpression babel ⟨tag, raw⟩
        = Plugin.transformListComprehension babel e cls
      ∨ Plugin.taggedTemplateExpression babel ⟨tag, raw⟩ = .ok none := by
  simp only [parseComprehension] at h
  split at h
  · cases h
  · rename_i hlt
    simp only [Option.some.injEq, Prod.mk.injEq] at h
    simp only [Plugin.taggedTemplateExpression, hlt, if_false, h.1, h.2, bind, Except.bind,
      pure, Except.pure]
    split
    · left
      cases Plugin.transformListComprehension babel e cls with
      | error err => rfl
      | ok r => cases r <;> rfl
    · right; rfl

/-- C16: with three clauses or more the chain generator of the plugin returns no
result, the visitor replaces nothing and the callback of the preprocessor returns
the marked literal as it is; the chain generator returns without result exactly
when the number of clauses is neither 1 nor 2, with a collaborator that answers
every request it returns a tree exactly when that number is 1 or 2, and the
callback returns something else than a marked literal exactly in that case. -/
theorem three_clauses_untransformed (babel : Babel ε α) (tag : Plugin.Tag)
    (raw e fullMatch : Str) (cls : List Clause)
    (h : parseComprehension raw = some (e, cls)) :
    (3 ≤ cls.length →
        Plugin.transformListComprehension babel e cls = .ok none
          ∧ Plugin.taggedTemplateExpression babel ⟨tag, raw⟩ = .ok none
          ∧ Preprocessor.replaceCallback fullMatch raw = fullMatch)
      ∧ (Plugin.transformListComprehension babel e cls = .ok none
          ↔ ¬ (cls.length = 1 ∨ cls.length = 2))
      ∧ ((∀ r, ∃ a, babel.answer r = .ok a) →
          ((∃ tree, Plugin.transformListComprehension babel e cls = .ok (some tree))
            ↔ (cls.length = 1 ∨ cls.length = 2)))
      ∧ (fullMatch.head? = some '/' →
          (Preprocessor.replaceCallback fullMatch raw ≠ fullMatch
            ↔ (cls.length = 1 ∨ cls.length = 2))) := by
  have hnone : ¬ (cls.length = 1 ∨ cls.length = 2) →
      Plugin.transformListComprehension babel e cls = .ok none := by
    intro hlen
    rcases cls with _ | ⟨a, _ | ⟨b, _ | ⟨c, cs⟩⟩⟩
    · rfl
    · exact absurd (Or.inl rfl) hlen
    · exact absurd (Or.inr rfl) hlen
    · rfl
  have hiff : Plugin.transformListComprehension babel e cls = .ok none
      ↔ ¬ (cls.length = 1 ∨ cls.length = 2) :=
    ⟨fun hn hlen => transform_ne_none babel e cls hlen hn, hnone⟩
  refine ⟨?_, hiff, ?_, ?_⟩
  · intro h3
    have hlen : ¬ (cls.length = 1 ∨ cls.length = 2) := by omega
    refine ⟨hnone hlen, ?_, replaceCallback_other _ _ _ _ h (by omega) (by omega)⟩
    rcases taggedTemplateExpression_parsed babel tag raw e cls h with ht | ht
    · rw [ht, hnone hlen]
    · exact ht
  · intro hall
    constructor
    · rintro ⟨tree, ht⟩
      by_contra hlen
      rw [hnone hlen] at ht
      cases ht
    · intro hlen
      obtain ⟨_, herr, _⟩ := tracks_transform (ε := ε) (α := α) e cls babel
      cases ht : Plugin.transformListComprehension babel e cls with
      | error err =>
        obtain ⟨r, _, hr⟩ := herr err ht
        obtain ⟨a, ha⟩ := hall r
        rw [ha] at hr
        cases hr
      | ok x =>
        cases x with
        | none => exact absurd ht (transform_ne_none babel e cls hlen)
        | some tree => exact ⟨tree, rfl⟩
  · intro hhead
    constructor
    · intro hne
      by_contra hlen
      exact hne (replaceCallback_other _ _ _ _ h (fun h1 => hlen (Or.inl h1))
        (fun h2 => hlen (Or.inr h2)))
    · intro hlen heq
      rcases cls with _ | ⟨a, _ | ⟨b, _ | ⟨c, cs⟩⟩⟩
      · simp at hlen
      · rw [replaceCallback_one _ _ _ _ h] at heq
        rw [← heq] at hhead
        simp at hhead
      · rw [replaceCallback_two _ _ _ _ _ h] at heq
        rw [← heq] at hhead
        simp at hhead
      · simp at hlen

/-- The instance of C16 at `x for (a of b) for (c of d) for (e of f)`. -/
theorem three_clauses_untransformed_witness :
    Plugin.transformListComprehension textBabel "x".toList
        [⟨"a".toList, "b".toList, none⟩, ⟨"c".toList, "d".toList, none⟩,
         ⟨"e".toList, "f".toList, none⟩] = .ok none
      ∧ Plugin.taggedTemplateExpression textBabel
          ⟨⟨"Identifier".toList, some "list".toList⟩,
            "x for (a of b) for (c of d) for (e of f)".toList⟩ = .ok none
      ∧ Preprocessor.replaceCallback
          (markedText "x for (a of b) for (c of d) for (e of f)".toList)
          "x for (a of b) for (c of d) for (e of f)".toList
        = markedText "x for (a of b) for (c of d) for (e of f)".toList :=
  (three_clauses_untransformed textBabel ⟨"Identifier".toList, some "list".toList⟩
    "x for (a of b) for (c of d) for (e of f)".toList "x".toList
    (markedText "x for (a of b) for (c of d) for (e of f)".toList)
    [⟨"a".toList, "b".toList, none⟩, ⟨"c".toList, "d".toList, none⟩,
     ⟨"e".toList, "f".toList, none⟩] (by decide)).1 (by decide)

/-! ## The characters of the parsed texts -/

/-- A character that is not in the input is in no segment of the split. -/
theorem splitLoop_not_mem (sep : Regex) (ch : Char) :
    ∀ (s : Str) (q skip : Nat) (seg : Str), ch ∉ s → ch ∉ seg →
      ∀ part ∈ splitLoop sep s q skip seg, ch ∉ part
  | [], q, skip, seg, _, hseg, part, hpart => by
    rw [splitLoop] at hpart
    simp only [List.mem_singleton] at hpart
    rw [hpart]; exact hseg
  | c :: cs, q, skip + 1, seg, hs, hseg, part, hpart => by
    rw [splitLoop] at hpart
    exact splitLoop_not_mem sep ch cs (q + 1) skip seg (fun h => hs (by simp [h])) hseg part
      hpart
  | c :: cs, q, 0, seg, hs, hseg, part, hpart => by
    have hcs : ch ∉ cs := fun h => hs (by simp [h])
    have hc : ch ∉ [c] := by
      intro h
      simp only [List.mem_singleton] at h
      exact hs (by simp [h])
    rw [splitLoop] at hpart
    cases hm : matchAt sep q (c :: cs) with
    | none =>
      rw [hm] at hpart
      exact splitLoop_not_mem sep ch cs (q + 1) 0 (seg ++ [c]) hcs
        (by simp only [List.mem_append, not_or]; exact ⟨hseg, hc⟩) part hpart
    | some st =>
      rw [hm] at hpart
      simp only at hpart
      split at hpart
      · split at hpart
        · exact splitLoop_not_mem sep ch cs (q + 1) 0 [c] hcs hc part hpart
        · rcases List.mem_cons.1 hpart with rfl | hpart
          · exact hseg
          · exact splitLoop_not_mem sep ch cs (q + 1) 0 [c] hcs hc part hpart
      · rcases List.mem_cons.1 hpart with rfl | hpart
        · exact hseg
        · exact splitLoop_not_mem sep ch cs (q + 1) _ [] hcs (by simp) part hpart

theorem split_not_mem (sep : Regex) (ch : Char) (s : Str) (hs : ch ∉ s) :
    ∀ part ∈ split sep s, ch ∉ part := by
  intro part hpart
  cases s with
  | nil =>
    rw [split] at hpart
    split at hpart
    · simp at hpart
    · simp only [List.mem_singleton] at hpart
      rw [hpart]; simp
  | cons c cs =>
    exact splitLoop_not_mem sep ch (c :: cs) 0 0 [] hs (by simp) part hpart

/-- A character that is not in a segment is in no field of the clause pushed for
the segment. -/
theorem clauseOfMatch_not_mem (seg : Str) (m : MatchState) (ch : Char)
    (h : exec clausePattern seg = some m) (hch : ch ∉ seg) :
    ch ∉ (clauseOfMatch m).loopVar ∧ ch ∉ (clauseOfMatch m).iterable
      ∧ ∀ c, (clauseOfMatch m).condition = some c → ch ∉ c := by
  obtain ⟨g, w1, w2, x, tail, pos, hs, _, h1, h2, hrun, _⟩ := clausePattern_sound seg m h
  have hseg : ∀ d, d ∈ g ∨ d ∈ x ∨ d ∈ tail → d ∈ seg := by
    intro d hd
    rw [hs, groupText]
    simp only [List.mem_cons, List.mem_append]
    rcases hd with hd | hd | hd
    · exact Or.inr (Or.inl hd)
    · exact Or.inr (Or.inr (Or.inr (Or.inr (Or.inr (Or.inl hd)))))
    · exact Or.inr (Or.inr (Or.inr (Or.inr (Or.inr (Or.inr (Or.inr hd))))))
  simp only [clauseOfMatch, h1, h2, Option.getD_some]
  refine ⟨fun hg => hch (hseg _ (Or.inl hg)), fun hx => hch (hseg _ (Or.inr (Or.inl hx))), ?_⟩
  intro c hc hmem
  rw [ifSuffix_eq, Regex.run] at hrun
  cases hg : ifGroup.run ⟨pos, tail, [(2, x), (1, g)]⟩ some with
  | some y =>
    obtain ⟨w1', w2', c', rest, hif, ht⟩ := ifGroup_sound _ y hg
    simp only at ht
    obtain ⟨n, s, hrun'⟩ := ifGroup_run w1' w2' c' rest hif pos [(2, x), (1, g)]
    rw [ht, hrun', orElse_some_left] at hrun
    cases hrun
    have hc4 : orNull (some c') = some c := hc
    have hcc : c = c' := by
      unfold orNull at hc4
      split at hc4
      · simp only [Option.some.injEq] at hc4
        rename_i heq
        simp only [Option.some.injEq] at heq
        rw [← hc4, heq]
      · cases hc4
    apply hch
    apply hseg
    right; right
    rw [ht, ifText, ← hcc]
    simp [hmem]
  | none =>
    rw [hg, orElse_none_left] at hrun
    cases hrun
    cases hc

/-- A character that is not in a comprehension is neither in its yield text nor in
a field of its clauses. -/
theorem parseComprehension_not_mem (content e : Str) (cls : List Clause) (ch : Char)
    (h : parseComprehension content = some (e, cls)) (hch : ch ∉ content) :
    ch ∉ e ∧ ∀ cl ∈ cls, ch ∉ cl.loopVar ∧ ch ∉ cl.iterable
      ∧ ∀ c, cl.condition = some c → ch ∉ c := by
  constructor
  · simp only [parseComprehension] at h
    split at h
    · cases h
    · simp only [Option.some.injEq, Prod.mk.injEq] at h
      rw [← h.1]
      cases hsp : split forSeparator content with
      | nil => simp
      | cons p ps =>
        simp only [List.headD_cons]
        exact split_not_mem forSeparator ch content hch p (by rw [hsp]; simp)
  · intro cl hcl
    obtain ⟨s, hs, m, hm, rfl⟩ := mem_parseComprehension content e cls cl h hcl
    exact clauseOfMatch_not_mem s m ch hm (split_not_mem forSeparator ch content hch s hs)

/-! ## The frame of the preprocessor -/

theorem sourceOf_nil : sourceOf [] = [] := rfl

theorem sourceOf_cons (p : Piece) (ps : List Piece) :
    sourceOf (p :: ps) = p.source ++ sourceOf ps := by
  simp [sourceOf]

theorem sourceOf_append (ps qs : List Piece) :
    sourceOf (ps ++ qs) = sourceOf ps ++ sourceOf qs := by
  simp [sourceOf]

theorem resultOf_cons (p : Piece) (ps : List Piece) :
    resultOf (p :: ps) = p.result ++ resultOf ps := by
  simp [resultOf]

theorem markedText_length (c : Str) : (markedText c).length = c.length + 10 := by
  simp [markedText]

theorem not_startsMarked_nil : ¬ StartsMarked [] := by
  rintro ⟨c, rest, _, h⟩
  have := congrArg List.length h
  rw [List.length_append, markedText_length] at this
  simp only [List.length_nil] at this
  omega

/-- The pieces of a source: the source is cut, from left to right, into marked
literals that are processed and characters that are kept, and a marked literal of
the source starts either at a processed piece or strictly inside one. -/
theorem pieces_exist : ∀ (n : Nat) (code : Str), code.length ≤ n →
    ∃ ps : List Piece, sourceOf ps = code
      ∧ Preprocessor.transformListComprehension code = resultOf ps
      ∧ (∀ content, Piece.marked content ∈ ps → IsContent content)
      ∧ ∀ pre s, code = pre ++ s → StartsMarked s →
          (∃ ps₁ c ps₂, ps = ps₁ ++ Piece.marked c :: ps₂ ∧ sourceOf ps₁ = pre
            ∧ s = sourceOf (Piece.marked c :: ps₂))
          ∨ ∃ ps₁ c ps₂, ps = ps₁ ++ Piece.marked c :: ps₂
              ∧ (sourceOf ps₁).length < pre.length
              ∧ pre.length < (sourceOf ps₁ ++ markedText c).length := by
  intro n
  induction n with
  | zero =>
    intro code hlen
    have hnil : code = [] := List.length_eq_zero.1 (Nat.le_zero.1 hlen)
    subst hnil
    refine ⟨[], rfl, rfl, by simp, ?_⟩
    intro pre s hps hs
    have : s = [] := (List.append_eq_nil.1 hps.symm).2
    rw [this] at hs
    exact absurd hs not_startsMarked_nil
  | succ n ih =>
    intro code hlen
    cases code with
    | nil =>
      refine ⟨[], rfl, rfl, by simp, ?_⟩
      intro pre s hps hs
      have : s = [] := (List.append_eq_nil.1 hps.symm).2
      rw [this] at hs
      exact absurd hs not_startsMarked_nil
    | cons d ds =>
      by_cases hM : StartsMarked (d :: ds)
      · obtain ⟨c, rest, hc, hcode⟩ := hM
        have hrest : rest.length ≤ n := by
          have := congrArg List.length hcode
          rw [List.length_append, markedText_length] at this
          simp only [List.length_cons] at this hlen
          omega
        obtain ⟨ps, hsrc, hres, hcont, hocc⟩ := ih rest hrest
        refine ⟨Piece.marked c :: ps, ?_, ?_, ?_, ?_⟩
        · rw [sourceOf_cons, hsrc, hcode]; rfl
        · rw [hcode, transform_marked c rest hc, resultOf_cons, hres]; rfl
        · intro content hmem
          rcases List.mem_cons.1 hmem with h | h
          · cases h; exact hc
          · exact hcont content h
        · intro pre s hps hs
          rw [hcode] at hps
          have shift : ∀ c', pre = markedText c ++ c' → rest = c' ++ s →
              (∃ ps₁ c2 ps₂, Piece.marked c :: ps = ps₁ ++ Piece.marked c2 :: ps₂
                  ∧ sourceOf ps₁ = pre ∧ s = sourceOf (Piece.marked c2 :: ps₂))
              ∨ ∃ ps₁ c2 ps₂, Piece.marked c :: ps = ps₁ ++ Piece.marked c2 :: ps₂
                  ∧ (sourceOf ps₁).length < pre.length
                  ∧ pre.length < (sourceOf ps₁ ++ markedText c2).length := by
            intro c' hpre hr
            rcases hocc c' s hr hs with ⟨ps₁, c2, ps₂, h1, h2, h3⟩ | ⟨ps₁, c2, ps₂, h1, h2, h3⟩
            · left
              refine ⟨Piece.marked c :: ps₁, c2, ps₂, by rw [h1]; rfl, ?_, h3⟩
              rw [sourceOf_cons, h2, hpre]; rfl
            · right
              refine ⟨Piece.marked c :: ps₁, c2, ps₂, by rw [h1]; rfl, ?_, ?_⟩
              · rw [sourceOf_cons, hpre]
                simp only [List.length_append, Piece.source]
                omega
              · rw [sourceOf_cons, hpre]
                simp only [List.length_append, Piece.source] at h3 ⊢
                omega
          rcases List.append_eq_append_iff.1 hps.symm with ⟨a', h1, h2⟩ | ⟨c', h1, h2⟩
          · cases a' with
            | nil =>
              rw [List.append_nil] at h1
              exact shift [] (by rw [List.append_nil, h1]) (by rw [h2]; rfl)
            | cons x xs =>
              cases pre with
              | nil =>
                left
                refine ⟨[], c, ps, rfl, rfl, ?_⟩
                rw [sourceOf_cons, hsrc, h2]
                simp only [List.nil_append] at h1
                rw [← h1]; rfl
              | cons y ys =>
                right
                refine ⟨[], c, ps, rfl, ?_, ?_⟩
                · simp [sourceOf_nil]
                · rw [sourceOf_nil, List.nil_append, h1]
                  simp
          · exact shift c' h1 h2
      · have hds : ds.length ≤ n := by
          simp only [List.length_cons] at hlen
          omega
        obtain ⟨ps, hsrc, hres, hcont, hocc⟩ := ih ds hds
        refine ⟨Piece.keep d :: ps, ?_, ?_, ?_, ?_⟩
        · rw [sourceOf_cons, hsrc]; rfl
        · rw [transform_keep d ds hM, resultOf_cons, hres]; rfl
        · intro content hmem
          rcases List.mem_cons.1 hmem with h | h
          · cases h
          · exact hcont content h
        · intro pre s hps hs
          cases pre with
          | nil =>
            simp only [List.nil_append] at hps
            rw [← hps] at hs
            exact absurd hs hM
          | cons y ys =>
            simp only [List.cons_append, List.cons.injEq] at hps
            rcases hocc ys s hps.2 hs with ⟨ps₁, c2, ps₂, h1, h2, h3⟩ | ⟨ps₁, c2, ps₂, h1, h2, h3⟩
            · left
              refine ⟨Piece.keep d :: ps₁, c2, ps₂, by rw [h1]; rfl, ?_, h3⟩
              rw [sourceOf_cons, h2, hps.1]; rfl
            · right
              refine ⟨Piece.keep d :: ps₁, c2, ps₂, by rw [h1]; rfl, ?_, ?_⟩
              · rw [sourceOf_cons]
                simp only [List.length_append, Piece.source, List.length_cons, List.length_nil]
                omega
              · rw [sourceOf_cons]
                simp only [List.length_append, Piece.source, List.length_cons,
                  List.length_nil] at h3 ⊢
                omega

/-- A source in which no marked literal starts is returned unchanged. -/
theorem transform_quiet : ∀ code : Str, (∀ pre s, code = pre ++ s → ¬ StartsMarked s) →
    Preprocessor.transformListComprehension code = code
  | [], _ => transform_nil
  | d :: ds, h => by
    rw [transform_keep d ds (h [] (d :: ds) rfl),
      transform_quiet ds (fun pre s hps => h (d :: pre) s (by rw [hps]; rfl))]

/-- C14 (amended): the source is a sequence of pieces, each a kept character or a
processed marked literal with a non-empty backtick-free content, and the result is
the same sequence with every processed literal replaced by what the callback
returns for it; a marked literal of the source is a processed piece unless it
starts strictly inside a processed piece (the scan resumes after a processed
literal, so a literal that overlaps an earlier one is skipped); a source in which no
marked literal starts is returned unchanged. -/
theorem preprocessor_frame (code : Str) :
    (∃ ps : List Piece, sourceOf ps = code
      ∧ Preprocessor.transformListComprehension code = resultOf ps
      ∧ (∀ content, Piece.marked content ∈ ps → IsContent content)
      ∧ ∀ pre s, code = pre ++ s → StartsMarked s →
          (∃ ps₁ c ps₂, ps = ps₁ ++ Piece.marked c :: ps₂ ∧ sourceOf ps₁ = pre
            ∧ s = sourceOf (Piece.marked c :: ps₂))
          ∨ ∃ ps₁ c ps₂, ps = ps₁ ++ Piece.marked c :: ps₂
              ∧ (sourceOf ps₁).length < pre.length
              ∧ pre.length < (sourceOf ps₁ ++ markedText c).length)
    ∧ ((∀ pre s, code = pre ++ s → ¬ StartsMarked s) →
        Preprocessor.transformListComprehension code = code) :=
  ⟨pieces_exist code.length code (Nat.le_refl _), transform_quiet code⟩

/-- An instance of C14: the source `let a = 1;` has no backtick, so no marked
literal starts in it, and it is returned unchanged. -/
theorem preprocessor_frame_witness :
    Preprocessor.transformListComprehension "let a = 1;".toList = "let a = 1;".toList :=
  (preprocessor_frame "let a = 1;".toList).2 (by
    rintro pre s hps ⟨c, rest, _, hs⟩
    have hmem : '\x60' ∈ "let a = 1;".toList := by
      rw [hps, hs, markedText]
      simp
    revert hmem
    decide)

/-- C14 as stated fails: in this source the marked literal with content
`y for (c of d)` is an occurrence (on its own it is rewritten to `(d).map(c => y)`),
but its marker lies inside the earlier marked literal, whose closing backtick is its
opening one; the first literal is processed, the second is not, and its marker is
not preserved. -/
theorem preprocessor_frame_counterexample :
    IsContent "y for (c of d)".toList
      ∧ "/*list*/\x60x for (a of b)/*list*/\x60y for (c of d)\x60".toList
          = "/*list*/\x60x for (a of b)".toList ++ markedText "y for (c of d)".toList
      ∧ Preprocessor.transformListComprehension (markedText "y for (c of d)".toList)
          = "(d).map(c => y)".toList
      ∧ Preprocessor.transformListComprehension
          "/*list*/\x60x for (a of b)/*list*/\x60y for (c of d)\x60".toList
          = "(b).map(a => x)y for (c of d)\x60".toList := by
  decide

/-! ## The preprocessor applied twice -/

theorem varName_no_backtick (v : Str) (h : '\x60' ∉ v) : '\x60' ∉ Preprocessor.varName v := by
  unfold Preprocessor.varName
  split
  · simp only [List.mem_append, not_or]
    exact ⟨⟨by decide, h⟩, by decide⟩
  · exact h

theorem filterPart_no_backtick (name : Str) (condition : Option Str) (hn : '\x60' ∉ name)
    (hc : ∀ c, condition = some c → '\x60' ∉ c) :
    '\x60' ∉ Preprocessor.filterPart name condition := by
  unfold Preprocessor.filterPart
  split
  · simp only [List.mem_append, not_or]
    refine ⟨⟨⟨⟨by decide, hn⟩, by decide⟩, ?_⟩, by decide⟩
    cases condition with
    | none => simp
    | some c => exact hc c rfl
  · simp

/-- The callback returns either the marked literal itself or a text without a
backtick that starts with `(` and ends with `)`. -/
theorem callback_cases (c : Str) (hc : IsContent c) :
    Preprocessor.replaceCallback (markedText c) c = markedText c
      ∨ ∃ body, Preprocessor.replaceCallback (markedText c) c = '(' :: (body ++ [')'])
          ∧ '\x60' ∉ body := by
  cases h : parseComprehension c with
  | none => exact Or.inl (replaceCallback_none _ _ h)
  | some p =>
    obtain ⟨e, cls⟩ := p
    obtain ⟨he, hcls⟩ := parseComprehension_not_mem c e cls '\x60' h hc.2
    rcases cls with _ | ⟨cl1, _ | ⟨cl2, _ | ⟨cl3, cls⟩⟩⟩
    · exact Or.inl (replaceCallback_other _ _ e [] h (by simp) (by simp))
    · right
      obtain ⟨h1, h2, h3⟩ := hcls cl1 (by simp)
      refine ⟨cl1.iterable ++ ")".toList
          ++ Preprocessor.filterPart (Preprocessor.varName cl1.loopVar) cl1.condition
          ++ ".map(".toList ++ Preprocessor.varName cl1.loopVar ++ " => ".toList ++ e, ?_, ?_⟩
      · rw [replaceCallback_one _ _ e cl1 h]
        simp [List.append_assoc]
      · have hv := varName_no_backtick _ h1
        have hf := filterPart_no_backtick _ cl1.condition hv h3
        simp only [List.mem_append, not_or, and_assoc]
        exact ⟨h2, by decide, hf, by decide, hv, by decide, he⟩
    · right
      obtain ⟨h1, h2, h3⟩ := hcls cl1 (by simp)
      obtain ⟨k1, k2, k3⟩ := hcls cl2 (by simp)
      refine ⟨cl1.iterable ++ ")".toList
          ++ Preprocessor.filterPart (Preprocessor.varName cl1.loopVar) cl1.condition
          ++ ".flatMap(".toList ++ Preprocessor.varName cl1.loopVar ++ " => (".toList
          ++ cl2.iterable ++ ")".toList
          ++ Preprocessor.filterPart (Preprocessor.varName cl2.loopVar) cl2.condition
          ++ ".map(".toList ++ Preprocessor.varName cl2.loopVar ++ " => ".toList ++ e
          ++ ")".toList, ?_, ?_⟩
      · rw [replaceCallback_two _ _ e cl1 cl2 h]
        simp [List.append_assoc]
      · have hv := varName_no_backtick _ h1
        have hf := filterPart_no_backtick _ cl1.condition hv h3
        have kv := varName_no_backtick _ k1
        have kf := filterPart_no_backtick _ cl2.condition kv k3
        simp only [List.mem_append, not_or, and_assoc]
        exact ⟨h2, by decide, hf, by decide, hv, by decide, k2, by decide, kf, by decide, kv,
          by decide, he, by decide⟩
    · exact Or.inl (replaceCallback_other _ _ e _ h (by simp) (by simp))

/-- No marked literal starts inside a text without a backtick that ends with `)`,
whatever follows the text. -/
theorem not_startsMarked_inside (t y : Str) (ht : '\x60' ∉ t) :
    ¬ StartsMarked (t ++ ')' :: y) := by
  rintro ⟨c, rest, _, h⟩
  have h' : t ++ ')' :: y = "/*list*/".toList ++ '\x60' :: (c ++ ("\x60".toList ++ rest)) := by
    rw [h, markedText]
    simp [List.append_assoc]
  rcases List.append_eq_append_iff.1 h' with ⟨a', h1, h2⟩ | ⟨c', h1, h2⟩
  · cases a' with
    | nil =>
      simp only [List.nil_append, List.cons.injEq] at h2
      exact absurd h2.1 (by decide)
    | cons x xs =>
      simp only [List.cons_append, List.cons.injEq] at h2
      have hmem : ')' ∈ "/*list*/".toList := by
        rw [h1, ← h2.1]
        simp
      revert hmem
      decide
  · cases c' with
    | nil =>
      simp only [List.nil_append, List.cons.injEq] at h2
      exact absurd h2.1 (by decide)
    | cons x xs =>
      simp only [List.cons_append, List.cons.injEq] at h2
      apply ht
      rw [h1, ← h2.1]
      simp

/-- The preprocessor keeps a text without a backtick that ends with `)`, whatever
follows it. -/
theorem transform_rewritten : ∀ (body y : Str), '\x60' ∉ body →
    Preprocessor.transformListComprehension (body ++ ')' :: y)
      = body ++ ')' :: Preprocessor.transformListComprehension y
  | [], y, _ => by
    have := not_startsMarked_inside [] y (by simp)
    exact transform_keep ')' y this
  | b :: bs, y, hb => by
    have hM := not_startsMarked_inside (b :: bs) y hb
    rw [List.cons_append] at hM ⊢
    rw [transform_keep b _ hM, transform_rewritten bs y (fun h => hb (by simp [h]))]
    rfl

theorem not_startsMarked_of_no_backtick (s : Str) (h : '\x60' ∉ s) : ¬ StartsMarked s := by
  rintro ⟨c, rest, _, hs⟩
  apply h
  rw [hs, markedText]
  simp

/-- A source without a backtick is returned unchanged. -/
theorem transform_no_backtick (s : Str) (h : '\x60' ∉ s) :
    Preprocessor.transformListComprehension s = s := by
  apply transform_quiet
  intro pre t hs
  apply not_startsMarked_of_no_backtick
  intro hm
  apply h
  rw [hs]
  simp [hm]

theorem startsMarked_head (d : Char) (ds : Str) (h : StartsMarked (d :: ds)) : d = '/' := by
  obtain ⟨c, rest, _, hs⟩ := h
  rw [markedText] at hs
  simp only [String.toList, List.cons_append, List.cons.injEq] at hs
  exact hs.1

/-- A result that starts with a character other than `(` and `/` comes from a
source that starts with this character, kept. -/
theorem transform_head_inv (s out : Str) (x : Char)
    (hT : Preprocessor.transformListComprehension s = x :: out)
    (h1 : x ≠ '(') (h2 : x ≠ '/') :
    ∃ s', s = x :: s' ∧ Preprocessor.transformListComprehension s' = out := by
  cases s with
  | nil => rw [transform_nil] at hT; cases hT
  | cons d ds =>
    by_cases hM : StartsMarked (d :: ds)
    · exfalso
      obtain ⟨c, rest, hc, hs⟩ := hM
      rw [hs, transform_marked c rest hc] at hT
      rcases callback_cases c hc with hR | ⟨body, hR, _⟩
      · rw [hR, markedText] at hT
        simp only [String.toList, List.cons_append, List.cons.injEq] at hT
        exact h2 hT.1.symm
      · rw [hR] at hT
        simp only [List.cons_append, List.cons.injEq] at hT
        exact h1 hT.1.symm
    · rw [transform_keep d ds hM] at hT
      simp only [List.cons.injEq] at hT
      exact ⟨ds, by rw [hT.1], hT.2⟩

theorem first_occurrence (ch : Char) : ∀ s : Str, ch ∈ s →
    ∃ a b, s = a ++ ch :: b ∧ ch ∉ a
  | [], h => by simp at h
  | x :: xs, h => by
    by_cases hx : x = ch
    · exact ⟨[], xs, by rw [hx]; rfl, by simp⟩
    · have hxs : ch ∈ xs := by
        rcases List.mem_cons.1 h with h | h
        · exact absurd h.symm hx
        · exact h
      obtain ⟨a, b, hab, ha⟩ := first_occurrence ch xs hxs
      refine ⟨x :: a, b, by rw [hab]; rfl, ?_⟩
      intro hm
      rcases List.mem_cons.1 hm with h | h
      · exact hx h.symm
      · exact ha h

/-- A result that starts with a non-empty text without a backtick and then a
backtick comes from a source of the same shape. -/
theorem transform_content_inv (s c rest : Str) (hc : IsContent c)
    (hT : Preprocessor.transformListComprehension s = c ++ '\x60' :: rest) :
    ∃ c' rest', IsContent c' ∧ s = c' ++ '\x60' :: rest' := by
  have hmem : '\x60' ∈ s := by
    by_contra hn
    rw [transform_no_backtick s hn] at hT
    apply hn
    rw [hT]
    simp
  obtain ⟨a, b, hab, ha⟩ := first_occurrence '\x60' s hmem
  refine ⟨a, b, ⟨?_, ha⟩, hab⟩
  intro hnil
  rw [hnil, List.nil_append] at hab
  have hM : ¬ StartsMarked ('\x60' :: b) := fun h =>
    absurd (startsMarked_head _ _ h) (by decide)
  rw [hab, transform_keep _ _ hM] at hT
  obtain ⟨hc1, hc2⟩ := hc
  cases c with
  | nil => exact hc1 rfl
  | cons x xs =>
    simp only [List.cons_append, List.cons.injEq] at hT
    apply hc2
    rw [← hT.1]
    simp

/-- A marked literal that starts at a kept character of the result starts at the
same character of the source: the preprocessor creates no marked literal. -/
theorem startsMarked_of_result (d : Char) (ds : Str)
    (h : StartsMarked (d :: Preprocessor.transformListComprehension ds)) :
    StartsMarked (d :: ds) := by
  obtain ⟨c, rest, hc, hs⟩ := h
  rw [markedText] at hs
  simp only [String.toList, List.cons_append, List.cons.injEq, List.nil_append,
    List.append_assoc] at hs
  obtain ⟨hd, hT⟩ := hs
  obtain ⟨s1, e1, hT⟩ := transform_head_inv _ _ _ hT (by decide) (by decide)
  obtain ⟨s2, e2, hT⟩ := transform_head_inv _ _ _ hT (by decide) (by decide)
  obtain ⟨s3, e3, hT⟩ := transform_head_inv _ _ _ hT (by decide) (by decide)
  obtain ⟨s4, e4, hT⟩ := transform_head_inv _ _ _ hT (by decide) (by decide)
  obtain ⟨s5, e5, hT⟩ := transform_head_inv _ _ _ hT (by decide) (by decide)
  obtain ⟨s6, e6, hT⟩ := transform_head_inv _ _ _ hT (by decide) (by decide)
  have hslash : ∃ s7, s6 = '/' :: s7
      ∧ Preprocessor.transformListComprehension s7 = '\x60' :: (c ++ '\x60' :: rest) := by
    cases s6 with
    | nil => rw [transform_nil] at hT; cases hT
    | cons x xs =>
      by_cases hM : StartsMarked (x :: xs)
      · exfalso
        obtain ⟨c', rest', hc', hs'⟩ := hM
        rw [hs', transform_marked c' rest' hc'] at hT
        rcases callback_cases c' hc' with hR | ⟨body, hR, _⟩
        · rw [hR, markedText] at hT
          simp only [String.toList, List.cons_append, List.cons.injEq] at hT
          exact absurd hT.2.1 (by decide)
        · rw [hR] at hT
          simp only [List.cons_append, List.cons.injEq] at hT
          exact absurd hT.1 (by decide)
      · rw [transform_keep x xs hM] at hT
        simp only [List.cons.injEq] at hT
        exact ⟨xs, by rw [hT.1], hT.2⟩
  obtain ⟨s7, e7, hT⟩ := hslash
  obtain ⟨s8, e8, hT⟩ := transform_head_inv _ _ _ hT (by decide) (by decide)
  obtain ⟨c', rest', hc', e9⟩ := transform_content_inv s8 c rest hc hT
  refine ⟨c', rest', hc', ?_⟩
  rw [hd, e1, e2, e3, e4, e5, e6, e7, e8, e9, markedText]
  simp [List.append_assoc]

/-- The preprocessor applied to its own result returns that result. -/
theorem transform_twice : ∀ (n : Nat) (s : Str), s.length ≤ n →
    Preprocessor.transformListComprehension (Preprocessor.transformListComprehension s)
      = Preprocessor.transformListComprehension s := by
  intro n
  induction n with
  | zero =>
    intro s hlen
    have hnil : s = [] := List.length_eq_zero.1 (Nat.le_zero.1 hlen)
    subst hnil
    rfl
  | succ n ih =>
    intro s hlen
    cases s with
    | nil => rfl
    | cons d ds =>
      by_cases hM : StartsMarked (d :: ds)
      · obtain ⟨c, rest, hc, hs⟩ := hM
        have hrest : rest.length ≤ n := by
          have := congrArg List.length hs
          rw [List.length_append, markedText_length] at this
          simp only [List.length_cons] at this hlen
          omega
        rw [hs, transform_marked c rest hc]
        rcases callback_cases c hc with hR | ⟨body, hR, hb⟩
        · rw [hR, transform_marked c _ hc, hR, ih rest hrest]
        · rw [hR, List.cons_append, List.append_assoc, List.singleton_append,
            ← List.cons_append, transform_rewritten ('(' :: body) _ (by
              intro hm
              rcases List.mem_cons.1 hm with h | h
              · exact absurd h (by decide)
              · exact hb h), ih rest hrest]
      · have hds : ds.length ≤ n := by
          simp only [List.length_cons] at hlen
          omega
        rw [transform_keep d ds hM,
          transform_keep d _ (fun h => hM (startsMarked_of_result d ds h)), ih ds hds]

/-- C19: the preprocessor applied to its own result returns that result; for a
marked literal with content `c`, either the callback leaves the literal as it is,
and then the literal is kept in front of any text `y`, in the first pass as in the
second, or the text it writes has no backtick and ends with `)`, no marked literal
starts inside that text whatever follows it, and a further pass keeps the text. -/
theorem preprocessor_idempotent (code c y : Str) (hc : IsContent c) :
    Preprocessor.transformListComprehension (Preprocessor.transformListComprehension code)
        = Preprocessor.transformListComprehension code
      ∧ (Preprocessor.replaceCallback (markedText c) c = markedText c
          ∧ Preprocessor.transformListComprehension (markedText c ++ y)
              = markedText c ++ Preprocessor.transformListComprehension y
        ∨ '\x60' ∉ Preprocessor.replaceCallback (markedText c) c
          ∧ (Preprocessor.replaceCallback (markedText c) c).getLast? = some ')'
          ∧ (∀ p t, Preprocessor.replaceCallback (markedText c) c = p ++ t → t ≠ [] →
              ¬ StartsMarked (t ++ y))
          ∧ Preprocessor.transformListComprehension
                (Preprocessor.replaceCallback (markedText c) c ++ y)
              = Preprocessor.replaceCallback (markedText c) c
                  ++ Preprocessor.transformListComprehension y) := by
  refine ⟨transform_twice code.length code (Nat.le_refl _), ?_⟩
  rcases callback_cases c hc with hR | ⟨body, hR, hb⟩
  · left
    refine ⟨hR, ?_⟩
    rw [transform_marked c y hc, hR]
  · right
    have hb' : '\x60' ∉ '(' :: body := by
      intro hm
      rcases List.mem_cons.1 hm with h | h
      · exact absurd h (by decide)
      · exact hb h
    rw [hR]
    refine ⟨?_, ?_, ?_, ?_⟩
    · intro hm
      rcases List.mem_cons.1 hm with h | h
      · exact absurd h (by decide)
      · rcases List.mem_append.1 h with h | h
        · exact hb h
        · revert h
          decide
    · rw [← List.cons_append, List.getLast?_append]
      rfl
    · intro p t hpt ht
      rw [← List.cons_append] at hpt
      rcases List.append_eq_append_iff.1 hpt with ⟨a', h1, h2⟩ | ⟨c', h1, h2⟩
      · cases a' with
        | nil =>
          rw [List.nil_append] at h2
          rw [← h2]
          exact not_startsMarked_inside [] y (by simp)
        | cons x xs =>
          simp only [List.cons_append, List.cons.injEq] at h2
          have := (List.append_eq_nil.1 h2.2.symm).2
          exact absurd this ht
      · rw [h2, List.append_assoc]
        apply not_startsMarked_inside
        intro hm
        apply hb'
        rw [h1]
        simp [hm]
    · rw [← List.cons_append, List.append_assoc, List.append_assoc]
      exact transform_rewritten ('(' :: body) y hb'

/-- An instance of C19: a source with a comprehension that is rewritten and a marked
literal that is left as it is; the second pass returns the result of the first. -/
theorem preprocessor_idempotent_witness :
    IsContent "x * x for (x of numbers)".toList
      ∧ Preprocessor.transformListComprehension (Preprocessor.transformListComprehension
          "a = /*list*/\x60x * x for (x of numbers)\x60; b = /*list*/\x60x\x60;".toList)
        = Preprocessor.transformListComprehension
          "a = /*list*/\x60x * x for (x of numbers)\x60; b = /*list*/\x60x\x60;".toList :=
  ⟨by decide,
    (preprocessor_idempotent
      "a = /*list*/\x60x * x for (x of numbers)\x60; b = /*list*/\x60x\x60;".toList
      "x * x for (x of numbers)".toList ";".toList (by decide)).1⟩

/-! ## The chain generator with the checks of the builders -/

/-- The chain generator on one clause, as a sequence of steps. -/
theorem checked_one_steps (babel : Checked.Babel ε α) (e v it : Str) (c : Option Str) :
    Checked.transformListComprehension babel e [⟨v, it, c⟩]
      = ((babel.parseExpression it).mapError Failure.thrown >>= fun o =>
          (babel.parseExpression e).mapError Failure.thrown >>= fun oe =>
          Checked.makeParam babel v >>= fun q =>
          Checked.arrowFunctionExpression [q] (oe.map Node.parsed) >>= fun cb =>
          (Checked.callMember babel o q c "map".toList cb).map some) := by
  simp only [Checked.transformListComprehension, Checked.callMember, bind, Except.bind, pure,
    Except.pure, Except.map, Except.mapError]
  cases babel.parseExpression it with
  | error err => rfl
  | ok o =>
    cases babel.parseExpression e with
    | error err => rfl
    | ok oe =>
      cases Checked.makeParam babel v with
      | error err => rfl
      | ok q =>
        simp only
        cases (Checked.arrowFunctionExpression [q] (oe.map Node.parsed) :
            Except (Failure ε) (Node α)) with
        | error err => rfl
        | ok cb =>
          cases truthy c with
          | false =>
            simp only [Bool.false_eq_true, if_false]
            cases (Checked.memberExpression (o.map Node.parsed) (.identifier "map".toList) :
              Except (Failure ε) (Node α)) <;> rfl
          | true =>
            simp only [if_true]
            cases babel.parseExpression (c.getD []) with
            | error err => rfl
            | ok oc =>
              simp only
              cases (Checked.arrowFunctionExpression [q] (oc.map Node.parsed) :
                Except (Failure ε) (Node α)) with
              | error err => rfl
              | ok fcb =>
                simp only
                cases (Checked.memberExpression (o.map Node.parsed)
                  (.identifier "filter".toList) : Except (Failure ε) (Node α)) with
                | error err => rfl
                | ok fm => rfl

/-- The chain generator on two clauses, as a sequence of steps. -/
theorem checked_two_steps (babel : Checked.Babel ε α) (e v1 it1 v2 it2 : Str)
    (c1 c2 : Option Str) :
    Checked.transformListComprehension babel e [⟨v1, it1, c1⟩, ⟨v2, it2, c2⟩]
      = ((babel.parseExpression it1).mapError Failure.thrown >>= fun o1 =>
          (babel.parseExpression it2).mapError Failure.thrown >>= fun o2 =>
          (babel.parseExpression e).mapError Failure.thrown >>= fun oe =>
          Checked.makeParam babel v1 >>= fun q1 =>
          Checked.makeParam babel v2 >>= fun q2 =>
          Checked.arrowFunctionExpression [q2] (oe.map Node.parsed) >>= fun cb =>
          Checked.callMember babel o2 q2 c2 "map".toList cb >>= fun inner =>
          Checked.arrowFunctionExpression [q1] (some inner) >>= fun fcb =>
          (Checked.callMember babel o1 q1 c1 "flatMap".toList fcb).map some) := by
  simp only [Checked.transformListComprehension, Checked.callMember, bind, Except.bind, pure,
    Except.pure, Except.map, Except.mapError]
  cases babel.parseExpression it1 <;> try rfl
  cases babel.parseExpression it2 <;> try rfl
  cases babel.parseExpression e <;> try rfl
  cases Checked.makeParam babel v1 <;> try rfl
  cases Checked.makeParam babel v2 <;> try rfl
  rename_i o1 o2 oe q1 q2
  cases q2 <;> try rfl
  cases oe <;> try rfl
  cases truthy c2
  · cases o2 <;> try rfl
    cases q1 <;> try rfl
    cases truthy c1
    · cases o1 <;> rfl
    · cases babel.parseExpression (c1.getD []) <;> try rfl
      rename_i oc1
      cases oc1 <;> try rfl
      cases o1 <;> rfl
  · cases babel.parseExpression (c2.getD []) <;> try rfl
    rename_i oc2
    cases oc2 <;> try rfl
    cases o2 <;> try rfl
    cases q1 <;> try rfl
    cases truthy c1
    · cases o1 <;> rfl
    · cases babel.parseExpression (c1.getD []) <;> try rfl
      rename_i oc1
      cases oc1 <;> try rfl
      cases o1 <;> rfl

theorem conditionRequests_truthy (c : Option Str) (h : truthy c = true) :
    conditionRequests c = [.expression (c.getD [])] := by
  rcases c with _ | _ | ⟨d, ds⟩
  · cases h
  · cases h
  · rfl

theorem conditionRequests_falsy (c : Option Str) (h : truthy c = false) :
    conditionRequests c = [] := by
  rcases c with _ | _ | ⟨d, ds⟩
  · rfl
  · rfl
  · cases h

/-- The parameter of a clause and the request it comes from: a node, or `undefined`
returned by the request, or the error of the request. -/
theorem checked_makeParam_trace (babel : Checked.Babel ε α) (v : Str) :
    (∃ p, Checked.makeParam babel v = .ok (some p)
        ∧ ∀ r ∈ paramRequests v, ∃ a, babel.answer r = .ok (some a))
      ∨ (Checked.makeParam babel v = .ok none
        ∧ ∃ r ∈ paramRequests v, babel.answer r = .ok none)
      ∨ ∃ err, Checked.makeParam babel v = .error (.thrown err)
        ∧ ∃ r ∈ paramRequests v, babel.answer r = .error err := by
  by_cases hd : (includes v '[' || includes v '\x7b') = true
  · simp only [Checked.makeParam, paramRequests, hd, if_true, List.mem_singleton, exists_eq_left,
      forall_eq, Checked.Babel.answer, bind, Except.bind, pure, Except.pure, Except.mapError]
    cases babel.parseFirstParam ("(".toList ++ v ++ ") => \x7b\x7d".toList) with
    | error err => exact Or.inr (Or.inr ⟨err, rfl, rfl⟩)
    | ok o =>
      cases o with
      | none => exact Or.inr (Or.inl ⟨rfl, rfl⟩)
      | some a => exact Or.inl ⟨_, rfl, a, rfl⟩
  · left
    refine ⟨.identifier v, ?_, ?_⟩
    · simp only [Checked.makeParam, hd, if_false, pure, Except.pure]
      rfl
    · intro r hr
      simp [paramRequests, hd] at hr

/-- The call of a member on an iterable, with the parameter `p`: a node, when the
iterable is a node and the condition, if any, parses to a node; a `TypeError`, when
the iterable or the parsed condition is `undefined`; or the error of the parse of
the condition. -/
theorem checked_callMember_trace (babel : Checked.Babel ε α) (o : Option α) (p : Node α)
    (c : Option Str) (name : Str) (cb : Node α) :
    (∃ n, Checked.callMember babel o (some p) c name cb = .ok n ∧ (∃ a, o = some a)
        ∧ ∀ r ∈ conditionRequests c, ∃ t, babel.answer r = .ok (some t))
      ∨ (Checked.callMember babel o (some p) c name cb = .error .typeError
        ∧ (o = none ∨ ∃ r ∈ conditionRequests c, babel.answer r = .ok none))
      ∨ ∃ err, Checked.callMember babel o (some p) c name cb = .error (.thrown err)
        ∧ ∃ r ∈ conditionRequests c, babel.answer r = .error err := by
  cases htc : truthy c with
  | false =>
    simp only [Checked.callMember, htc, Bool.false_eq_true, if_false,
      conditionRequests_falsy c htc]
    cases o with
    | none => exact Or.inr (Or.inl ⟨rfl, Or.inl rfl⟩)
    | some a => exact Or.inl ⟨_, rfl, ⟨a, rfl⟩, fun r hr => by simp at hr⟩
  | true =>
    simp only [Checked.callMember, htc, if_true, conditionRequests_truthy c htc,
      List.mem_singleton, exists_eq_left, forall_eq, Checked.Babel.answer, bind, Except.bind,
      Except.mapError]
    cases babel.parseExpression (c.getD []) with
    | error err => exact Or.inr (Or.inr ⟨err, rfl, rfl⟩)
    | ok oc =>
      cases oc with
      | none => exact Or.inr (Or.inl ⟨rfl, Or.inr rfl⟩)
      | some t =>
        cases o with
        | none => exact Or.inr (Or.inl ⟨rfl, Or.inl rfl⟩)
        | some a => exact Or.inl ⟨_, rfl, ⟨a, rfl⟩, t, rfl⟩

theorem mem_requests_one (e : Str) (cl : Clause) (r : Request) :
    r ∈ requests e [cl] ↔ r = .expression cl.iterable ∨ r = .expression e
      ∨ r ∈ paramRequests cl.loopVar ∨ r ∈ conditionRequests cl.condition := by
  simp [requests]

theorem mem_requests_two (e : Str) (cl1 cl2 : Clause) (r : Request) :
    r ∈ requests e [cl1, cl2] ↔ r = .expression cl1.iterable ∨ r = .expression cl2.iterable
      ∨ r = .expression e ∨ r ∈ paramRequests cl1.loopVar ∨ r ∈ paramRequests cl2.loopVar
      ∨ r ∈ conditionRequests cl2.condition ∨ r ∈ conditionRequests cl1.condition := by
  simp [requests, or_assoc]

theorem checked_makeParam_error (babel : Checked.Babel ε α) (v : Str) (f : Failure ε)
    (h : Checked.makeParam babel v = .error f) :
    ∃ err, f = .thrown err ∧ ∃ r ∈ paramRequests v, babel.answer r = .error err := by
  rcases checked_makeParam_trace babel v with ⟨p, hp, _⟩ | ⟨hp, _⟩ | ⟨err, hp, hr⟩
  · rw [hp] at h; cases h
  · rw [hp] at h; cases h
  · rw [hp] at h
    cases h
    exact ⟨err, rfl, hr⟩

theorem checked_makeParam_none (babel : Checked.Babel ε α) (v : Str)
    (h : Checked.makeParam babel v = .ok none) :
    ∃ r ∈ paramRequests v, babel.answer r = .ok none := by
  rcases checked_makeParam_trace babel v with ⟨p, hp, _⟩ | ⟨_, hr⟩ | ⟨err, hp, _⟩
  · rw [hp] at h; cases h
  · exact hr
  · rw [hp] at h; cases h

theorem checked_makeParam_some (babel : Checked.Babel ε α) (v : Str) (p : Node α)
    (h : Checked.makeParam babel v = .ok (some p)) :
    ∀ r ∈ paramRequests v, ∃ a, babel.answer r = .ok (some a) := by
  rcases checked_makeParam_trace babel v with ⟨p', _, hr⟩ | ⟨hp, _⟩ | ⟨err, hp, _⟩
  · exact hr
  · rw [hp] at h; cases h
  · rw [hp] at h; cases h

/-- The outcome of the chain generator on one clause: a tree, and every request
has returned a node; or a `TypeError`, and a request has returned `undefined`; or
the error of a request. -/
theorem checked_outcome_one (babel : Checked.Babel ε α) (e v it : Str) (c : Option Str)
    (R : Except (Failure ε) (Option (Node α))) :
    Checked.transformListComprehension babel e [⟨v, it, c⟩] = R →
    ((∃ tree, R = .ok (some tree))
        ∧ ∀ r ∈ requests e [⟨v, it, c⟩], ∃ a, babel.answer r = .ok (some a))
      ∨ (R = .error .typeError ∧ ∃ r ∈ requests e [⟨v, it, c⟩], babel.answer r = .ok none)
      ∨ ∃ err, R = .error (.thrown err)
          ∧ ∃ r ∈ requests e [⟨v, it, c⟩], babel.answer r = .error err := by
  have hm := mem_requests_one e ⟨v, it, c⟩
  rw [checked_one_steps]
  simp only [bind, Except.bind, Except.mapError]
  cases h1 : babel.parseExpression it with
  | error err =>
    intro hR
    exact Or.inr (Or.inr ⟨err, hR.symm, _, (hm _).2 (Or.inl rfl), h1⟩)
  | ok o =>
    cases h2 : babel.parseExpression e with
    | error err =>
      intro hR
      exact Or.inr (Or.inr ⟨err, hR.symm, _, (hm _).2 (Or.inr (Or.inl rfl)), h2⟩)
    | ok oe =>
      cases hq : Checked.makeParam babel v with
      | error f =>
        intro hR
        obtain ⟨err, rfl, r, hr, hra⟩ := checked_makeParam_error babel v f hq
        exact Or.inr (Or.inr ⟨err, hR.symm, r, (hm _).2 (Or.inr (Or.inr (Or.inl hr))), hra⟩)
      | ok q =>
        cases q with
        | none =>
          intro hR
          obtain ⟨r, hr, hra⟩ := checked_makeParam_none babel v hq
          exact Or.inr (Or.inl ⟨hR.symm, r, (hm _).2 (Or.inr (Or.inr (Or.inl hr))), hra⟩)
        | some p =>
          cases oe with
          | none =>
            intro hR
            exact Or.inr (Or.inl ⟨hR.symm, _, (hm _).2 (Or.inr (Or.inl rfl)), h2⟩)
          | some b =>
            simp only [Checked.arrowFunctionExpression, Checked.allNodes, Option.map]
            rcases checked_callMember_trace babel o p c "map".toList
                (.arrowFunctionExpression [p] (.parsed b))
              with ⟨n, hn, ⟨a, ha⟩, hcr⟩ | ⟨hn, hund⟩ | ⟨err, hn, r, hr, hra⟩
            · rw [hn]
              intro hR
              left
              refine ⟨⟨n, hR.symm⟩, ?_⟩
              intro r hr
              rcases (hm r).1 hr with rfl | rfl | hr | hr
              · exact ⟨a, by rw [← ha]; exact h1⟩
              · exact ⟨b, h2⟩
              · exact checked_makeParam_some babel v p hq r hr
              · exact hcr r hr
            · rw [hn]
              intro hR
              right; left
              refine ⟨hR.symm, ?_⟩
              rcases hund with ho | ⟨r, hr, hra⟩
              · exact ⟨_, (hm _).2 (Or.inl rfl), by rw [← ho]; exact h1⟩
              · exact ⟨r, (hm _).2 (Or.inr (Or.inr (Or.inr hr))), hra⟩
            · rw [hn]
              intro hR
              exact Or.inr (Or.inr ⟨err, hR.symm, r,
                (hm _).2 (Or.inr (Or.inr (Or.inr hr))), hra⟩)

/-- The outcome of the chain generator on two clauses: a tree, and every request
has returned a node; or a `TypeError`, and a request has returned `undefined`; or
the error of a request. -/
theorem checked_outcome_two (babel : Checked.Babel ε α) (e v1 it1 v2 it2 : Str)
    (c1 c2 : Option Str) (R : Except (Failure ε) (Option (Node α))) :
    Checked.transformListComprehension babel e [⟨v1, it1, c1⟩, ⟨v2, it2, c2⟩] = R →
    ((∃ tree, R = .ok (some tree))
        ∧ ∀ r ∈ requests e [⟨v1, it1, c1⟩, ⟨v2, it2, c2⟩], ∃ a, babel.answer r = .ok (some a))
      ∨ (R = .error .typeError
        ∧ ∃ r ∈ requests e [⟨v1, it1, c1⟩, ⟨v2, it2, c2⟩], babel.answer r = .ok none)
      ∨ ∃ err, R = .error (.thrown err)
          ∧ ∃ r ∈ requests e [⟨v1, it1, c1⟩, ⟨v2, it2, c2⟩], babel.answer r = .error err := by
  have hm := mem_requests_two e ⟨v1, it1, c1⟩ ⟨v2, it2, c2⟩
  have m1 : Request.expression it1 ∈ requests e [⟨v1, it1, c1⟩, ⟨v2, it2, c2⟩] :=
    (hm _).2 (Or.inl rfl)
  have m2 : Request.expression it2 ∈ requests e [⟨v1, it1, c1⟩, ⟨v2, it2, c2⟩] :=
    (hm _).2 (Or.inr (Or.inl rfl))
  have m3 : Request.expression e ∈ requests e [⟨v1, it1, c1⟩, ⟨v2, it2, c2⟩] :=
    (hm _).2 (Or.inr (Or.inr (Or.inl rfl)))
  have m4 : ∀ r ∈ paramRequests v1, r ∈ requests e [⟨v1, it1, c1⟩, ⟨v2, it2, c2⟩] :=
    fun r hr => (hm r).2 (Or.inr (Or.inr (Or.inr (Or.inl hr))))
  have m5 : ∀ r ∈ paramRequests v2, r ∈ requests e [⟨v1, it1, c1⟩, ⟨v2, it2, c2⟩] :=
    fun r hr => (hm r).2 (Or.inr (Or.inr (Or.inr (Or.inr (Or.inl hr)))))
  have m6 : ∀ r ∈ conditionRequests c2, r ∈ requests e [⟨v1, it1, c1⟩, ⟨v2, it2, c2⟩] :=
    fun r hr => (hm r).2 (Or.inr (Or.inr (Or.inr (Or.inr (Or.inr (Or.inl hr))))))
  have m7 : ∀ r ∈ conditionRequests c1, r ∈ requests e [⟨v1, it1, c1⟩, ⟨v2, it2, c2⟩] :=
    fun r hr => (hm r).2 (Or.inr (Or.inr (Or.inr (Or.inr (Or.inr (Or.inr hr))))))
  rw [checked_two_steps]
  simp only [bind, Except.bind, Except.mapError]
  cases h1 : babel.parseExpression it1 with
  | error err =>
    intro hR
    exact Or.inr (Or.inr ⟨err, hR.symm, _, m1, h1⟩)
  | ok o1 =>
  cases h2 : babel.parseExpression it2 with
  | error err =>
    intro hR
    exact Or.inr (Or.inr ⟨err, hR.symm, _, m2, h2⟩)
  | ok o2 =>
  cases h3 : babel.parseExpression e with
  | error err =>
    intro hR
    exact Or.inr (Or.inr ⟨err, hR.symm, _, m3, h3⟩)
  | ok oe =>
  cases hq1 : Checked.makeParam babel v1 with
  | error f =>
    intro hR
    obtain ⟨err, rfl, r, hr, hra⟩ := checked_makeParam_error babel v1 f hq1
    exact Or.inr (Or.inr ⟨err, hR.symm, r, m4 r hr, hra⟩)
  | ok q1 =>
  cases hq2 : Checked.makeParam babel v2 with
  | error f =>
    intro hR
    obtain ⟨err, rfl, r, hr, hra⟩ := checked_makeParam_error babel v2 f hq2
    exact Or.inr (Or.inr ⟨err, hR.symm, r, m5 r hr, hra⟩)
  | ok q2 =>
  cases q2 with
  | none =>
    intro hR
    obtain ⟨r, hr, hra⟩ := checked_makeParam_none babel v2 hq2
    exact Or.inr (Or.inl ⟨hR.symm, r, m5 r hr, hra⟩)
  | some p2 =>
  cases oe with
  | none =>
    intro hR
    exact Or.inr (Or.inl ⟨hR.symm, _, m3, h3⟩)
  | some b =>
  simp only [Checked.arrowFunctionExpression, Checked.allNodes, Option.map]
  rcases checked_callMember_trace babel o2 p2 c2 "map".toList
      (.arrowFunctionExpression [p2] (.parsed b))
    with ⟨inner, hn, ⟨a2, ha2⟩, hcr2⟩ | ⟨hn, hund⟩ | ⟨err, hn, r, hr, hra⟩
  · rw [hn]
    simp only
    cases q1 with
    | none =>
      intro hR
      obtain ⟨r, hr, hra⟩ := checked_makeParam_none babel v1 hq1
      exact Or.inr (Or.inl ⟨hR.symm, r, m4 r hr, hra⟩)
    | some p1 =>
    simp only [Checked.allNodes, Option.map]
    rcases checked_callMember_trace babel o1 p1 c1 "flatMap".toList
        (.arrowFunctionExpression [p1] inner)
      with ⟨n, hn1, ⟨a1, ha1⟩, hcr1⟩ | ⟨hn1, hund⟩ | ⟨err, hn1, r, hr, hra⟩
    · rw [hn1]
      intro hR
      left
      refine ⟨⟨n, hR.symm⟩, ?_⟩
      intro r hr
      rcases (hm r).1 hr with rfl | rfl | rfl | hr | hr | hr | hr
      · exact ⟨a1, by rw [← ha1]; exact h1⟩
      · exact ⟨a2, by rw [← ha2]; exact h2⟩
      · exact ⟨b, h3⟩
      · exact checked_makeParam_some babel v1 p1 hq1 r hr
      · exact checked_makeParam_some babel v2 p2 hq2 r hr
      · exact hcr2 r hr
      · exact hcr1 r hr
    · rw [hn1]
      intro hR
      right; left
      refine ⟨hR.symm, ?_⟩
      rcases hund with ho | ⟨r, hr, hra⟩
      · exact ⟨_, m1, by rw [← ho]; exact h1⟩
      · exact ⟨r, m7 r hr, hra⟩
    · rw [hn1]
      intro hR
      exact Or.inr (Or.inr ⟨err, hR.symm, r, m7 r hr, hra⟩)
  · rw [hn]
    intro hR
    right; left
    refine ⟨hR.symm, ?_⟩
    rcases hund with ho | ⟨r, hr, hra⟩
    · exact ⟨_, m2, by rw [← ho]; exact h2⟩
    · exact ⟨r, m6 r hr, hra⟩
  · rw [hn]
    intro hR
    exact Or.inr (Or.inr ⟨err, hR.symm, r, m6 r hr, hra⟩)

/-- The outcome of the chain generator on one or two clauses. -/
theorem checked_outcome (babel : Checked.Babel ε α) (e : Str) (cls : List Clause)
    (hlen : cls.length = 1 ∨ cls.length = 2) :
    ((∃ tree, Checked.transformListComprehension babel e cls = .ok (some tree))
        ∧ ∀ r ∈ requests e cls, ∃ a, babel.answer r = .ok (some a))
      ∨ (Checked.transformListComprehension babel e cls = .error .typeError
        ∧ ∃ r ∈ requests e cls, babel.answer r = .ok none)
      ∨ ∃ err, Checked.transformListComprehension babel e cls = .error (.thrown err)
          ∧ ∃ r ∈ requests e cls, babel.answer r = .error err := by
  rcases cls with _ | ⟨⟨v1, it1, c1⟩, _ | ⟨⟨v2, it2, c2⟩, _ | ⟨cl3, cls⟩⟩⟩
  · simp at hlen
  · exact checked_outcome_one babel e v1 it1 c1 _ rfl
  · exact checked_outcome_two babel e v1 it1 v2 it2 c1 c2 _ rfl
  · simp at hlen

theorem checked_makeParam_congr (babel babel' : Checked.Babel ε α) (v : Str)
    (h : ∀ r ∈ paramRequests v, babel'.answer r = babel.answer r) :
    Checked.makeParam babel' v = Checked.makeParam babel v := by
  by_cases hd : (includes v '[' || includes v '\x7b') = true
  · have := h (.firstParam ("(".toList ++ v ++ ") => \x7b\x7d".toList))
      (by simp [paramRequests, hd])
    simp only [Checked.Babel.answer] at this
    simp only [Checked.makeParam, hd, if_true, this]
  · simp only [Checked.makeParam, hd, Bool.false_eq_true, if_false]

theorem checked_callMember_congr (babel babel' : Checked.Babel ε α) (c : Option Str)
    (h : ∀ r ∈ conditionRequests c, babel'.answer r = babel.answer r) (o : Option α)
    (q : Option (Node α)) (name : Str) (cb : Node α) :
    Checked.callMember babel' o q c name cb = Checked.callMember babel o q c name cb := by
  cases htc : truthy c with
  | false => simp only [Checked.callMember, htc, Bool.false_eq_true, if_false]
  | true =>
    have := h (.expression (c.getD [])) (by simp [conditionRequests_truthy c htc])
    simp only [Checked.Babel.answer] at this
    simp only [Checked.callMember, htc, if_true, this]

/-- The outcome of the chain generator depends on the answers to the requests
only. -/
theorem checked_congr (babel babel' : Checked.Babel ε α) (e : Str) (cls : List Clause)
    (h : ∀ r ∈ requests e cls, babel'.answer r = babel.answer r) :
    Checked.transformListComprehension babel' e cls
      = Checked.transformListComprehension babel e cls := by
  rcases cls with _ | ⟨⟨v1, it1, c1⟩, _ | ⟨⟨v2, it2, c2⟩, _ | ⟨cl3, cls⟩⟩⟩
  · rfl
  · have hm := mem_requests_one e ⟨v1, it1, c1⟩
    have e1 : babel'.parseExpression it1 = babel.parseExpression it1 :=
      h _ ((hm _).2 (Or.inl rfl))
    have e2 : babel'.parseExpression e = babel.parseExpression e :=
      h _ ((hm _).2 (Or.inr (Or.inl rfl)))
    have e3 := checked_makeParam_congr babel babel' v1
      (fun r hr => h r ((hm r).2 (Or.inr (Or.inr (Or.inl hr)))))
    have e4 := checked_callMember_congr babel babel' c1
      (fun r hr => h r ((hm r).2 (Or.inr (Or.inr (Or.inr hr)))))
    rw [checked_one_steps, checked_one_steps]
    simp only [e1, e2, e3, e4]
  · have hm := mem_requests_two e ⟨v1, it1, c1⟩ ⟨v2, it2, c2⟩
    have e1 : babel'.parseExpression it1 = babel.parseExpression it1 :=
      h _ ((hm _).2 (Or.inl rfl))
    have e2 : babel'.parseExpression it2 = babel.parseExpression it2 :=
      h _ ((hm _).2 (Or.inr (Or.inl rfl)))
    have e3 : babel'.parseExpression e = babel.parseExpression e :=
      h _ ((hm _).2 (Or.inr (Or.inr (Or.inl rfl))))
    have e4 := checked_makeParam_congr babel babel' v1
      (fun r hr => h r ((hm r).2 (Or.inr (Or.inr (Or.inr (Or.inl hr))))))
    have e5 := checked_makeParam_congr babel babel' v2
      (fun r hr => h r ((hm r).2 (Or.inr (Or.inr (Or.inr (Or.inr (Or.inl hr)))))))
    have e6 := checked_callMember_congr babel babel' c2
      (fun r hr => h r ((hm r).2 (Or.inr (Or.inr (Or.inr (Or.inr (Or.inr (Or.inl hr))))))))
    have e7 := checked_callMember_congr babel babel' c1
      (fun r hr => h r ((hm r).2 (Or.inr (Or.inr (Or.inr (Or.inr (Or.inr (Or.inr hr))))))))
    rw [checked_two_steps, checked_two_steps]
    simp only [e1, e2, e3, e4, e5, e6, e7]
  · rfl

/-- With a collaborator that returns a node whenever it does not throw, no builder
throws: the chain generator with the checks of the builders returns the tree, or
throws the error, of the chain generator without them. -/
theorem checked_agrees (babel : Babel ε α) (e : Str) (cls : List Clause) :
    Checked.transformListComprehension babel.checked e cls
      = (Plugin.transformListComprehension babel e cls).mapError Failure.thrown := by
  rcases cls with _ | ⟨⟨v1, it1, c1⟩, _ | ⟨⟨v2, it2, c2⟩, _ | ⟨cl3, cls⟩⟩⟩
  · rfl
  · simp only [Checked.transformListComprehension, Plugin.transformListComprehension,
      Babel.checked, Checked.makeParam, Plugin.makeParam, bind, Except.bind, pure, Except.pure,
      Except.map, Except.mapError]
    cases babel.parseExpression it1 <;> try rfl
    cases babel.parseExpression e <;> try rfl
    cases (includes v1 '[' || includes v1 '\x7b') <;>
      simp only [Bool.false_eq_true, if_false, if_true] <;>
      (try (cases babel.parseFirstParam ("(".toList ++ v1 ++ ") => \x7b\x7d".toList) <;>
        try rfl)) <;>
      cases truthy c1 <;> (try rfl) <;>
      cases babel.parseExpression (c1.getD []) <;> rfl
  · simp only [Checked.transformListComprehension, Plugin.transformListComprehension,
      Babel.checked, Checked.makeParam, Plugin.makeParam, bind, Except.bind, pure, Except.pure,
      Except.map, Except.mapError]
    cases babel.parseExpression it1 <;> try rfl
    cases babel.parseExpression it2 <;> try rfl
    cases babel.parseExpression e <;> try rfl
    cases (includes v1 '[' || includes v1 '\x7b') <;>
      simp only [Bool.false_eq_true, if_false, if_true] <;>
      (try (cases babel.parseFirstParam ("(".toList ++ v1 ++ ") => \x7b\x7d".toList) <;>
        try rfl)) <;>
      cases (includes v2 '[' || includes v2 '\x7b') <;>
      simp only [Bool.false_eq_true, if_false, if_true] <;>
      (try (cases babel.parseFirstParam ("(".toList ++ v2 ++ ") => \x7b\x7d".toList) <;>
        try rfl)) <;>
      cases truthy c2 <;>
      (try (cases babel.parseExpression (c2.getD []) <;> try rfl)) <;>
      cases truthy c1 <;> (try rfl) <;>
      cases babel.parseExpression (c1.getD []) <;> rfl
  · rfl

/-- C12 (amended): for one or two clauses, the chain generator returns a tree
exactly when every request listed for the clauses (each iterable, the yield text,
`(<pattern>) => ...` for each destructuring pattern, each present condition)
returns a node, and it never returns without a tree; an error of the collaborator
that it throws is the error of one of these requests; with a collaborator that
returns a node whenever it does not throw, it fails exactly when one of the
requests fails, and then with the error of a request, never with a `TypeError`;
when every request returns and one returns `undefined`, it throws the `TypeError`
of a builder; its outcome depends on the answers to these requests only, and a
plain identifier and an absent condition are no request. -/
theorem generator_failures (babel : Checked.Babel ε α) (e : Str) (cls : List Clause)
    (hlen : cls.length = 1 ∨ cls.length = 2) :
    ((∀ r ∈ requests e cls, ∃ a, babel.answer r = .ok (some a)) ↔
        ∃ tree, Checked.transformListComprehension babel e cls = .ok (some tree))
      ∧ Checked.transformListComprehension babel e cls ≠ .ok none
      ∧ (∀ err, Checked.transformListComprehension babel e cls = .error (.thrown err) →
          ∃ r ∈ requests e cls, babel.answer r = .error err)
      ∧ ((∀ r ∈ requests e cls, babel.answer r ≠ .ok none) →
          ((∃ r ∈ requests e cls, ∃ err, babel.answer r = .error err) ↔
            ∃ err, Checked.transformListComprehension babel e cls = .error (.thrown err))
          ∧ Checked.transformListComprehension babel e cls ≠ .error .typeError)
      ∧ ((∀ r ∈ requests e cls, ∃ a, babel.answer r = .ok a) →
          (∃ r ∈ requests e cls, babel.answer r = .ok none) →
          Checked.transformListComprehension babel e cls = .error .typeError)
      ∧ (∀ babel' : Checked.Babel ε α,
          (∀ r ∈ requests e cls, babel'.answer r = babel.answer r) →
          Checked.transformListComprehension babel' e cls
            = Checked.transformListComprehension babel e cls)
      ∧ (∀ v it : Str, (includes v '[' || includes v '\x7b') = false →
          requests e [⟨v, it, none⟩] = [.expression it, .expression e]) := by
  have hout := checked_outcome babel e cls hlen
  refine ⟨⟨?_, ?_⟩, ?_, ?_, ?_, ?_, fun babel' h => checked_congr babel babel' e cls h, ?_⟩
  · intro hall
    rcases hout with ⟨ht, _⟩ | ⟨_, r, hr, hra⟩ | ⟨err, _, r, hr, hra⟩
    · exact ht
    · obtain ⟨a, ha⟩ := hall r hr
      rw [ha] at hra
      cases hra
    · obtain ⟨a, ha⟩ := hall r hr
      rw [ha] at hra
      cases hra
  · rintro ⟨tree, ht⟩
    rcases hout with ⟨_, hall⟩ | ⟨hG, _⟩ | ⟨err, hG, _⟩
    · exact hall
    · rw [hG] at ht; cases ht
    · rw [hG] at ht; cases ht
  · intro hnone
    rcases hout with ⟨⟨tree, hG⟩, _⟩ | ⟨hG, _⟩ | ⟨err, hG, _⟩ <;> rw [hG] at hnone <;>
      cases hnone
  · intro err herr
    rcases hout with ⟨⟨tree, hG⟩, _⟩ | ⟨hG, _⟩ | ⟨err', hG, hr⟩
    · rw [hG] at herr; cases herr
    · rw [hG] at herr; cases herr
    · rw [hG] at herr
      cases herr
      exact hr
  · intro hnode
    refine ⟨⟨?_, ?_⟩, ?_⟩
    · rintro ⟨r, hr, err, hra⟩
      rcases hout with ⟨_, hall⟩ | ⟨_, r', hr', hra'⟩ | ⟨err', hG, _⟩
      · obtain ⟨a, ha⟩ := hall r hr
        rw [ha] at hra
        cases hra
      · exact absurd hra' (hnode r' hr')
      · exact ⟨err', hG⟩
    · rintro ⟨err, herr⟩
      rcases hout with ⟨⟨tree, hG⟩, _⟩ | ⟨hG, _⟩ | ⟨err', hG, r, hr, hra⟩
      · rw [hG] at herr; cases herr
      · rw [hG] at herr; cases herr
      · exact ⟨r, hr, err', hra⟩
    · intro hG
      rcases hout with ⟨⟨tree, hG'⟩, _⟩ | ⟨_, r', hr', hra'⟩ | ⟨err', hG', _⟩
      · rw [hG] at hG'; cases hG'
      · exact absurd hra' (hnode r' hr')
      · rw [hG] at hG'; cases hG'
  · intro hret ⟨r, hr, hra⟩
    rcases hout with ⟨_, hall⟩ | ⟨hG, _⟩ | ⟨err, _, r', hr', hra'⟩
    · obtain ⟨a, ha⟩ := hall r hr
      rw [ha] at hra
      cases hra
    · exact hG
    · obtain ⟨a, ha⟩ := hret r' hr'
      rw [ha] at hra'
      cases hra'
  · intro v it hv
    simp [requests, paramRequests, conditionRequests, hv]

/-- The instance of C12 at `x * x for (x of numbers) if (x % 2 === 0)`, where every
request returns a node. -/
theorem generator_failures_witness :
    ∃ tree, Checked.transformListComprehension blockBabel "x * x".toList
        [⟨"x".toList, "numbers".toList, some "x % 2 === 0".toList⟩] = .ok (some tree) :=
  (generator_failures blockBabel "x * x".toList
    [⟨"x".toList, "numbers".toList, some "x % 2 === 0".toList⟩] (Or.inl rfl)).1.1
    (by
      have hreq : requests "x * x".toList
          [⟨"x".toList, "numbers".toList, some "x % 2 === 0".toList⟩]
          = [.expression "numbers".toList, .expression "x * x".toList,
              .expression "x % 2 === 0".toList] := by decide
      intro r hr
      rw [hreq] at hr
      simp only [List.mem_cons, List.mem_singleton, List.not_mem_nil, or_false] at hr
      rcases hr with rfl | rfl | rfl <;> exact ⟨_, rfl⟩)

/-- C12 as stated fails: for `x for (a of {})` every text that is parsed is parsed
without error (the iterable `{}` is a block, and no expression is returned for it),
and yet no tree is returned: the builder of the member expression throws a
`TypeError`; for the yield text `{}` with the condition `x +`, the parse of the
condition would fail, but the builder of the arrow function throws first, so the
error is not the error of a parse. -/
theorem generator_failures_counterexample :
    (∀ r ∈ requests "x".toList [⟨"a".toList, "\x7b\x7d".toList, none⟩],
        ∃ a, blockBabel.answer r = .ok a)
      ∧ Checked.transformListComprehension blockBabel "x".toList
          [⟨"a".toList, "\x7b\x7d".toList, none⟩] = .error .typeError
      ∧ (∃ r ∈ requests "\x7b\x7d".toList [⟨"a".toList, "b".toList, some "x +".toList⟩],
          blockBabel.answer r = .error ())
      ∧ Checked.transformListComprehension blockBabel "\x7b\x7d".toList
          [⟨"a".toList, "b".toList, some "x +".toList⟩] = .error .typeError := by
  refine ⟨?_, rfl, ⟨.expression "x +".toList, by decide, rfl⟩, rfl⟩
  intro r hr
  have : r = .expression "\x7b\x7d".toList ∨ r = .expression "x".toList := by
    revert hr
    simp [requests, paramRequests, conditionRequests, includes]
  rcases this with rfl | rfl
  · exact ⟨none, rfl⟩
  · exact ⟨some "x".toList, rfl⟩

/-- C15, on the code: for the yield text `x, y` the plugin makes the whole parsed
yield expression the body of the inner arrow function, under the parameters `x` and
`y`; the preprocessor writes the yield text bare after `y => `, so the text it
returns is the text it returns for the yield text `x` with `, y` put after the
arrow function `y => x`, as a second argument of `map`, outside the parameter `y`. -/
theorem preprocessor_yield_bare :
    (∃ tree, Plugin.taggedTemplateExpression textBabel
          ⟨⟨"Identifier".toList, some "list".toList⟩,
            "x, y for (x of xs) for (y of ys)".toList⟩ = .ok (some tree)
        ∧ tree.leafScopes []
          = [("xs".toList, []), ("ys".toList, [.identifier "x".toList]),
             ("x, y".toList, [.identifier "x".toList, .identifier "y".toList])])
      ∧ Preprocessor.transformListComprehension
          "/*list*/\x60x for (x of xs) for (y of ys)\x60".toList
        = "(xs).flatMap(x => (ys).map(".toList ++ "y => x".toList ++ "))".toList
      ∧ Preprocessor.transformListComprehension
          "/*list*/\x60x, y for (x of xs) for (y of ys)\x60".toList
        = "(xs).flatMap(x => (ys).map(".toList ++ "y => x".toList ++ ", y".toList
            ++ "))".toList
      ∧ Preprocessor.transformListComprehension
          "/*list*/\x60x, y for (x of xs) for (y of ys)\x60".toList
        = "(xs).flatMap(x => (ys).map(y => x, y))".toList := by
  refine ⟨⟨_, rfl, rfl⟩, by decide, by decide, by decide⟩

end ListComprehension
